import Mathlib

/-!
Shallow embedding of the maze puzzle game core
(`generateAdaptiveLevel`, `movePlayer`, `useHint`, `rotateMatrix`,
`rotatePos`, trap relocation, `initializeLevel`) together with proofs
of the specification claims.

Conventions:
* JS `Math.random()` is modelled by a stream `Rng`: the `t`-th call
  returns `seq t`, and `Math.floor(Math.random() * k)` is `seq t % k`.
* JS numbers used as counters/coordinates are `Nat`; values that can go
  negative (scores, move deltas, BFS neighbour coordinates) are `Int`.
* The fractional difficulty arithmetic is modelled over `ℚ`.
-/

namespace Maze

/-! ### Tile constants (the `TILES` object) -/

def EMPTY : Nat := 0
def WALL : Nat := 1
def KEY : Nat := 3
def DOOR : Nat := 4
def GOAL : Nat := 5
def TRAP : Nat := 6

/-- Stands for the JS `undefined` an out-of-bounds array read yields:
distinct from every tile constant, so that `undefined === TILE`
comparisons are `false` exactly as in the source. -/
def UNDEF : Nat := 999

/-- A cell position `{x, y}`. -/
structure Pos where
  x : Nat
  y : Nat
deriving DecidableEq, Repr

/-- A map is a matrix of tile numbers, row major: `map[y][x]`. -/
abbrev Grid := List (List Nat)

/-- Read `map[y][x]`; out of bounds gives the `undefined` marker. -/
def tileAt (m : Grid) (x y : Nat) : Nat := (m.getD y []).getD x UNDEF

/-- Write `map[y][x] = v`. -/
def setTile (m : Grid) (x y v : Nat) : Grid := m.set y ((m.getD y []).set x v)

/-! ### The random stream -/

/-- The `Math.random()` stream: the call with counter `idx` yields `seq idx`,
scaled into `[0, k)` by `take`. Quantifying over `seq` quantifies over
every possible sequence of random draws. -/
structure Rng where
  seq : Nat → Nat
  idx : Nat

/-- `Math.floor(Math.random() * k)` for the next call of the stream. -/
def Rng.take (r : Rng) (k : Nat) : Nat × Rng :=
  (if k = 0 then 0 else r.seq r.idx % k, ⟨r.seq, r.idx + 1⟩)

/-! ### `rotateMatrix`, `rotatePos`, `getEmptyPositions` -/

/-- `rotateMatrix`: the nested loop writes `result[x][N-1-y] = matrix[y][x]`
for all `x, y < N`, i.e. row `i`, column `j` of the result holds
`matrix[N-1-j][i]`; every cell of the `N × N` zero-initialised result is
written exactly once, so the result is exactly this table. -/
def rotateMatrix (matrix : Grid) : Grid :=
  let N := matrix.length
  (List.range N).map fun i => (List.range N).map fun j => tileAt matrix i (N - 1 - j)

/-- `rotatePos`: rotate a position 90 degrees clockwise in an `N × N` grid. -/
def rotatePos (pos : Pos) (N : Nat) : Pos := ⟨N - 1 - pos.y, pos.x⟩

/-- `getEmptyPositions`: all `{x, y}` with `map[y][x] === EMPTY`, scanning
rows `y` (bounded by `map.length`) and columns `x` (also bounded by
`map.length`), row major. -/
def getEmptyPositions (map : Grid) : List Pos :=
  (List.range map.length).flatMap fun y =>
    (List.range map.length).filterMap fun x =>
      if tileAt map x y = EMPTY then some ⟨x, y⟩ else none

/-! ### `isPathExists`: BFS reachability ignoring `WALL` -/

/-- The `visited` matrix, `size × size`, all `false`. -/
def falseMat (size : Nat) : List (List Bool) :=
  List.replicate size (List.replicate size false)

/-- Read `visited[y][x]`. -/
def visAt (v : List (List Bool)) (x y : Nat) : Bool := (v.getD y []).getD x false

/-- Write `visited[y][x] = true`. -/
def setVis (v : List (List Bool)) (x y : Nat) : List (List Bool) :=
  v.set y ((v.getD y []).set x true)

/-- The `directions` array shared by both BFS routines. -/
def directions : List (Int × Int) := [(0, 1), (1, 0), (0, -1), (-1, 0)]

/-- Neighbour expansion of `isPathExists` for one direction: push the
neighbour when it is inside the grid, unvisited and not a `WALL`. -/
def expandPE (map : Grid) (size : Nat) (cur : Pos)
    (st : List Pos × List (List Bool)) (d : Int × Int) :
    List Pos × List (List Bool) :=
  let nx : Int := (cur.x : Int) + d.1
  let ny : Int := (cur.y : Int) + d.2
  if 0 ≤ nx ∧ nx < (size : Int) ∧ 0 ≤ ny ∧ ny < (size : Int) ∧
      visAt st.2 nx.toNat ny.toNat = false ∧ tileAt map nx.toNat ny.toNat ≠ WALL then
    (st.1 ++ [⟨nx.toNat, ny.toNat⟩], setVis st.2 nx.toNat ny.toNat)
  else st

/-- The while loop of `isPathExists`: pop the queue head, return `true`
when it is the goal, else push its admissible neighbours. -/
def isPathExistsLoop (map : Grid) (goal : Pos) (size : Nat) :
    Nat → List Pos → List (List Bool) → Bool
  | 0, _, _ => false
  | _ + 1, [], _ => false
  | fuel + 1, cur :: rest, visited =>
    if cur = goal then true
    else
      let st := directions.foldl (expandPE map size cur) (rest, visited)
      isPathExistsLoop map goal size fuel st.1 st.2

/-- `isPathExists`. The while loop runs at most `size * size` iterations
(each iteration pops one cell, and every pushed cell is freshly marked
visited in a `size × size` matrix), so fuel `size * size + 1` reproduces
the unbounded JS loop exactly. -/
def isPathExists (map : Grid) (start goal : Pos) (size : Nat) : Bool :=
  isPathExistsLoop map goal size (size * size + 1) [start]
    (setVis (falseMat size) start.x start.y)

/-! ### `generateAdaptiveLevel` -/

/-- The `baseSize × baseSize` all-`EMPTY` map after the border-fill loop:
that loop writes `WALL` to exactly the cells whose `x` or `y` is `0` or
`baseSize - 1`. -/
def borderedMap (N : Nat) : Grid :=
  (List.range N).map fun y => (List.range N).map fun x =>
    if y = 0 ∨ y = N - 1 ∨ x = 0 ∨ x = N - 1 then WALL else EMPTY

/-- Number of unit steps between two coordinates. -/
def natDist (a b : Nat) : Nat := (a - b) + (b - a)

/-- First while loop of `createPath`: move `current.x` one step toward
`to.x`, clear any `WALL` met, and push a copy of each visited cell. The
loop runs exactly `natDist cur.x dst.x` times, which is the fuel it is
called with. -/
def carveX : Nat → Pos → Pos → Grid → List Pos → Grid × Pos × List Pos
  | 0, cur, _, map, path => (map, cur, path)
  | fuel + 1, cur, dst, map, path =>
    if cur.x = dst.x then (map, cur, path)
    else
      let nx := if cur.x < dst.x then cur.x + 1 else cur.x - 1
      let cur2 : Pos := ⟨nx, cur.y⟩
      let map2 := if tileAt map nx cur.y = WALL then setTile map nx cur.y EMPTY else map
      carveX fuel cur2 dst map2 (path ++ [cur2])

/-- Second while loop of `createPath`, along `y`. -/
def carveY : Nat → Pos → Pos → Grid → List Pos → Grid × Pos × List Pos
  | 0, cur, _, map, path => (map, cur, path)
  | fuel + 1, cur, dst, map, path =>
    if cur.y = dst.y then (map, cur, path)
    else
      let ny := if cur.y < dst.y then cur.y + 1 else cur.y - 1
      let cur2 : Pos := ⟨cur.x, ny⟩
      let map2 := if tileAt map cur.x ny = WALL then setTile map cur.x ny EMPTY else map
      carveY fuel cur2 dst map2 (path ++ [cur2])

/-- `createPath`. JS detail: `path[0]` is the very object `current` that
the loops mutate, while the loops push fresh copies of the later cells;
so the array returned by the source holds the final position (the
destination) in slot `0` followed by the pushed copies — the start cell
is not recorded. The embedding accumulates the pushed copies and
prepends the final `current`. Returns (map, final current, path). -/
def createPath (src dst : Pos) (map : Grid) : Grid × Pos × List Pos :=
  let r1 := carveX (natDist src.x dst.x) src dst map []
  let r2 := carveY (natDist r1.2.1.y dst.y) r1.2.1 dst r1.1 r1.2.2
  (r2.1, r2.2.1, r2.2.1 :: r2.2.2)

/-- `mainPath.some((p) => p.x === x && p.y === y)`. -/
def onPath (path : List Pos) (x y : Nat) : Bool :=
  path.any fun p => p.x == x && p.y == y

/-- Wall-placement loop: fuel counts the remaining attempts out of 50. -/
def wallLoop (startPos goalPos : Pos) (mainPath : List Pos) (N wallCount : Nat) :
    Nat → Nat → Grid → Rng → Grid × Rng
  | 0, _, map, rng => (map, rng)
  | fuel + 1, placed, map, rng =>
    if placed < wallCount then
      let d1 := rng.take (N - 2)
      let d2 := d1.2.take (N - 2)
      let x := d1.1 + 1
      let y := d2.1 + 1
      if !onPath mainPath x y && tileAt map x y == EMPTY then
        let map2 := setTile map x y WALL
        if isPathExists map2 startPos goalPos N then
          wallLoop startPos goalPos mainPath N wallCount fuel (placed + 1) map2 d2.2
        else
          wallLoop startPos goalPos mainPath N wallCount fuel placed
            (setTile map2 x y EMPTY) d2.2
      else wallLoop startPos goalPos mainPath N wallCount fuel placed map d2.2
    else (map, rng)

/-- Key-placement loop: fuel counts the remaining attempts out of 30. -/
def keyLoop (startPos : Pos) (N keyCount : Nat) :
    Nat → Nat → Grid → Rng → Grid × Rng
  | 0, _, map, rng => (map, rng)
  | fuel + 1, placed, map, rng =>
    if placed < keyCount then
      let d1 := rng.take (N - 2)
      let d2 := d1.2.take (N - 2)
      let x := d1.1 + 1
      let y := d2.1 + 1
      if tileAt map x y == EMPTY && !(x == startPos.x && y == startPos.y) &&
          isPathExists map startPos ⟨x, y⟩ N then
        keyLoop startPos N keyCount fuel (placed + 1) (setTile map x y KEY) d2.2
      else keyLoop startPos N keyCount fuel placed map d2.2
    else (map, rng)

/-- Door-placement loop: fuel counts the remaining attempts out of 30. -/
def doorLoop (startPos goalPos : Pos) (N doorCount : Nat) :
    Nat → Nat → Grid → Rng → Grid × Rng
  | 0, _, map, rng => (map, rng)
  | fuel + 1, placed, map, rng =>
    if placed < doorCount then
      let d1 := rng.take (N - 2)
      let d2 := d1.2.take (N - 2)
      let x := d1.1 + 1
      let y := d2.1 + 1
      if tileAt map x y == EMPTY && !(x == startPos.x && y == startPos.y) &&
          !(x == goalPos.x && y == goalPos.y) then
        doorLoop startPos goalPos N doorCount fuel (placed + 1) (setTile map x y DOOR) d2.2
      else doorLoop startPos goalPos N doorCount fuel placed map d2.2
    else (map, rng)

/-- Inner attempt loop for one trap (up to 20 attempts, break on success). -/
def trapTry (startPos goalPos : Pos) (mainPath : List Pos) (N : Nat) :
    Nat → Grid → Rng → Grid × Rng
  | 0, map, rng => (map, rng)
  | fuel + 1, map, rng =>
    let d1 := rng.take (N - 2)
    let d2 := d1.2.take (N - 2)
    let x := d1.1 + 1
    let y := d2.1 + 1
    if tileAt map x y == EMPTY && !(x == startPos.x && y == startPos.y) &&
        !(x == goalPos.x && y == goalPos.y) && !onPath mainPath x y then
      (setTile map x y TRAP, d2.2)
    else trapTry startPos goalPos mainPath N fuel map d2.2

/-- Outer `for` loop over `trapCount` traps. -/
def trapLoop (startPos goalPos : Pos) (mainPath : List Pos) (N : Nat) :
    Nat → Grid → Rng → Grid × Rng
  | 0, map, rng => (map, rng)
  | count + 1, map, rng =>
    let r := trapTry startPos goalPos mainPath N 20 map rng
    trapLoop startPos goalPos mainPath N count r.1 r.2

/-- The `goalFound` double scan. -/
def goalExistsScan (map : Grid) (N : Nat) : Bool :=
  (List.range N).any fun y => (List.range N).any fun x => tileAt map x y == GOAL

/-- Candidates for the defensive goal re-placement: non-`WALL`, non-start
cells, scanned row major. -/
def goalCandidates (startPos : Pos) (map : Grid) (N : Nat) : List Pos :=
  (List.range N).flatMap fun y =>
    (List.range N).filterMap fun x =>
      if tileAt map x y ≠ WALL ∧ ¬(x = startPos.x ∧ y = startPos.y) then some ⟨x, y⟩
      else none

/-- Defensive goal re-placement: if no `GOAL` survived, drop one on a
random non-`WALL`, non-start cell. -/
def ensureGoal (startPos : Pos) (N : Nat) (map : Grid) (rng : Rng) : Grid × Rng :=
  if goalExistsScan map N then (map, rng)
  else
    let cands := goalCandidates startPos map N
    if 0 < cands.length then
      let d := rng.take cands.length
      let p := cands.getD d.1 ⟨0, 0⟩
      (setTile map p.x p.y GOAL, d.2)
    else (map, rng)

/-- The previous level's completion metrics (`LevelMetrics`); only the
four compared fields matter to the generator. -/
structure LevelMetrics where
  timeToComplete : Nat
  movesUsed : Nat
  retriesUsed : Nat
  hintsUsed : Nat
deriving Repr

/-- (baseSize, wallMultiplier, trapMultiplier) per difficulty setting;
any unknown string keeps the initial defaults (10, 6, 0.5). -/
def baseParams (s : String) : Nat × ℚ × ℚ :=
  if s = "easy" then (8, 4, 3/10)
  else if s = "hard" then (20, 10, 12/10)
  else if s = "medium" then (12, 7, 7/10)
  else (10, 6, 1/2)

/-- The adaptive difficulty scalar, clamped to `[1/2, 4]`; the JS float
arithmetic (sums of multiples of 0.1) is modelled over `ℚ`. -/
def difficultyScalar (metrics : Option LevelMetrics) (level : Nat) : ℚ :=
  let d0 := min ((level : ℚ) * (3/10)) 4
  let d1 :=
    match metrics with
    | none => d0
    | some m =>
      let a := if m.timeToComplete < 30000 then d0 + 3/10 else d0
      let b := if m.movesUsed < 25 then a + 2/10 else a
      let c := if m.retriesUsed > 2 then b - 4/10 else b
      if m.hintsUsed > 1 then c - 3/10 else c
  max (1/2) (min d1 4)

/-- `generateAdaptiveLevel`: returns the map, `totalKeys` (the computed
`keyCount`, independent of how many keys were actually placed) and the
advanced random stream. -/
def generateAdaptiveLevel (difficultySetting : String) (metrics : Option LevelMetrics)
    (level : Nat) (rng : Rng) : Grid × Nat × Rng :=
  let p := baseParams difficultySetting
  let N := p.1
  let difficulty := difficultyScalar metrics level
  let startPos : Pos := ⟨1, 1⟩
  let goalPos : Pos := ⟨N - 2, N - 2⟩
  let map1 := setTile (borderedMap N) goalPos.x goalPos.y GOAL
  let c := createPath startPos goalPos map1
  let mainPath := c.2.2
  let wallCount := ⌊difficulty * p.2.1⌋₊
  let w := wallLoop startPos goalPos mainPath N wallCount 50 0 c.1 rng
  let keyCount := max 1 ⌊difficulty / 2⌋₊
  let k := keyLoop startPos N keyCount 30 0 w.1 w.2
  let doorCount := keyCount - 1
  let dr := doorLoop startPos goalPos N doorCount 30 0 k.1 k.2
  let trapCount := ⌊difficulty * p.2.2 * N⌋₊
  let t := trapLoop startPos goalPos mainPath N trapCount dr.1 dr.2
  let g := ensureGoal startPos N t.1 t.2
  (g.1, keyCount, g.2)

/-! ### Basic facts about `rotateMatrix` and `rotatePos` -/

theorem rotateMatrix_length (m : Grid) : (rotateMatrix m).length = m.length := by
  simp [rotateMatrix]

theorem rotateMatrix_getElem (m : Grid) (y : Nat) (hy : y < m.length)
    (hy2 : y < (rotateMatrix m).length) :
    (rotateMatrix m)[y] =
      (List.range m.length).map fun j => tileAt m y (m.length - 1 - j) := by
  simp [rotateMatrix]

theorem rotateMatrix_row_length (m : Grid) (y : Nat) (hy : y < m.length)
    (hy2 : y < (rotateMatrix m).length) :
    ((rotateMatrix m)[y]).length = m.length := by
  rw [rotateMatrix_getElem m y hy hy2]
  simp

theorem tileAt_rotateMatrix (m : Grid) (x y : Nat) (hx : x < m.length) (hy : y < m.length) :
    tileAt (rotateMatrix m) x y = tileAt m y (m.length - 1 - x) := by
  have hy2 : y < (rotateMatrix m).length := by simpa [rotateMatrix_length] using hy
  unfold tileAt
  rw [List.getD_eq_getElem _ _ hy2, rotateMatrix_getElem m y hy hy2]
  rw [List.getD_eq_getElem _ _ (by simpa using hx)]
  simp [tileAt]

theorem getElem_eq_tileAt (m : Grid) (x y : Nat) (hy : y < m.length)
    (hx : x < (m[y]).length) :
    (m[y])[x] = tileAt m x y := by
  unfold tileAt
  rw [List.getD_eq_getElem _ _ hy, List.getD_eq_getElem _ _ hx]

theorem rotateMatrix_four (m : Grid) (hsq : ∀ row ∈ m, row.length = m.length) :
    rotateMatrix (rotateMatrix (rotateMatrix (rotateMatrix m))) = m := by
  have l1 : (rotateMatrix m).length = m.length := rotateMatrix_length m
  have l2 : (rotateMatrix (rotateMatrix m)).length = m.length := by
    rw [rotateMatrix_length, l1]
  have l3 : (rotateMatrix (rotateMatrix (rotateMatrix m))).length = m.length := by
    rw [rotateMatrix_length, l2]
  apply List.ext_getElem (by rw [rotateMatrix_length, l3])
  intro y hy1 hy2
  have hyN : y < m.length := hy2
  apply List.ext_getElem
  · rw [rotateMatrix_row_length _ y (by rw [l3]; exact hyN)
      (by rw [rotateMatrix_length, l3]; exact hyN)]
    rw [l3]
    exact (hsq _ (List.getElem_mem hy2)).symm
  · intro x hx1 hx2
    have hxN : x < m.length := by
      have h5 := rotateMatrix_row_length (rotateMatrix (rotateMatrix (rotateMatrix m))) y
        (by rw [l3]; exact hyN) (by rw [rotateMatrix_length, l3]; exact hyN)
      omega
    rw [getElem_eq_tileAt _ x y (by rw [rotateMatrix_length, l3]; exact hyN) hx1]
    rw [getElem_eq_tileAt m x y hyN hx2]
    rw [tileAt_rotateMatrix _ x y (by rw [l3]; exact hxN) (by rw [l3]; exact hyN)]
    rw [l3]
    rw [tileAt_rotateMatrix _ y (m.length - 1 - x) (by rw [l2]; exact hyN)
      (by rw [l2]; omega)]
    rw [l2]
    rw [tileAt_rotateMatrix _ (m.length - 1 - x) (m.length - 1 - y) (by rw [l1]; omega)
      (by rw [l1]; omega)]
    rw [l1]
    rw [tileAt_rotateMatrix m (m.length - 1 - y) (m.length - 1 - (m.length - 1 - x))
      (by omega) (by omega)]
    have e1 : m.length - 1 - (m.length - 1 - x) = x := by omega
    have e2 : m.length - 1 - (m.length - 1 - y) = y := by omega
    rw [e1, e2]

theorem rotatePos_four (p : Pos) (N : Nat) (hx : p.x < N) (hy : p.y < N) :
    rotatePos (rotatePos (rotatePos (rotatePos p N) N) N) N = p := by
  obtain ⟨x, y⟩ := p
  simp only [rotatePos]
  simp only [Pos.mk.injEq] at *
  constructor <;> omega

/-- C9: applying the Board Transform's 90-degree clockwise rotation
(`rotateMatrix` for the grid, `rotatePos` for the player position) four
times to an `N × N` grid and an in-bounds position returns the original
grid and the original position. -/
theorem claim_C9_rotation_four_identity (m : Grid) (p : Pos) (N : Nat)
    (hN : m.length = N) (hsq : ∀ row ∈ m, row.length = N)
    (hx : p.x < N) (hy : p.y < N) :
    rotateMatrix (rotateMatrix (rotateMatrix (rotateMatrix m))) = m ∧
    rotatePos (rotatePos (rotatePos (rotatePos p N) N) N) N = p := by
  constructor
  · exact rotateMatrix_four m (by rw [hN]; simpa [hN] using hsq)
  · exact rotatePos_four p N hx hy

/-- Witness for C9 at a concrete 2 by 2 grid and position. -/
theorem claim_C9_witness :
    rotateMatrix (rotateMatrix (rotateMatrix (rotateMatrix [[0, 1], [2, 3]]))) =
      [[0, 1], [2, 3]] ∧
    rotatePos (rotatePos (rotatePos (rotatePos ⟨0, 1⟩ 2) 2) 2) 2 = (⟨0, 1⟩ : Pos) :=
  claim_C9_rotation_four_identity [[0, 1], [2, 3]] ⟨0, 1⟩ 2 (by decide)
    (by decide) (by decide) (by decide)

/-! ### Game state and the interaction engine -/

inductive GStatus
  | playing
  | completed
  | failed
deriving DecidableEq, Repr

/-- Notices surfaced to the caller (the toast side channel). -/
inductive Notice
  | doorLocked
  | keyCollected
  | doorUnlocked
  | trapTriggered
  | levelComplete
deriving DecidableEq, Repr

/-- The `GameState` record. Counters are `Nat`; `score`, `xp`, `coins`
are `Int` (the trap penalty subtracts before clamping). The `theme`
field stores the drawn index into the three-element `THEMES` table. -/
structure GameState where
  level : Nat
  score : Int
  xp : Int
  coins : Int
  currentMap : Grid
  playerPos : Pos
  keysCollected : Nat
  totalKeys : Nat
  gameStatus : GStatus
  startTime : Nat
  moves : Nat
  retries : Nat
  hintsUsed : Nat
  theme : Nat
  completionData : Option LevelMetrics
deriving Repr

/-- Remove all `KEY` and `GOAL` tiles (the double loop of the Board
Transform writes `EMPTY` to exactly those cells). -/
def clearKeysGoals (m : Grid) : Grid :=
  m.map fun row => row.map fun t => if t = KEY ∨ t = GOAL then EMPTY else t

/-- Key re-placement loop of the Board Transform: while keys remain and
empty cells exist, drop a key on a random empty cell and splice it out
of the candidate list. -/
def placeKeysLoop : Nat → List Pos → Grid → Rng → Grid × Rng
  | 0, _, m, rng => (m, rng)
  | _ + 1, [], m, rng => (m, rng)
  | keysToPlace + 1, e0 :: erest, m, rng =>
    let empty := e0 :: erest
    let d := rng.take empty.length
    let p := empty.getD d.1 ⟨0, 0⟩
    placeKeysLoop keysToPlace (empty.eraseIdx d.1) (setTile m p.x p.y KEY) d.2

/-- All non-`WALL` cells, row major, both loops bounded by `map.length`
(the force-place fallback of the Board Transform's goal placement). -/
def nonWallCells (m : Grid) : List Pos :=
  (List.range m.length).flatMap fun y =>
    (List.range m.length).filterMap fun x =>
      if tileAt m x y ≠ WALL then some ⟨x, y⟩ else none

/-- Goal re-placement of the Board Transform: a random empty cell, else
force-place over a random non-`WALL` cell. -/
def placeGoalRot (m : Grid) (rng : Rng) : Grid × Rng :=
  let empty := getEmptyPositions m
  if 0 < empty.length then
    let d := rng.take empty.length
    let p := empty.getD d.1 ⟨0, 0⟩
    (setTile m p.x p.y GOAL, d.2)
  else
    let candidates := nonWallCells m
    if 0 < candidates.length then
      let d := rng.take candidates.length
      let p := candidates.getD d.1 ⟨0, 0⟩
      (setTile m p.x p.y GOAL, d.2)
    else (m, rng)

/-- The hard-mode Board Transform block inside `movePlayer`: rotate the
map and the player position, clear keys and goal, re-place `totalKeys`
keys and one goal. -/
def boardTransform (m : Grid) (pos : Pos) (totalKeys : Nat) (rng : Rng) :
    Grid × Pos × Rng :=
  let N := m.length
  let rotated := clearKeysGoals (rotateMatrix m)
  let pos2 := rotatePos pos N
  let k := placeKeysLoop totalKeys (getEmptyPositions rotated) rotated rng
  let g := placeGoalRot k.1 k.2
  (g.1, pos2, g.2)

/-- `movePlayer`: guards, tile effects, and the hard-mode rotation,
returning the next state and the notices raised. `difficultySetting` is
the `getDifficulty()` read at move time, `now` is `Date.now()`. -/
def movePlayer (difficultySetting : String) (now : Nat) (rng : Rng)
    (s : GameState) (dx dy : Int) : GameState × List Notice :=
  if s.gameStatus ≠ GStatus.playing then (s, [])
  else
    let newX : Int := (s.playerPos.x : Int) + dx
    let newY : Int := (s.playerPos.y : Int) + dy
    let map := s.currentMap
    if newX < 0 ∨ ((map.headD []).length : Int) ≤ newX ∨ newY < 0 ∨
        (map.length : Int) ≤ newY then (s, [])
    else
      let nx := newX.toNat
      let ny := newY.toNat
      let targetTile := tileAt map nx ny
      if targetTile = WALL then (s, [])
      else if targetTile = DOOR ∧ s.keysCollected = 0 then (s, [Notice.doorLocked])
      else
        let moves2 := s.moves + 1
        let base := { s with
          playerPos := (⟨nx, ny⟩ : Pos)
          moves := moves2 }
        let step :=
          if targetTile = KEY then
            ({ base with
                currentMap := setTile map nx ny EMPTY
                keysCollected := s.keysCollected + 1
                coins := s.coins + 10 }, [Notice.keyCollected])
          else if targetTile = DOOR ∧ 0 < s.keysCollected then
            ({ base with
                currentMap := setTile map nx ny EMPTY
                keysCollected := s.keysCollected - 1
                score := s.score + 50 }, [Notice.doorUnlocked])
          else if targetTile = TRAP then
            ({ base with
                playerPos := (⟨1, 1⟩ : Pos)
                retries := s.retries + 1
                score := max 0 (s.score - 25) }, [Notice.trapTriggered])
          else if targetTile = GOAL then
            let timeToComplete : Int := (now : Int) - (s.startTime : Int)
            let timeBonus : Int := max 0 (Int.fdiv (120000 - timeToComplete) 1000)
            let moveBonus : Int := max 0 ((100 - (moves2 : Int)) * 5)
            let levelBonus : Int := (s.level : Int) * 100
            let perfectBonus : Int := if s.retries = 0 then (s.level : Int) * 50 else 0
            ({ base with
                gameStatus := GStatus.completed
                score := s.score + (timeBonus + moveBonus + levelBonus + perfectBonus)
                xp := s.xp + ((s.level : Int) * 50 + perfectBonus)
                coins := s.coins + (s.level : Int) * 20
                completionData :=
                  some ⟨timeToComplete.toNat, moves2, s.retries, s.hintsUsed⟩ },
              [Notice.levelComplete])
          else (base, [])
        let s1 := step.1
        if difficultySetting = "hard" ∧ 0 < moves2 ∧ moves2 % 20 = 0 then
          let bt := boardTransform s1.currentMap s1.playerPos s.totalKeys rng
          ({ s1 with
              currentMap := bt.1
              playerPos := bt.2.1 }, step.2)
        else (s1, step.2)

/-- `initializeLevel`: regenerate the map and reset per-level fields.
As in the source, `moves` and `keysCollected` are reset to 0 while
`retries` and `hintsUsed` are left untouched. -/
def initializeLevel (difficultySetting : String) (metrics : Option LevelMetrics)
    (now : Nat) (rng : Rng) (s : GameState) : GameState :=
  let g := generateAdaptiveLevel difficultySetting metrics s.level rng
  let t := g.2.2.take 3
  { s with
      currentMap := g.1
      playerPos := (⟨1, 1⟩ : Pos)
      keysCollected := 0
      totalKeys := g.2.1
      gameStatus := GStatus.playing
      startTime := now
      moves := 0
      theme := t.1 }

/-- `nextLevel`: bump the level, then re-initialize. -/
def nextLevel (difficultySetting : String) (metrics : Option LevelMetrics)
    (now : Nat) (rng : Rng) (s : GameState) : GameState :=
  initializeLevel difficultySetting metrics now rng { s with level := s.level + 1 }

/-- `restartLevel`: increment `retries`, then re-initialize. -/
def restartLevel (difficultySetting : String) (metrics : Option LevelMetrics)
    (now : Nat) (rng : Rng) (s : GameState) : GameState :=
  initializeLevel difficultySetting metrics now rng { s with retries := s.retries + 1 }

/-! ### The trap-relocation interval effect -/

/-- Trap scan of the relocation effect, row major, each row bounded by
its own length. -/
def trapPositions (m : Grid) : List Pos :=
  (List.range m.length).flatMap fun y =>
    (List.range (m.getD y []).length).filterMap fun x =>
      if tileAt m x y = TRAP then some ⟨x, y⟩ else none

/-- Removing every trap: the `forEach` writes `EMPTY` to exactly the
scanned trap cells, i.e. pointwise `TRAP → EMPTY`. -/
def clearTraps (m : Grid) : Grid :=
  m.map fun row => row.map fun t => if t = TRAP then EMPTY else t

/-- One trap placement: up to 50 attempts at a random cell (`x` drawn
from `map[0].length`, `y` from `map.length`) that is `EMPTY` and not the
player's cell. The Boolean records whether placement succeeded. -/
def placeTrapTry (player : Pos) : Nat → Grid → Rng → Grid × Rng × Bool
  | 0, m, rng => (m, rng, false)
  | fuel + 1, m, rng =>
    let d1 := rng.take (m.headD []).length
    let d2 := d1.2.take m.length
    let x := d1.1
    let y := d2.1
    if tileAt m x y = EMPTY ∧ ¬(x = player.x ∧ y = player.y) then
      (setTile m x y TRAP, d2.2, true)
    else placeTrapTry player fuel m d2.2

/-- The placement pass over the removed traps (one `placeTrapTry` per
scanned trap); the Boolean is `true` iff every placement succeeded. -/
def placeTrapsLoop (player : Pos) : Nat → Grid → Rng → Grid × Rng × Bool
  | 0, m, rng => (m, rng, true)
  | count + 1, m, rng =>
    let r := placeTrapTry player 50 m rng
    let rest := placeTrapsLoop player count r.1 r.2.1
    (rest.1, rest.2.1, r.2.2 && rest.2.2)

/-- The body of the 2–3 second trap-relocation interval callback. -/
def relocateTraps (rng : Rng) (s : GameState) : GameState :=
  let traps := trapPositions s.currentMap
  let m1 := clearTraps s.currentMap
  let r := placeTrapsLoop s.playerPos traps.length m1 rng
  { s with currentMap := r.1 }

/-! ### Concrete objects used by witnesses and counterexamples -/

/-- The all-zero random stream. -/
def rngZero : Rng := ⟨fun _ => 0, 0⟩

/-- A 4 by 4 state used to exercise the trap branch: player at (1,1),
a trap at (2,1), the goal at (2,2), 19 moves already made. -/
def stTrap : GameState :=
  { level := 1, score := 100, xp := 0, coins := 0
    currentMap := [[1, 1, 1, 1], [1, 0, 6, 1], [1, 0, 5, 1], [1, 1, 1, 1]]
    playerPos := ⟨1, 1⟩, keysCollected := 0, totalKeys := 1
    gameStatus := GStatus.playing, startTime := 0, moves := 19, retries := 0
    hintsUsed := 0, theme := 0, completionData := none }

/-! ### C7: the movement guards are no-ops -/

/-- C7: `movePlayer` leaves the state unchanged when the game is not
`playing`, when the target is out of bounds, or when the target tile is
a `WALL`; when the target is a locked `DOOR` (no keys), the state is
unchanged and only the advisory `doorLocked` notice is returned. -/
theorem claim_C7_guard_noop (d : String) (now : Nat) (rng : Rng)
    (s : GameState) (dx dy : Int) :
    (s.gameStatus ≠ GStatus.playing → movePlayer d now rng s dx dy = (s, [])) ∧
    (((s.playerPos.x : Int) + dx < 0 ∨
        ((s.currentMap.headD []).length : Int) ≤ (s.playerPos.x : Int) + dx ∨
        (s.playerPos.y : Int) + dy < 0 ∨
        (s.currentMap.length : Int) ≤ (s.playerPos.y : Int) + dy →
      movePlayer d now rng s dx dy = (s, [])) ∧
    (tileAt s.currentMap ((s.playerPos.x : Int) + dx).toNat
        ((s.playerPos.y : Int) + dy).toNat = WALL →
      movePlayer d now rng s dx dy = (s, [])) ∧
    (s.gameStatus = GStatus.playing →
      ¬((s.playerPos.x : Int) + dx < 0 ∨
        ((s.currentMap.headD []).length : Int) ≤ (s.playerPos.x : Int) + dx ∨
        (s.playerPos.y : Int) + dy < 0 ∨
        (s.currentMap.length : Int) ≤ (s.playerPos.y : Int) + dy) →
      tileAt s.currentMap ((s.playerPos.x : Int) + dx).toNat
        ((s.playerPos.y : Int) + dy).toNat = DOOR →
      s.keysCollected = 0 →
      movePlayer d now rng s dx dy = (s, [Notice.doorLocked]))) := by
  unfold movePlayer
  refine ⟨fun h => by rw [if_pos h], fun h => ?_, fun h => ?_, fun h1 h2 h3 h4 => ?_⟩
  · by_cases hs : s.gameStatus ≠ GStatus.playing
    · rw [if_pos hs]
    · rw [if_neg hs]
      simp only
      rw [if_pos h]
  · by_cases hs : s.gameStatus ≠ GStatus.playing
    · rw [if_pos hs]
    · rw [if_neg hs]
      simp only
      by_cases hb : ((s.playerPos.x : Int) + dx < 0 ∨
          ((s.currentMap.headD []).length : Int) ≤ (s.playerPos.x : Int) + dx ∨
          (s.playerPos.y : Int) + dy < 0 ∨
          (s.currentMap.length : Int) ≤ (s.playerPos.y : Int) + dy)
      · rw [if_pos hb]
      · rw [if_neg hb]
        rw [if_pos h]
  · rw [if_neg (by simp [h1])]
    rw [if_neg h2]
    simp only
    rw [if_neg (by simp [h3, WALL, DOOR]), if_pos ⟨h3, h4⟩]

/-- Witness for C7: all four guard rejections at concrete inputs. -/
theorem claim_C7_witness :
    movePlayer "medium" 0 rngZero { stTrap with gameStatus := GStatus.completed } 1 0 =
      ({ stTrap with gameStatus := GStatus.completed }, []) ∧
    movePlayer "medium" 0 rngZero stTrap (-2) 0 = (stTrap, []) ∧
    movePlayer "medium" 0 rngZero stTrap 0 (-1) = (stTrap, []) ∧
    movePlayer "medium" 0 rngZero
        { stTrap with currentMap := [[1, 1, 1, 1], [1, 0, 4, 1], [1, 0, 5, 1], [1, 1, 1, 1]] }
        1 0 =
      ({ stTrap with currentMap := [[1, 1, 1, 1], [1, 0, 4, 1], [1, 0, 5, 1], [1, 1, 1, 1]] },
        [Notice.doorLocked]) := by
  refine ⟨?_, ?_, ?_, ?_⟩
  · exact (claim_C7_guard_noop "medium" 0 rngZero _ 1 0).1 (by decide)
  · exact (claim_C7_guard_noop "medium" 0 rngZero _ (-2) 0).2.1 (by decide)
  · exact (claim_C7_guard_noop "medium" 0 rngZero _ 0 (-1)).2.2.1 (by decide)
  · exact (claim_C7_guard_noop "medium" 0 rngZero _ 1 0).2.2.2 (by decide) (by decide)
      (by decide) (by decide)

/-! ### C8: the trap branch -/

/-- C8 (amended): with status `playing` and an in-bounds `TRAP` target,
`movePlayer` increments `retries` by 1 and clamps `score` to
`max 0 (score - 25)`; the player is teleported to `(1,1)` provided the
hard-mode rotation does not fire on this move (on `hard` difficulty with
the new move count a multiple of 20, the rotation subsequently moves the
teleported player away from `(1,1)`). -/
theorem claim_C8_trap_branch (d : String) (now : Nat) (rng : Rng)
    (s : GameState) (dx dy : Int)
    (hst : s.gameStatus = GStatus.playing)
    (hin : ¬((s.playerPos.x : Int) + dx < 0 ∨
      ((s.currentMap.headD []).length : Int) ≤ (s.playerPos.x : Int) + dx ∨
      (s.playerPos.y : Int) + dy < 0 ∨
      (s.currentMap.length : Int) ≤ (s.playerPos.y : Int) + dy))
    (htrap : tileAt s.currentMap ((s.playerPos.x : Int) + dx).toNat
      ((s.playerPos.y : Int) + dy).toNat = TRAP) :
    (movePlayer d now rng s dx dy).1.retries = s.retries + 1 ∧
    (movePlayer d now rng s dx dy).1.score = max 0 (s.score - 25) ∧
    (¬(d = "hard" ∧ (s.moves + 1) % 20 = 0) →
      (movePlayer d now rng s dx dy).1.playerPos = (⟨1, 1⟩ : Pos)) := by
  simp only [movePlayer]
  rw [if_neg (by simp [hst]), if_neg hin, htrap]
  simp only [TRAP, WALL, KEY, DOOR, GOAL]
  norm_num
  by_cases hrot : d = "hard" ∧ (s.moves + 1) % 20 = 0
  · rw [if_pos hrot]
    refine ⟨rfl, rfl, fun hno => absurd (hno hrot.1) (by simp [hrot.2])⟩
  · rw [if_neg hrot]
    exact ⟨rfl, rfl, fun _ => rfl⟩

/-- Counterexample for C8 as stated: on `hard` difficulty at move count
19, stepping on the trap teleports the player to `(1,1)` but the
board rotation then moves them away, so the final position is not
`(1,1)` (retries and score behave as claimed). -/
theorem claim_C8_counterexample :
    stTrap.gameStatus = GStatus.playing ∧
    tileAt stTrap.currentMap 2 1 = TRAP ∧
    (movePlayer "hard" 0 rngZero stTrap 1 0).1.playerPos ≠ (⟨1, 1⟩ : Pos) := by
  refine ⟨rfl, rfl, ?_⟩
  decide

/-- Witness for C8 at a concrete non-rotating trap move. -/
theorem claim_C8_witness :
    (movePlayer "medium" 0 rngZero { stTrap with moves := 0 } 1 0).1.retries = 0 + 1 ∧
    (movePlayer "medium" 0 rngZero { stTrap with moves := 0 } 1 0).1.score =
      max 0 (100 - 25) ∧
    (movePlayer "medium" 0 rngZero { stTrap with moves := 0 } 1 0).1.playerPos =
      (⟨1, 1⟩ : Pos) := by
  have h := claim_C8_trap_branch "medium" 0 rngZero { stTrap with moves := 0 } 1 0
    rfl (by decide) (by decide)
  exact ⟨h.1, h.2.1, h.2.2 (by decide)⟩

/-! ### C5: the goal branch score delta -/

/-- C5: landing on the `GOAL` while `playing` adds exactly
`timeBonus + moveBonus + levelBonus + perfectBonus` to the score, where
`timeBonus = max 0 ⌊(120000 - elapsed)/1000⌋`,
`moveBonus = max 0 ((100 - moves) * 5)` for the updated move count,
`levelBonus = level * 100`, and `perfectBonus = level * 50` iff
`retries = 0`. -/
theorem claim_C5_goal_score (d : String) (now : Nat) (rng : Rng)
    (s : GameState) (dx dy : Int)
    (hst : s.gameStatus = GStatus.playing)
    (hin : ¬((s.playerPos.x : Int) + dx < 0 ∨
      ((s.currentMap.headD []).length : Int) ≤ (s.playerPos.x : Int) + dx ∨
      (s.playerPos.y : Int) + dy < 0 ∨
      (s.currentMap.length : Int) ≤ (s.playerPos.y : Int) + dy))
    (hgoal : tileAt s.currentMap ((s.playerPos.x : Int) + dx).toNat
      ((s.playerPos.y : Int) + dy).toNat = GOAL) :
    (movePlayer d now rng s dx dy).1.score =
      s.score +
        (max 0 (Int.fdiv (120000 - ((now : Int) - (s.startTime : Int))) 1000) +
          max 0 ((100 - ((s.moves + 1 : Nat) : Int)) * 5) +
          (s.level : Int) * 100 +
          (if s.retries = 0 then (s.level : Int) * 50 else 0)) := by
  simp only [movePlayer]
  rw [if_neg (by simp [hst]), if_neg hin, hgoal]
  simp only [TRAP, WALL, KEY, DOOR, GOAL]
  norm_num
  by_cases hrot : d = "hard" ∧ (s.moves + 1) % 20 = 0
  · rw [if_pos hrot]
  · rw [if_neg hrot]

/-- A concrete state one step left of the goal: level 3, 39 moves made,
no retries, started at time 0. -/
def stGoal : GameState :=
  { stTrap with
      currentMap := [[1, 1, 1, 1], [1, 0, 5, 1], [1, 0, 0, 1], [1, 1, 1, 1]]
      level := 3
      moves := 39
      score := 0 }

/-- Witness for C5: the spec's concrete case — level 3, 40th move onto
the goal, 50000 ms elapsed, no retries — adds exactly 820 points. -/
theorem claim_C5_witness :
    (movePlayer "medium" 50000 rngZero stGoal 1 0).1.score = 820 := by
  have h := claim_C5_goal_score "medium" 50000 rngZero stGoal 1 0 rfl (by decide) (by decide)
  rw [h]
  decide

/-! ### C3: per-level counter resets -/

/-- C3 (amended): level initialization resets `moves` and
`keysCollected` to 0, but leaves `retries` and `hintsUsed` unchanged;
`nextLevel` preserves both and `restartLevel` increments `retries`. -/
theorem claim_C3_level_init_counters (d : String) (metrics : Option LevelMetrics)
    (now : Nat) (rng : Rng) (s : GameState) :
    (initializeLevel d metrics now rng s).moves = 0 ∧
    (initializeLevel d metrics now rng s).keysCollected = 0 ∧
    (initializeLevel d metrics now rng s).retries = s.retries ∧
    (initializeLevel d metrics now rng s).hintsUsed = s.hintsUsed ∧
    (nextLevel d metrics now rng s).retries = s.retries ∧
    (nextLevel d metrics now rng s).hintsUsed = s.hintsUsed ∧
    (restartLevel d metrics now rng s).retries = s.retries + 1 :=
  ⟨rfl, rfl, rfl, rfl, rfl, rfl, rfl⟩

/-- Counterexample for C3 as stated: a state with `retries = 2` and
`hintsUsed = 1` keeps those values across level initialization (and a
restart even increments `retries`), so they are not reset to 0. -/
theorem claim_C3_counterexample :
    (initializeLevel "medium" none 0 rngZero
      { stTrap with retries := 2, hintsUsed := 1 }).retries ≠ 0 ∧
    (initializeLevel "medium" none 0 rngZero
      { stTrap with retries := 2, hintsUsed := 1 }).hintsUsed ≠ 0 ∧
    (restartLevel "medium" none 0 rngZero
      { stTrap with retries := 2, hintsUsed := 1 }).retries ≠ 0 := by
  refine ⟨?_, ?_, ?_⟩ <;> decide

/-! ### Cell access toolkit -/

theorem getD_set_self {α : Type} (l : List α) (i : Nat) (a d : α) (h : i < l.length) :
    (l.set i a).getD i d = a := by
  simp [List.getD_eq_getElem?_getD, List.getElem?_set_eq_of_lt _ h]

theorem getD_set_ne {α : Type} (l : List α) (i j : Nat) (a d : α) (h : i ≠ j) :
    (l.set i a).getD j d = l.getD j d := by
  simp [List.getD_eq_getElem?_getD, List.getElem?_set_ne h]

theorem length_setTile (m : Grid) (x y v : Nat) : (setTile m x y v).length = m.length := by
  simp [setTile]

theorem bounds_of_tileAt (m : Grid) (x y t : Nat) (ht : t ≠ UNDEF)
    (h : tileAt m x y = t) : y < m.length ∧ x < (m.getD y []).length := by
  unfold tileAt at h
  by_cases hx : x < (m.getD y []).length
  · refine ⟨?_, hx⟩
    by_cases hy : y < m.length
    · exact hy
    · exfalso
      rw [List.getD_eq_default m _ (Nat.le_of_not_lt hy)] at hx
      simp at hx
  · exfalso
    rw [List.getD_eq_default _ _ (Nat.le_of_not_lt hx)] at h
    exact ht h.symm

theorem tileAt_setTile_self (m : Grid) (x y v : Nat)
    (hy : y < m.length) (hx : x < (m.getD y []).length) :
    tileAt (setTile m x y v) x y = v := by
  unfold tileAt setTile
  rw [getD_set_self _ _ _ _ hy]
  rw [getD_set_self _ _ _ _ hx]

theorem tileAt_setTile_ne (m : Grid) (x y v x' y' : Nat)
    (h : ¬(x' = x ∧ y' = y)) :
    tileAt (setTile m x y v) x' y' = tileAt m x' y' := by
  unfold tileAt setTile
  by_cases hy : y' = y
  · subst hy
    have hx : x ≠ x' := fun he => h ⟨he.symm, rfl⟩
    by_cases hyl : y' < m.length
    · rw [getD_set_self _ _ _ _ hyl, getD_set_ne _ _ _ _ _ hx]
    · rw [List.set_eq_of_length_le (by omega)]
  · rw [getD_set_ne _ _ _ _ _ fun he => hy he.symm]

/-- `tileAt` through a pointwise cell transformation that fixes the
out-of-bounds marker. -/
theorem tileAt_cellMap (f : Nat → Nat) (hf : f UNDEF = UNDEF) (m : Grid) (x y : Nat) :
    tileAt (m.map fun row => row.map f) x y = f (tileAt m x y) := by
  unfold tileAt
  by_cases hy : y < m.length
  · have h1 : (m.map fun row => row.map f).getD y [] = (m.getD y []).map f := by
      rw [List.getD_eq_getElem _ _ (by simpa using hy), List.getD_eq_getElem _ _ hy,
        List.getElem_map]
    rw [h1]
    by_cases hx : x < (m.getD y []).length
    · rw [List.getD_eq_getElem _ _ (by simpa using hx), List.getD_eq_getElem _ _ hx,
        List.getElem_map]
    · rw [List.getD_eq_default _ _ (by simpa using Nat.le_of_not_lt hx),
        List.getD_eq_default _ _ (Nat.le_of_not_lt hx), hf]
  · have h1 : (m.map fun row => row.map f).getD y [] = [] :=
      List.getD_eq_default _ _ (by simpa using Nat.le_of_not_lt hy)
    have h2 : m.getD y [] = [] := List.getD_eq_default _ _ (Nat.le_of_not_lt hy)
    rw [h1, h2]
    simp only [List.getD_nil]
    exact hf.symm

/-! ### Counting tiles -/

/-- Number of cells holding the given tile kind. -/
def countTile (m : Grid) (t : Nat) : Nat := (m.map fun row => row.count t).sum

theorem countTile_clearTraps (m : Grid) : countTile (clearTraps m) TRAP = 0 := by
  unfold countTile clearTraps
  rw [List.map_map]
  have h : ∀ row ∈ m, ((fun row => List.count TRAP row) ∘
      fun row => row.map fun t => if t = TRAP then EMPTY else t) row = 0 := by
    intro row _
    simp only [Function.comp]
    rw [List.count_eq_zero]
    intro ha
    rw [List.mem_map] at ha
    obtain ⟨b, _, hb⟩ := ha
    by_cases hbt : b = TRAP
    · rw [if_pos hbt] at hb
      exact absurd hb (by decide)
    · rw [if_neg hbt] at hb
      exact hbt hb
  calc (m.map _).sum = (m.map fun _ => 0).sum :=
        congrArg List.sum (List.map_congr_left h)
    _ = 0 := by simp

theorem count_row_filterMap (row : List Nat) (t : Nat) (f : Nat → Pos) :
    ((List.range row.length).filterMap fun x =>
      if row.getD x UNDEF = t then some (f x) else none).length = row.count t := by
  induction row using List.reverseRecOn with
  | nil => simp
  | append_singleton l a ih =>
    rw [List.length_append, List.length_singleton, List.range_succ, List.filterMap_append]
    have hcong : ((List.range l.length).filterMap fun x =>
        if (l ++ [a]).getD x UNDEF = t then some (f x) else none) =
        (List.range l.length).filterMap fun x =>
          if l.getD x UNDEF = t then some (f x) else none := by
      apply List.filterMap_congr
      intro x hx
      rw [List.mem_range] at hx
      rw [List.getD_eq_getElem?_getD, List.getElem?_append_left hx,
        ← List.getD_eq_getElem?_getD]
    have hlast : (l ++ [a]).getD l.length UNDEF = a := by
      rw [List.getD_eq_getElem?_getD, List.getElem?_append_right (le_refl _)]
      simp
    rw [hcong, List.length_append, ih, List.count_append]
    by_cases ha : a = t
    · simp [hlast, ha]
    · simp [hlast, ha, List.count_cons]

theorem map_range_getD {α β : Type} (m : List α) (d : α) (g : α → β) :
    (List.range m.length).map (fun y => g (m.getD y d)) = m.map g := by
  induction m with
  | nil => simp
  | cons a l ih =>
    rw [List.length_cons, List.range_succ_eq_map, List.map_cons, List.map_map]
    have hfun : ((fun y => g ((a :: l).getD y d)) ∘ Nat.succ) =
        fun y => g (l.getD y d) := by
      funext y
      rfl
    rw [hfun, ih, List.map_cons]
    rfl

theorem trapPositions_length (m : Grid) :
    (trapPositions m).length = countTile m TRAP := by
  unfold trapPositions countTile
  rw [List.length_flatMap]
  have hfun : (List.length ∘ fun y => (List.range (m.getD y []).length).filterMap fun x =>
      if tileAt m x y = TRAP then some ((⟨x, y⟩ : Pos)) else none) =
      fun y => (m.getD y []).count TRAP := by
    funext y
    exact count_row_filterMap (m.getD y []) TRAP fun x => ⟨x, y⟩
  rw [hfun]
  exact congrArg List.sum (map_range_getD m [] fun row => row.count TRAP)

theorem count_set_succ (l : List Nat) (x t a : Nat) (hx : x < l.length)
    (hold : l.getD x UNDEF ≠ t) (ha : a = t) :
    (l.set x a).count t = l.count t + 1 := by
  induction l generalizing x with
  | nil => simp at hx
  | cons b l ih =>
    match x with
    | 0 =>
      simp only [List.set_cons_zero, List.count_cons]
      have hb : b ≠ t := by simpa [List.getD] using hold
      simp [ha, hb]
    | x + 1 =>
      simp only [List.set_cons_succ, List.count_cons]
      rw [ih x (by simpa using hx) (by simpa [List.getD] using hold)]
      omega

theorem countTile_setTile_succ (m : Grid) (x t a : Nat) (ha : a = t) :
    ∀ y, tileAt m x y ≠ t → y < m.length → x < (m.getD y []).length →
      countTile (setTile m x y a) t = countTile m t + 1 := by
  induction m with
  | nil =>
    intro y _ hy _
    simp at hy
  | cons r rest ih =>
    intro y hold hy hx
    match y with
    | 0 =>
      unfold countTile setTile
      simp only [List.getD_cons_zero, List.set_cons_zero, List.map_cons, List.sum_cons]
      rw [count_set_succ r x t a (by simpa using hx) (by simpa [tileAt] using hold) ha]
      omega
    | y + 1 =>
      unfold countTile setTile at ih ⊢
      simp only [List.getD_cons_succ, List.set_cons_succ, List.map_cons, List.sum_cons]
      rw [ih y (by simpa [tileAt] using hold) (by simpa using hy) (by simpa using hx)]
      omega

/-! ### Behaviour of the trap relocation loops -/

theorem placeTrapTry_spec (player : Pos) (fuel : Nat) (m : Grid) (rng : Rng) :
    ((placeTrapTry player fuel m rng).2.2 = false ∧ (placeTrapTry player fuel m rng).1 = m) ∨
    ((placeTrapTry player fuel m rng).2.2 = true ∧ ∃ x y,
      tileAt m x y = EMPTY ∧ ¬(x = player.x ∧ y = player.y) ∧
      (placeTrapTry player fuel m rng).1 = setTile m x y TRAP) := by
  induction fuel generalizing rng with
  | zero => exact Or.inl ⟨rfl, rfl⟩
  | succ n ih =>
    simp only [placeTrapTry]
    by_cases h : tileAt m ((rng.take (m.headD []).length).1)
        (((rng.take (m.headD []).length).2.take m.length).1) = EMPTY ∧
        ¬(((rng.take (m.headD []).length).1) = player.x ∧
          (((rng.take (m.headD []).length).2.take m.length).1) = player.y)
    · rw [if_pos h]
      exact Or.inr ⟨rfl, _, _, h.1, h.2, rfl⟩
    · rw [if_neg h]
      exact ih _

/-- Each placement round adds at most one trap, exactly one on success. -/
theorem placeTrapsLoop_count (player : Pos) (k : Nat) (m : Grid) (rng : Rng) :
    countTile (placeTrapsLoop player k m rng).1 TRAP ≤ countTile m TRAP + k ∧
    ((placeTrapsLoop player k m rng).2.2 = true →
      countTile (placeTrapsLoop player k m rng).1 TRAP = countTile m TRAP + k) := by
  induction k generalizing m rng with
  | zero => exact ⟨Nat.le_refl _, fun _ => rfl⟩
  | succ n ih =>
    simp only [placeTrapsLoop]
    rcases placeTrapTry_spec player 50 m rng with ⟨hf, hm⟩ | ⟨ht, x, y, he, _, hm⟩
    · rw [hm]
      constructor
      · exact Nat.le_trans (ih _ _).1 (by omega)
      · intro hall
        rw [Bool.and_eq_true] at hall
        rw [hf] at hall
        exact absurd hall.1 (by decide)
    · rw [hm]
      have hcnt : countTile (setTile m x y TRAP) TRAP = countTile m TRAP + 1 := by
        obtain ⟨hy, hx⟩ := bounds_of_tileAt m x y EMPTY (by decide) he
        exact countTile_setTile_succ m x TRAP TRAP rfl y (by rw [he]; decide) hy hx
      constructor
      · exact Nat.le_trans (ih _ _).1 (by omega)
      · intro hall
        rw [Bool.and_eq_true] at hall
        rw [(ih _ _).2 hall.2, hcnt]
        omega

/-- Pointwise invariant of the placement pass: relative to a reference
map `m0`, every `EMPTY` cell of the working map was `EMPTY` or `TRAP` in
`m0`, and every `TRAP` cell is off the player and was `EMPTY` or `TRAP`
in `m0`. -/
def TrapInv (player : Pos) (m0 m : Grid) : Prop :=
  (∀ x y, tileAt m x y = EMPTY → tileAt m0 x y = EMPTY ∨ tileAt m0 x y = TRAP) ∧
  (∀ x y, tileAt m x y = TRAP → ¬(x = player.x ∧ y = player.y) ∧
    (tileAt m0 x y = EMPTY ∨ tileAt m0 x y = TRAP))

theorem trapInv_setTile (player : Pos) (m0 m : Grid) (x y : Nat)
    (hinv : TrapInv player m0 m) (he : tileAt m x y = EMPTY)
    (hp : ¬(x = player.x ∧ y = player.y)) :
    TrapInv player m0 (setTile m x y TRAP) := by
  obtain ⟨hy, hx⟩ := bounds_of_tileAt m x y EMPTY (by decide) he
  constructor
  · intro x' y' h
    by_cases hsame : x' = x ∧ y' = y
    · rw [hsame.1, hsame.2, tileAt_setTile_self m x y TRAP hy hx] at h
      exact absurd h (by decide)
    · rw [tileAt_setTile_ne m x y TRAP x' y' hsame] at h
      exact hinv.1 x' y' h
  · intro x' y' h
    by_cases hsame : x' = x ∧ y' = y
    · rw [hsame.1, hsame.2]
      exact ⟨hp, hinv.1 x y he⟩
    · rw [tileAt_setTile_ne m x y TRAP x' y' hsame] at h
      exact hinv.2 x' y' h

theorem placeTrapsLoop_inv (player : Pos) (m0 : Grid) (k : Nat) (m : Grid) (rng : Rng)
    (hinv : TrapInv player m0 m) :
    TrapInv player m0 (placeTrapsLoop player k m rng).1 := by
  induction k generalizing m rng with
  | zero => exact hinv
  | succ n ih =>
    simp only [placeTrapsLoop]
    rcases placeTrapTry_spec player 50 m rng with ⟨_, hm⟩ | ⟨_, x, y, he, hp, hm⟩
    · rw [hm]
      exact ih _ _ hinv
    · rw [hm]
      exact ih _ _ (trapInv_setTile player m0 m x y hinv he hp)

theorem trapInv_clearTraps (player : Pos) (m0 : Grid) :
    TrapInv player m0 (clearTraps m0) := by
  have hcell : ∀ x y, tileAt (clearTraps m0) x y =
      if tileAt m0 x y = TRAP then EMPTY else tileAt m0 x y := fun x y =>
    tileAt_cellMap (fun t => if t = TRAP then EMPTY else t) (by decide) m0 x y
  constructor
  · intro x y h
    rw [hcell] at h
    by_cases ht : tileAt m0 x y = TRAP
    · exact Or.inr ht
    · rw [if_neg ht] at h
      exact Or.inl h
  · intro x y h
    rw [hcell] at h
    by_cases ht : tileAt m0 x y = TRAP
    · rw [if_pos ht] at h
      exact absurd h (by decide)
    · rw [if_neg ht] at h
      exact absurd h ht

/-! ### C2: trap relocation -/

/-- C2 (amended): one firing of the trap-relocation step never increases
the number of `TRAP` tiles; every `TRAP` tile afterwards is on a
non-player cell that before the step was `EMPTY` or held one of the
removed traps; and whenever every one of the per-trap placement attempts
succeeds within its 50-draw cap, the number of traps is exactly
conserved. (As stated the claim fails: a placement round can exhaust all
50 draws and drop its trap.) -/
theorem claim_C2_trap_relocation (rng : Rng) (s : GameState) :
    countTile (relocateTraps rng s).currentMap TRAP ≤ countTile s.currentMap TRAP ∧
    (∀ x y, tileAt (relocateTraps rng s).currentMap x y = TRAP →
      ¬(x = s.playerPos.x ∧ y = s.playerPos.y) ∧
      (tileAt s.currentMap x y = EMPTY ∨ tileAt s.currentMap x y = TRAP)) ∧
    ((placeTrapsLoop s.playerPos (trapPositions s.currentMap).length
        (clearTraps s.currentMap) rng).2.2 = true →
      countTile (relocateTraps rng s).currentMap TRAP = countTile s.currentMap TRAP) := by
  have hmap : (relocateTraps rng s).currentMap =
      (placeTrapsLoop s.playerPos (trapPositions s.currentMap).length
        (clearTraps s.currentMap) rng).1 := rfl
  have hcount := placeTrapsLoop_count s.playerPos (trapPositions s.currentMap).length
    (clearTraps s.currentMap) rng
  refine ⟨?_, ?_, ?_⟩
  · rw [hmap]
    refine Nat.le_trans hcount.1 (Nat.le_of_eq ?_)
    rw [countTile_clearTraps, Nat.zero_add]
    exact trapPositions_length s.currentMap
  · intro x y h
    rw [hmap] at h
    exact (placeTrapsLoop_inv s.playerPos s.currentMap _ _ rng
      (trapInv_clearTraps s.playerPos s.currentMap)).2 x y h
  · intro hall
    rw [hmap, hcount.2 hall, countTile_clearTraps, Nat.zero_add]
    exact trapPositions_length s.currentMap

theorem difficultyScalar_none_one : difficultyScalar none 1 = 1/2 := by
  unfold difficultyScalar
  norm_num

/-- Unfolding of `generateAdaptiveLevel` once the difficulty-derived
counts are computed. -/
theorem generateAdaptiveLevel_eq (ds : String) (metrics : Option LevelMetrics)
    (level : Nat) (rng : Rng) (N : Nat) (wm tm : ℚ) (wallCount keyCount trapCount : Nat)
    (hbp : baseParams ds = (N, wm, tm))
    (hw : ⌊difficultyScalar metrics level * wm⌋₊ = wallCount)
    (hk : max 1 ⌊difficultyScalar metrics level / 2⌋₊ = keyCount)
    (ht : ⌊difficultyScalar metrics level * tm * N⌋₊ = trapCount) :
    generateAdaptiveLevel ds metrics level rng =
      (let startPos : Pos := ⟨1, 1⟩
       let goalPos : Pos := ⟨N - 2, N - 2⟩
       let map1 := setTile (borderedMap N) (N - 2) (N - 2) GOAL
       let c := createPath startPos goalPos map1
       let w := wallLoop startPos goalPos c.2.2 N wallCount 50 0 c.1 rng
       let k := keyLoop startPos N keyCount 30 0 w.1 w.2
       let dr := doorLoop startPos goalPos N (keyCount - 1) 30 0 k.1 k.2
       let t := trapLoop startPos goalPos c.2.2 N trapCount dr.1 dr.2
       let g := ensureGoal startPos N t.1 t.2
       (g.1, keyCount, g.2)) := by
  unfold generateAdaptiveLevel
  rw [hbp]
  simp only
  rw [hw, hk, ht]

theorem mediumCounts :
    ⌊difficultyScalar none 1 * (7 : ℚ)⌋₊ = 3 ∧
    max 1 ⌊difficultyScalar none 1 / 2⌋₊ = 1 ∧
    ⌊difficultyScalar none 1 * (7/10 : ℚ) * (12 : Nat)⌋₊ = 4 := by
  rw [difficultyScalar_none_one]
  refine ⟨?_, ?_, ?_⟩
  · rw [Nat.floor_eq_iff (by norm_num)]
    norm_num
  · have h : ⌊(1/2 : ℚ) / 2⌋₊ = 0 := by
      rw [Nat.floor_eq_iff (by norm_num)]
      norm_num
    rw [h]
    simp
  · rw [Nat.floor_eq_iff (by norm_num)]
    norm_num

/-- Medium-difficulty stream: the wall lands on (2,2), one trap on (4,4);
the key loop never finds a free cell. -/
def rngTrapGen : Rng := ⟨fun i => if i < 160 then 1 else 3, 0⟩

/-- A freshly generated medium-difficulty state (one trap, at (4,4)). -/
def stMedium : GameState := initializeLevel "medium" none 0 rngTrapGen stTrap

theorem stMedium_map : stMedium.currentMap =
    (let startPos : Pos := ⟨1, 1⟩
     let goalPos : Pos := ⟨10, 10⟩
     let map1 := setTile (borderedMap 12) 10 10 GOAL
     let c := createPath startPos goalPos map1
     let w := wallLoop startPos goalPos c.2.2 12 3 50 0 c.1 rngTrapGen
     let k := keyLoop startPos 12 1 30 0 w.1 w.2
     let dr := doorLoop startPos goalPos 12 0 30 0 k.1 k.2
     let t := trapLoop startPos goalPos c.2.2 12 4 dr.1 dr.2
     (ensureGoal startPos 12 t.1 t.2).1) := by
  show (generateAdaptiveLevel "medium" none 1 rngTrapGen).1 = _
  rw [generateAdaptiveLevel_eq "medium" none 1 rngTrapGen 12 7 (7/10) 3 1 4 rfl
    mediumCounts.1 mediumCounts.2.1 mediumCounts.2.2]

set_option maxRecDepth 100000 in
/-- Counterexample for C2 as stated: on this freshly generated
medium-difficulty state with one trap, the relocation step driven by the
all-zero stream (every draw hits the wall cell (0,0)) exhausts all 50
attempts and drops the trap, so the trap count is not conserved. -/
theorem claim_C2_counterexample :
    countTile stMedium.currentMap TRAP = 1 ∧
    countTile (relocateTraps rngZero stMedium).currentMap TRAP = 0 := by
  have hm := stMedium_map
  constructor
  · rw [hm]
    decide
  · show countTile (placeTrapsLoop stMedium.playerPos
      (trapPositions stMedium.currentMap).length (clearTraps stMedium.currentMap) rngZero).1
        TRAP = 0
    rw [show stMedium.playerPos = (⟨1, 1⟩ : Pos) from rfl, hm]
    decide

/-- Stream whose first two draws are 2 then 1, relocating a trap to (2,1). -/
def rngPair21 : Rng := ⟨fun i => if i % 2 = 0 then 2 else 1, 0⟩

/-- Witness for C2 at a concrete state where the placement succeeds:
the trap count is conserved. -/
theorem claim_C2_witness :
    countTile (relocateTraps rngPair21 stTrap).currentMap TRAP =
      countTile stTrap.currentMap TRAP :=
  (claim_C2_trap_relocation rngPair21 stTrap).2.2 (by decide)

/-! ### Shape and border invariants -/

/-- Every row has the same length as the column count. -/
def SquareGrid (m : Grid) : Prop := ∀ row ∈ m, row.length = m.length

/-- The outer ring is entirely `WALL`. -/
def BorderWall (m : Grid) : Prop :=
  ∀ x y, x < m.length → y < m.length →
    (x = 0 ∨ x = m.length - 1 ∨ y = 0 ∨ y = m.length - 1) →
    tileAt m x y = WALL

theorem squareGrid_setTile (m : Grid) (x y v : Nat) (h : SquareGrid m) :
    SquareGrid (setTile m x y v) := by
  intro row hrow
  rw [length_setTile]
  unfold setTile at hrow
  rcases List.mem_or_eq_of_mem_set hrow with hmem | heq
  · exact h row hmem
  · by_cases hy : y < m.length
    · rw [heq, List.length_set]
      exact h _ (List.getD_eq_getElem m [] hy ▸ List.getElem_mem hy)
    · rw [List.set_eq_of_length_le (Nat.le_of_not_lt hy)] at hrow
      exact h row hrow

/-- A write strictly inside the ring preserves the border invariant. -/
theorem borderWall_setTile_interior (m : Grid) (x y v : Nat)
    (hb : BorderWall m) (hx1 : 0 < x) (hx2 : x < m.length - 1)
    (hy1 : 0 < y) (hy2 : y < m.length - 1) :
    BorderWall (setTile m x y v) := by
  intro x' y' hx' hy' hony
  rw [length_setTile] at hx' hy' hony
  rw [tileAt_setTile_ne]
  · exact hb x' y' hx' hy' hony
  · rintro ⟨rfl, rfl⟩
    omega

theorem tileAt_borderedMap (N x y : Nat) (hx : x < N) (hy : y < N) :
    tileAt (borderedMap N) x y =
      if y = 0 ∨ y = N - 1 ∨ x = 0 ∨ x = N - 1 then WALL else EMPTY := by
  unfold tileAt borderedMap
  have h1 : ((List.range N).map fun y => (List.range N).map fun x =>
      if y = 0 ∨ y = N - 1 ∨ x = 0 ∨ x = N - 1 then WALL else EMPTY).getD y [] =
      (List.range N).map fun x => if y = 0 ∨ y = N - 1 ∨ x = 0 ∨ x = N - 1
        then WALL else EMPTY := by
    rw [List.getD_eq_getElem _ _ (by simpa using hy), List.getElem_map,
      List.getElem_range]
  rw [h1, List.getD_eq_getElem _ _ (by simpa using hx), List.getElem_map,
    List.getElem_range]

theorem length_borderedMap (N : Nat) : (borderedMap N).length = N := by
  simp [borderedMap]

theorem squareGrid_borderedMap (N : Nat) : SquareGrid (borderedMap N) := by
  intro row hrow
  unfold borderedMap at hrow
  rw [List.mem_map] at hrow
  obtain ⟨y, _, hy⟩ := hrow
  rw [← hy]
  simp [length_borderedMap, borderedMap]

theorem borderWall_borderedMap (N : Nat) : BorderWall (borderedMap N) := by
  intro x y hx hy hon
  rw [length_borderedMap] at hx hy hon
  rw [tileAt_borderedMap N x y hx hy, if_pos (by tauto)]

/-! ### Membership in the scanned position lists -/

theorem mem_getEmptyPositions (m : Grid) (p : Pos) (h : p ∈ getEmptyPositions m) :
    tileAt m p.x p.y = EMPTY ∧ p.x < m.length ∧ p.y < m.length := by
  unfold getEmptyPositions at h
  rw [List.mem_flatMap] at h
  obtain ⟨y, hy, hmem⟩ := h
  rw [List.mem_filterMap] at hmem
  obtain ⟨x, hx, hfx⟩ := hmem
  rw [List.mem_range] at hy hx
  by_cases he : tileAt m x y = EMPTY
  · rw [if_pos he] at hfx
    cases hfx
    exact ⟨he, hx, hy⟩
  · rw [if_neg he] at hfx
    cases hfx

theorem mem_nonWallCells (m : Grid) (p : Pos) (h : p ∈ nonWallCells m) :
    tileAt m p.x p.y ≠ WALL ∧ p.x < m.length ∧ p.y < m.length := by
  unfold nonWallCells at h
  rw [List.mem_flatMap] at h
  obtain ⟨y, hy, hmem⟩ := h
  rw [List.mem_filterMap] at hmem
  obtain ⟨x, hx, hfx⟩ := hmem
  rw [List.mem_range] at hy hx
  by_cases he : tileAt m x y ≠ WALL
  · rw [if_pos he] at hfx
    cases hfx
    exact ⟨he, hx, hy⟩
  · rw [if_neg he] at hfx
    cases hfx

theorem mem_goalCandidates (sp : Pos) (m : Grid) (N : Nat) (p : Pos)
    (h : p ∈ goalCandidates sp m N) :
    tileAt m p.x p.y ≠ WALL ∧ p.x < N ∧ p.y < N := by
  unfold goalCandidates at h
  rw [List.mem_flatMap] at h
  obtain ⟨y, hy, hmem⟩ := h
  rw [List.mem_filterMap] at hmem
  obtain ⟨x, hx, hfx⟩ := hmem
  rw [List.mem_range] at hy hx
  by_cases he : tileAt m x y ≠ WALL ∧ ¬(x = sp.x ∧ y = sp.y)
  · rw [if_pos he] at hfx
    cases hfx
    exact ⟨he.1, hx, hy⟩
  · rw [if_neg he] at hfx
    cases hfx

/-! ### The generation invariant -/

/-- Invariant carried through the generator's placement loops: the map
is a bordered `N × N` square, the `GOAL` sits exactly at `(N-2, N-2)`,
and no recorded main-path cell is a `WALL`. -/
def GenInv (N : Nat) (path : List Pos) (m : Grid) : Prop :=
  m.length = N ∧ SquareGrid m ∧ BorderWall m ∧
  (∀ x y, tileAt m x y = GOAL ↔ x = N - 2 ∧ y = N - 2) ∧
  (∀ p ∈ path, tileAt m p.x p.y ≠ WALL)

theorem rngTake_lt (r : Rng) (k : Nat) (hk : 0 < k) : (r.take k).1 < k := by
  unfold Rng.take
  simp only
  rw [if_neg (by omega)]
  exact Nat.mod_lt _ hk

theorem onPath_eq_false (path : List Pos) (x y : Nat) (h : onPath path x y = false) :
    ∀ p ∈ path, ¬(p.x = x ∧ p.y = y) := by
  intro p hp hxy
  unfold onPath at h
  rw [List.any_eq_false] at h
  have h2 := h p hp
  simp [hxy.1, hxy.2] at h2

/-- An interior write of a non-`GOAL` value onto a non-`GOAL` cell
preserves the generation invariant, provided a `WALL` is only written
off the recorded path. -/
theorem genInv_write (N : Nat) (path : List Pos) (m : Grid) (x y v : Nat)
    (hN : 3 ≤ N) (hinv : GenInv N path m)
    (hx1 : 1 ≤ x) (hx2 : x ≤ N - 2) (hy1 : 1 ≤ y) (hy2 : y ≤ N - 2)
    (hold : tileAt m x y ≠ GOAL) (hvG : v ≠ GOAL)
    (hpath : v = WALL → ∀ p ∈ path, ¬(p.x = x ∧ p.y = y)) :
    GenInv N path (setTile m x y v) := by
  obtain ⟨hlen, hsq, hbw, hgoal, hpok⟩ := hinv
  have hyb : y < m.length := by omega
  have hxb : x < (m.getD y []).length := by
    rw [hsq _ (List.getD_eq_getElem m [] hyb ▸ List.getElem_mem hyb)]
    omega
  refine ⟨by rw [length_setTile]; exact hlen, squareGrid_setTile m x y v hsq, ?_, ?_, ?_⟩
  · exact borderWall_setTile_interior m x y v hbw (by omega) (by omega) (by omega) (by omega)
  · intro x' y'
    by_cases hsame : x' = x ∧ y' = y
    · rw [hsame.1, hsame.2, tileAt_setTile_self m x y v hyb hxb]
      constructor
      · intro hv
        exact absurd hv hvG
      · rintro ⟨he1, he2⟩
        exact absurd ((hgoal x y).mpr ⟨he1, he2⟩) hold
    · rw [tileAt_setTile_ne m x y v x' y' hsame]
      exact hgoal x' y'
  · intro p hp
    by_cases hsame : p.x = x ∧ p.y = y
    · rw [hsame.1, hsame.2, tileAt_setTile_self m x y v hyb hxb]
      intro hvw
      exact hpath hvw p hp hsame
    · rw [tileAt_setTile_ne m x y v p.x p.y hsame]
      exact hpok p hp

theorem wallLoop_genInv (sp gp : Pos) (mainPath : List Pos) (N wallCount : Nat)
    (hN : 3 ≤ N) :
    ∀ fuel placed m rng, GenInv N mainPath m →
      GenInv N mainPath (wallLoop sp gp mainPath N wallCount fuel placed m rng).1 := by
  intro fuel
  induction fuel with
  | zero =>
    intro placed m rng h
    exact h
  | succ n ih =>
    intro placed m rng h
    simp only [wallLoop]
    set X := (rng.take (N - 2)).1 + 1 with hX
    set Y := ((rng.take (N - 2)).2.take (N - 2)).1 + 1 with hY
    have hxlt : X ≤ N - 2 := by
      rw [hX]
      have := rngTake_lt rng (N - 2) (by omega)
      omega
    have hylt : Y ≤ N - 2 := by
      rw [hY]
      have := rngTake_lt (rng.take (N - 2)).2 (N - 2) (by omega)
      omega
    by_cases hc : placed < wallCount
    · rw [if_pos hc]
      by_cases hcond : (!onPath mainPath X Y && tileAt m X Y == EMPTY) = true
      · rw [if_pos hcond]
        rw [Bool.and_eq_true, Bool.not_eq_true', beq_iff_eq] at hcond
        have h2 := genInv_write N mainPath m X Y WALL hN h
          (by omega) hxlt (by omega) hylt
          (by rw [hcond.2]; decide) (by decide)
          (fun _ => onPath_eq_false mainPath X Y hcond.1)
        by_cases hpe : isPathExists (setTile m X Y WALL) sp gp N = true
        · rw [if_pos hpe]
          exact ih _ _ _ h2
        · rw [if_neg hpe]
          obtain ⟨hyb, hxb⟩ := bounds_of_tileAt m X Y EMPTY (by decide) hcond.2
          have h3 := genInv_write N mainPath (setTile m X Y WALL) X Y EMPTY hN h2
            (by omega) hxlt (by omega) hylt
            (by rw [tileAt_setTile_self m X Y WALL hyb hxb]; decide) (by decide)
            (fun hew => absurd hew (by decide))
          exact ih _ _ _ h3
      · rw [if_neg hcond]
        exact ih _ _ _ h
    · rw [if_neg hc]
      exact h

theorem keyLoop_genInv (sp : Pos) (mainPath : List Pos) (N keyCount : Nat)
    (hN : 3 ≤ N) :
    ∀ fuel placed m rng, GenInv N mainPath m →
      GenInv N mainPath (keyLoop sp N keyCount fuel placed m rng).1 := by
  intro fuel
  induction fuel with
  | zero =>
    intro placed m rng h
    exact h
  | succ n ih =>
    intro placed m rng h
    simp only [keyLoop]
    set X := (rng.take (N - 2)).1 + 1 with hX
    set Y := ((rng.take (N - 2)).2.take (N - 2)).1 + 1 with hY
    have hxlt : X ≤ N - 2 := by
      rw [hX]
      have := rngTake_lt rng (N - 2) (by omega)
      omega
    have hylt : Y ≤ N - 2 := by
      rw [hY]
      have := rngTake_lt (rng.take (N - 2)).2 (N - 2) (by omega)
      omega
    by_cases hc : placed < keyCount
    · rw [if_pos hc]
      by_cases hcond : (tileAt m X Y == EMPTY && !(X == sp.x && Y == sp.y) &&
          isPathExists m sp ⟨X, Y⟩ N) = true
      · rw [if_pos hcond]
        rw [Bool.and_eq_true, Bool.and_eq_true, beq_iff_eq] at hcond
        have h2 := genInv_write N mainPath m X Y KEY hN h
          (by omega) hxlt (by omega) hylt
          (by rw [hcond.1.1]; decide) (by decide)
          (fun hkw => absurd hkw (by decide))
        exact ih _ _ _ h2
      · rw [if_neg hcond]
        exact ih _ _ _ h
    · rw [if_neg hc]
      exact h

theorem doorLoop_genInv (sp gp : Pos) (mainPath : List Pos) (N doorCount : Nat)
    (hN : 3 ≤ N) :
    ∀ fuel placed m rng, GenInv N mainPath m →
      GenInv N mainPath (doorLoop sp gp N doorCount fuel placed m rng).1 := by
  intro fuel
  induction fuel with
  | zero =>
    intro placed m rng h
    exact h
  | succ n ih =>
    intro placed m rng h
    simp only [doorLoop]
    set X := (rng.take (N - 2)).1 + 1 with hX
    set Y := ((rng.take (N - 2)).2.take (N - 2)).1 + 1 with hY
    have hxlt : X ≤ N - 2 := by
      rw [hX]
      have := rngTake_lt rng (N - 2) (by omega)
      omega
    have hylt : Y ≤ N - 2 := by
      rw [hY]
      have := rngTake_lt (rng.take (N - 2)).2 (N - 2) (by omega)
      omega
    by_cases hc : placed < doorCount
    · rw [if_pos hc]
      by_cases hcond : (tileAt m X Y == EMPTY && !(X == sp.x && Y == sp.y) &&
          !(X == gp.x && Y == gp.y)) = true
      · rw [if_pos hcond]
        rw [Bool.and_eq_true, Bool.and_eq_true, beq_iff_eq] at hcond
        have h2 := genInv_write N mainPath m X Y DOOR hN h
          (by omega) hxlt (by omega) hylt
          (by rw [hcond.1.1]; decide) (by decide)
          (fun hdw => absurd hdw (by decide))
        exact ih _ _ _ h2
      · rw [if_neg hcond]
        exact ih _ _ _ h
    · rw [if_neg hc]
      exact h

theorem trapTry_genInv (sp gp : Pos) (mainPath : List Pos) (N : Nat) (hN : 3 ≤ N) :
    ∀ fuel m rng, GenInv N mainPath m →
      GenInv N mainPath (trapTry sp gp mainPath N fuel m rng).1 := by
  intro fuel
  induction fuel with
  | zero =>
    intro m rng h
    exact h
  | succ n ih =>
    intro m rng h
    simp only [trapTry]
    set X := (rng.take (N - 2)).1 + 1 with hX
    set Y := ((rng.take (N - 2)).2.take (N - 2)).1 + 1 with hY
    have hxlt : X ≤ N - 2 := by
      rw [hX]
      have := rngTake_lt rng (N - 2) (by omega)
      omega
    have hylt : Y ≤ N - 2 := by
      rw [hY]
      have := rngTake_lt (rng.take (N - 2)).2 (N - 2) (by omega)
      omega
    by_cases hcond : (tileAt m X Y == EMPTY && !(X == sp.x && Y == sp.y) &&
        !(X == gp.x && Y == gp.y) && !onPath mainPath X Y) = true
    · rw [if_pos hcond]
      rw [Bool.and_eq_true, Bool.and_eq_true, Bool.and_eq_true, beq_iff_eq] at hcond
      exact genInv_write N mainPath m X Y TRAP hN h
        (by omega) hxlt (by omega) hylt
        (by rw [hcond.1.1.1]; decide) (by decide)
        (fun htw => absurd htw (by decide))
    · rw [if_neg hcond]
      exact ih _ _ h

theorem trapLoop_genInv (sp gp : Pos) (mainPath : List Pos) (N : Nat) (hN : 3 ≤ N) :
    ∀ count m rng, GenInv N mainPath m →
      GenInv N mainPath (trapLoop sp gp mainPath N count m rng).1 := by
  intro count
  induction count with
  | zero =>
    intro m rng h
    exact h
  | succ n ih =>
    intro m rng h
    simp only [trapLoop]
    exact ih _ _ (trapTry_genInv sp gp mainPath N hN 20 m rng h)

theorem ensureGoal_of_genInv (sp : Pos) (mainPath : List Pos) (N : Nat) (m : Grid)
    (rng : Rng) (hN : 3 ≤ N) (hinv : GenInv N mainPath m) :
    ensureGoal sp N m rng = (m, rng) := by
  unfold ensureGoal
  rw [if_pos ?_]
  unfold goalExistsScan
  rw [List.any_eq_true]
  refine ⟨N - 2, List.mem_range.mpr (by omega), ?_⟩
  rw [List.any_eq_true]
  refine ⟨N - 2, List.mem_range.mpr (by omega), ?_⟩
  rw [beq_iff_eq]
  exact (hinv.2.2.2.1 (N - 2) (N - 2)).mpr ⟨rfl, rfl⟩

/-! ### 4-connected walks -/

/-- 4-connectivity of two cells. -/
def Adj (p q : Pos) : Prop :=
  (q.x = p.x + 1 ∧ q.y = p.y) ∨ (p.x = q.x + 1 ∧ q.y = p.y) ∨
  (q.y = p.y + 1 ∧ q.x = p.x) ∨ (p.y = q.y + 1 ∧ q.x = p.x)

instance (p q : Pos) : Decidable (Adj p q) := by
  unfold Adj
  infer_instance

/-- `ChainTo p l q`: `l` lists the successive cells of a 4-connected
walk from `p` (exclusive) to `q`; `l = []` means `p = q`. -/
def ChainTo : Pos → List Pos → Pos → Prop
  | p, [], q => p = q
  | p, c :: l, q => Adj p c ∧ ChainTo c l q

theorem chainTo_append (p q r : Pos) (l1 l2 : List Pos)
    (h1 : ChainTo p l1 q) (h2 : ChainTo q l2 r) : ChainTo p (l1 ++ l2) r := by
  induction l1 generalizing p with
  | nil =>
    cases h1
    exact h2
  | cons c l ih =>
    exact ⟨h1.1, ih c h1.2⟩

theorem genInv_extend (N : Nat) (path : List Pos) (m : Grid) (p : Pos)
    (h : GenInv N path m) (hp : tileAt m p.x p.y ≠ WALL) :
    GenInv N (path ++ [p]) m := by
  refine ⟨h.1, h.2.1, h.2.2.1, h.2.2.2.1, ?_⟩
  intro q hq
  rcases List.mem_append.mp hq with hq | hq
  · exact h.2.2.2.2 q hq
  · rw [List.mem_singleton] at hq
    rw [hq]
    exact hp

theorem genInv_cons (N : Nat) (path : List Pos) (m : Grid) (p : Pos)
    (h : GenInv N path m) (hp : tileAt m p.x p.y ≠ WALL) :
    GenInv N (p :: path) m := by
  refine ⟨h.1, h.2.1, h.2.2.1, h.2.2.2.1, ?_⟩
  intro q hq
  rcases List.mem_cons.mp hq with hq | hq
  · rw [hq]
    exact hp
  · exact h.2.2.2.2 q hq

/-! ### `createPath` produces a wall-free walk -/

theorem carveX_spec (N : Nat) (hN : 3 ≤ N) (dst : Pos)
    (hdx1 : 1 ≤ dst.x) (hdx2 : dst.x ≤ N - 2) :
    ∀ fuel cur m path, natDist cur.x dst.x ≤ fuel →
      1 ≤ cur.x → cur.x ≤ N - 2 → 1 ≤ cur.y → cur.y ≤ N - 2 →
      GenInv N path m →
      GenInv N (carveX fuel cur dst m path).2.2 (carveX fuel cur dst m path).1 ∧
      (carveX fuel cur dst m path).2.1 = ⟨dst.x, cur.y⟩ ∧
      ∃ l, (carveX fuel cur dst m path).2.2 = path ++ l ∧
        ChainTo cur l ⟨dst.x, cur.y⟩ := by
  intro fuel
  induction fuel with
  | zero =>
    intro cur m path hfuel hc1 hc2 hc3 hc4 hinv
    have hx : cur.x = dst.x := by
      unfold natDist at hfuel
      omega
    simp only [carveX]
    refine ⟨hinv, ?_, [], by simp, ?_⟩
    · cases cur
      simp only [Pos.mk.injEq, and_true]
      exact hx
    · show cur = ⟨dst.x, cur.y⟩
      cases cur
      simp only [Pos.mk.injEq, and_true]
      exact hx
  | succ n ih =>
    intro cur m path hfuel hc1 hc2 hc3 hc4 hinv
    simp only [carveX]
    by_cases hx : cur.x = dst.x
    · rw [if_pos hx]
      refine ⟨hinv, ?_, [], by simp, ?_⟩
      · cases cur
        simp only [Pos.mk.injEq, and_true]
        exact hx
      · show cur = ⟨dst.x, cur.y⟩
        cases cur
        simp only [Pos.mk.injEq, and_true]
        exact hx
    · rw [if_neg hx]
      set nx := if cur.x < dst.x then cur.x + 1 else cur.x - 1 with hnx
      have hnx1 : 1 ≤ nx := by
        rw [hnx]
        split_ifs <;> omega
      have hnx2 : nx ≤ N - 2 := by
        rw [hnx]
        split_ifs <;> omega
      have hdist : natDist nx dst.x ≤ n := by
        rw [hnx]
        unfold natDist at hfuel ⊢
        split_ifs <;> omega
      have hadj : Adj cur ⟨nx, cur.y⟩ := by
        rw [hnx]
        by_cases hlt : cur.x < dst.x
        · rw [if_pos hlt]
          exact Or.inl ⟨rfl, rfl⟩
        · rw [if_neg hlt]
          refine Or.inr (Or.inl ⟨?_, rfl⟩)
          simp only
          omega
      set map2 := if tileAt m nx cur.y = WALL then setTile m nx cur.y EMPTY else m
        with hmap2
      have hinv2 : GenInv N (path ++ [(⟨nx, cur.y⟩ : Pos)]) map2 ∧
          tileAt map2 nx cur.y ≠ WALL := by
        rw [hmap2]
        by_cases hw : tileAt m nx cur.y = WALL
        · rw [if_pos hw]
          obtain ⟨hyb, hxb⟩ := bounds_of_tileAt m nx cur.y WALL (by decide) hw
          have h2 := genInv_write N path m nx cur.y EMPTY hN hinv
            hnx1 hnx2 hc3 hc4 (by rw [hw]; decide) (by decide)
            (fun hew => absurd hew (by decide))
          refine ⟨genInv_extend N path _ _ h2 ?_, ?_⟩
          · rw [tileAt_setTile_self m nx cur.y EMPTY hyb hxb]
            decide
          · rw [tileAt_setTile_self m nx cur.y EMPTY hyb hxb]
            decide
        · rw [if_neg hw]
          exact ⟨genInv_extend N path m _ hinv hw, hw⟩
      have hr := ih ⟨nx, cur.y⟩ map2 (path ++ [⟨nx, cur.y⟩]) hdist hnx1 hnx2 hc3 hc4
        hinv2.1
      refine ⟨hr.1, hr.2.1, ?_⟩
      obtain ⟨l, hl, hchain⟩ := hr.2.2
      exact ⟨⟨nx, cur.y⟩ :: l, by rw [hl, List.append_assoc]; rfl,
        hadj, hchain⟩

theorem carveY_spec (N : Nat) (hN : 3 ≤ N) (dst : Pos)
    (hdy1 : 1 ≤ dst.y) (hdy2 : dst.y ≤ N - 2) :
    ∀ fuel cur m path, natDist cur.y dst.y ≤ fuel →
      1 ≤ cur.x → cur.x ≤ N - 2 → 1 ≤ cur.y → cur.y ≤ N - 2 →
      GenInv N path m →
      GenInv N (carveY fuel cur dst m path).2.2 (carveY fuel cur dst m path).1 ∧
      (carveY fuel cur dst m path).2.1 = ⟨cur.x, dst.y⟩ ∧
      ∃ l, (carveY fuel cur dst m path).2.2 = path ++ l ∧
        ChainTo cur l ⟨cur.x, dst.y⟩ := by
  intro fuel
  induction fuel with
  | zero =>
    intro cur m path hfuel hc1 hc2 hc3 hc4 hinv
    have hy : cur.y = dst.y := by
      unfold natDist at hfuel
      omega
    simp only [carveY]
    refine ⟨hinv, ?_, [], by simp, ?_⟩
    · cases cur
      simp only [Pos.mk.injEq, true_and]
      exact hy
    · show cur = ⟨cur.x, dst.y⟩
      cases cur
      simp only [Pos.mk.injEq, true_and]
      exact hy
  | succ n ih =>
    intro cur m path hfuel hc1 hc2 hc3 hc4 hinv
    simp only [carveY]
    by_cases hy : cur.y = dst.y
    · rw [if_pos hy]
      refine ⟨hinv, ?_, [], by simp, ?_⟩
      · cases cur
        simp only [Pos.mk.injEq, true_and]
        exact hy
      · show cur = ⟨cur.x, dst.y⟩
        cases cur
        simp only [Pos.mk.injEq, true_and]
        exact hy
    · rw [if_neg hy]
      set ny := if cur.y < dst.y then cur.y + 1 else cur.y - 1 with hny
      have hny1 : 1 ≤ ny := by
        rw [hny]
        split_ifs <;> omega
      have hny2 : ny ≤ N - 2 := by
        rw [hny]
        split_ifs <;> omega
      have hdist : natDist ny dst.y ≤ n := by
        rw [hny]
        unfold natDist at hfuel ⊢
        split_ifs <;> omega
      have hadj : Adj cur ⟨cur.x, ny⟩ := by
        rw [hny]
        by_cases hlt : cur.y < dst.y
        · rw [if_pos hlt]
          exact Or.inr (Or.inr (Or.inl ⟨rfl, rfl⟩))
        · rw [if_neg hlt]
          refine Or.inr (Or.inr (Or.inr ⟨?_, rfl⟩))
          simp only
          omega
      set map2 := if tileAt m cur.x ny = WALL then setTile m cur.x ny EMPTY else m
        with hmap2
      have hinv2 : GenInv N (path ++ [(⟨cur.x, ny⟩ : Pos)]) map2 ∧
          tileAt map2 cur.x ny ≠ WALL := by
        rw [hmap2]
        by_cases hw : tileAt m cur.x ny = WALL
        · rw [if_pos hw]
          obtain ⟨hyb, hxb⟩ := bounds_of_tileAt m cur.x ny WALL (by decide) hw
          have h2 := genInv_write N path m cur.x ny EMPTY hN hinv
            hc1 hc2 hny1 hny2 (by rw [hw]; decide) (by decide)
            (fun hew => absurd hew (by decide))
          refine ⟨genInv_extend N path _ _ h2 ?_, ?_⟩
          · rw [tileAt_setTile_self m cur.x ny EMPTY hyb hxb]
            decide
          · rw [tileAt_setTile_self m cur.x ny EMPTY hyb hxb]
            decide
        · rw [if_neg hw]
          exact ⟨genInv_extend N path m _ hinv hw, hw⟩
      have hr := ih ⟨cur.x, ny⟩ map2 (path ++ [⟨cur.x, ny⟩]) hdist hc1 hc2 hny1 hny2
        hinv2.1
      refine ⟨hr.1, hr.2.1, ?_⟩
      obtain ⟨l, hl, hchain⟩ := hr.2.2
      exact ⟨⟨cur.x, ny⟩ :: l, by rw [hl, List.append_assoc]; rfl,
        hadj, hchain⟩

theorem rowLen_of_square (m : Grid) (hsq : SquareGrid m) (y : Nat) (hy : y < m.length) :
    (m.getD y []).length = m.length :=
  hsq _ (List.getD_eq_getElem m [] hy ▸ List.getElem_mem hy)

theorem genInv_base (N : Nat) (hN : 3 ≤ N) :
    GenInv N [] (setTile (borderedMap N) (N - 2) (N - 2) GOAL) := by
  have hyb : N - 2 < (borderedMap N).length := by
    rw [length_borderedMap]
    omega
  have hxb : N - 2 < ((borderedMap N).getD (N - 2) []).length := by
    rw [rowLen_of_square _ (squareGrid_borderedMap N) _ hyb, length_borderedMap]
    omega
  refine ⟨?_, squareGrid_setTile _ _ _ _ (squareGrid_borderedMap N), ?_, ?_, by simp⟩
  · rw [length_setTile, length_borderedMap]
  · exact borderWall_setTile_interior _ _ _ _ (borderWall_borderedMap N) (by omega)
      (by rw [length_borderedMap]; omega) (by omega) (by rw [length_borderedMap]; omega)
  · intro x y
    by_cases hsame : x = N - 2 ∧ y = N - 2
    · rw [hsame.1, hsame.2, tileAt_setTile_self _ _ _ _ hyb hxb]
      simp [hsame.1, hsame.2]
    · rw [tileAt_setTile_ne _ _ _ _ _ _ hsame]
      constructor
      · intro hg
        exfalso
        obtain ⟨hy2, hx2⟩ := bounds_of_tileAt _ x y GOAL (by decide) hg
        have hy3 : y < N := by
          rw [length_borderedMap] at hy2
          exact hy2
        have hx3 : x < N := by
          rw [rowLen_of_square _ (squareGrid_borderedMap N) _ hy2,
            length_borderedMap] at hx2
          exact hx2
        rw [tileAt_borderedMap N x y hx3 hy3] at hg
        by_cases hb : y = 0 ∨ y = N - 1 ∨ x = 0 ∨ x = N - 1
        · rw [if_pos hb] at hg
          exact absurd hg (by decide)
        · rw [if_neg hb] at hg
          exact absurd hg (by decide)
      · intro hg
        exact absurd hg hsame

theorem createPath_spec (N : Nat) (hN : 3 ≤ N) (m : Grid)
    (hinv : GenInv N [] m) :
    GenInv N (createPath ⟨1, 1⟩ ⟨N - 2, N - 2⟩ m).2.2
      (createPath ⟨1, 1⟩ ⟨N - 2, N - 2⟩ m).1 ∧
    ∃ l, (createPath ⟨1, 1⟩ ⟨N - 2, N - 2⟩ m).2.2 = (⟨N - 2, N - 2⟩ : Pos) :: l ∧
      ChainTo ⟨1, 1⟩ l ⟨N - 2, N - 2⟩ := by
  have h1 := carveX_spec N hN ⟨N - 2, N - 2⟩ (by simp; omega) (by simp)
    (natDist 1 (N - 2)) ⟨1, 1⟩ m [] (le_refl _) (by simp) (by simp; omega)
    (by simp) (by simp; omega) hinv
  obtain ⟨hinv1, hcur1, lx, hlx, hchx⟩ := h1
  have hcur1' : (carveX (natDist 1 (N - 2)) ⟨1, 1⟩ ⟨N - 2, N - 2⟩ m []).2.1 =
      (⟨N - 2, 1⟩ : Pos) := hcur1
  have hchx' : ChainTo ⟨1, 1⟩ lx ⟨N - 2, 1⟩ := hchx
  have hlx' : (carveX (natDist 1 (N - 2)) ⟨1, 1⟩ ⟨N - 2, N - 2⟩ m []).2.2 = lx := hlx
  have h2 := carveY_spec N hN ⟨N - 2, N - 2⟩ (by simp; omega) (by simp)
    (natDist 1 (N - 2)) ⟨N - 2, 1⟩
    (carveX (natDist 1 (N - 2)) ⟨1, 1⟩ ⟨N - 2, N - 2⟩ m []).1 lx (le_refl _)
    (by simp; omega) (by simp) (by simp) (by simp; omega) (hlx' ▸ hinv1)
  obtain ⟨hinv2, hcur2, ly, hly, hchy⟩ := h2
  have hcur2' : (carveY (natDist 1 (N - 2)) ⟨N - 2, 1⟩ ⟨N - 2, N - 2⟩
      (carveX (natDist 1 (N - 2)) ⟨1, 1⟩ ⟨N - 2, N - 2⟩ m []).1 lx).2.1 =
      (⟨N - 2, N - 2⟩ : Pos) := hcur2
  have hchy' : ChainTo ⟨N - 2, 1⟩ ly ⟨N - 2, N - 2⟩ := hchy
  rw [hly] at hinv2
  unfold createPath
  dsimp only
  rw [hcur1', hlx']
  dsimp only
  rw [hcur2', hly]
  constructor
  · refine genInv_cons N _ _ _ hinv2 ?_
    dsimp only
    intro hw
    have hg := (hinv2.2.2.2.1 (N - 2) (N - 2)).mpr ⟨rfl, rfl⟩
    rw [hg] at hw
    exact absurd hw (by decide)
  · exact ⟨lx ++ ly, rfl, chainTo_append _ ⟨N - 2, 1⟩ _ lx ly hchx' hchy'⟩

theorem baseParams_ge3 (ds : String) : 3 ≤ (baseParams ds).1 := by
  unfold baseParams
  split_ifs <;> norm_num

/-- The four placement loops plus the defensive goal check preserve the
generation invariant. -/
theorem pipeline_genInv (mainPath : List Pos) (N wc kc dc tc : Nat) (hN : 3 ≤ N)
    (m : Grid) (rng : Rng) (h : GenInv N mainPath m) :
    GenInv N mainPath
      (ensureGoal ⟨1, 1⟩ N
        (trapLoop ⟨1, 1⟩ ⟨N - 2, N - 2⟩ mainPath N tc
          (doorLoop ⟨1, 1⟩ ⟨N - 2, N - 2⟩ N dc 30 0
            (keyLoop ⟨1, 1⟩ N kc 30 0
              (wallLoop ⟨1, 1⟩ ⟨N - 2, N - 2⟩ mainPath N wc 50 0 m rng).1
              (wallLoop ⟨1, 1⟩ ⟨N - 2, N - 2⟩ mainPath N wc 50 0 m rng).2).1
            (keyLoop ⟨1, 1⟩ N kc 30 0
              (wallLoop ⟨1, 1⟩ ⟨N - 2, N - 2⟩ mainPath N wc 50 0 m rng).1
              (wallLoop ⟨1, 1⟩ ⟨N - 2, N - 2⟩ mainPath N wc 50 0 m rng).2).2).1
          (doorLoop ⟨1, 1⟩ ⟨N - 2, N - 2⟩ N dc 30 0
            (keyLoop ⟨1, 1⟩ N kc 30 0
              (wallLoop ⟨1, 1⟩ ⟨N - 2, N - 2⟩ mainPath N wc 50 0 m rng).1
              (wallLoop ⟨1, 1⟩ ⟨N - 2, N - 2⟩ mainPath N wc 50 0 m rng).2).1
            (keyLoop ⟨1, 1⟩ N kc 30 0
              (wallLoop ⟨1, 1⟩ ⟨N - 2, N - 2⟩ mainPath N wc 50 0 m rng).1
              (wallLoop ⟨1, 1⟩ ⟨N - 2, N - 2⟩ mainPath N wc 50 0 m rng).2).2).2).1
        (trapLoop ⟨1, 1⟩ ⟨N - 2, N - 2⟩ mainPath N tc
          (doorLoop ⟨1, 1⟩ ⟨N - 2, N - 2⟩ N dc 30 0
            (keyLoop ⟨1, 1⟩ N kc 30 0
              (wallLoop ⟨1, 1⟩ ⟨N - 2, N - 2⟩ mainPath N wc 50 0 m rng).1
              (wallLoop ⟨1, 1⟩ ⟨N - 2, N - 2⟩ mainPath N wc 50 0 m rng).2).1
            (keyLoop ⟨1, 1⟩ N kc 30 0
              (wallLoop ⟨1, 1⟩ ⟨N - 2, N - 2⟩ mainPath N wc 50 0 m rng).1
              (wallLoop ⟨1, 1⟩ ⟨N - 2, N - 2⟩ mainPath N wc 50 0 m rng).2).2).1
          (doorLoop ⟨1, 1⟩ ⟨N - 2, N - 2⟩ N dc 30 0
            (keyLoop ⟨1, 1⟩ N kc 30 0
              (wallLoop ⟨1, 1⟩ ⟨N - 2, N - 2⟩ mainPath N wc 50 0 m rng).1
              (wallLoop ⟨1, 1⟩ ⟨N - 2, N - 2⟩ mainPath N wc 50 0 m rng).2).1
            (keyLoop ⟨1, 1⟩ N kc 30 0
              (wallLoop ⟨1, 1⟩ ⟨N - 2, N - 2⟩ mainPath N wc 50 0 m rng).1
              (wallLoop ⟨1, 1⟩ ⟨N - 2, N - 2⟩ mainPath N wc 50 0 m rng).2).2).2).2).1 := by
  have hw := wallLoop_genInv ⟨1, 1⟩ ⟨N - 2, N - 2⟩ mainPath N wc hN 50 0 m rng h
  have hk := keyLoop_genInv ⟨1, 1⟩ mainPath N kc hN 30 0 _
    (wallLoop ⟨1, 1⟩ ⟨N - 2, N - 2⟩ mainPath N wc 50 0 m rng).2 hw
  have hd := doorLoop_genInv ⟨1, 1⟩ ⟨N - 2, N - 2⟩ mainPath N dc hN 30 0 _
    (keyLoop ⟨1, 1⟩ N kc 30 0
      (wallLoop ⟨1, 1⟩ ⟨N - 2, N - 2⟩ mainPath N wc 50 0 m rng).1
      (wallLoop ⟨1, 1⟩ ⟨N - 2, N - 2⟩ mainPath N wc 50 0 m rng).2).2 hk
  have ht := trapLoop_genInv ⟨1, 1⟩ ⟨N - 2, N - 2⟩ mainPath N hN tc _
    (doorLoop ⟨1, 1⟩ ⟨N - 2, N - 2⟩ N dc 30 0
      (keyLoop ⟨1, 1⟩ N kc 30 0
        (wallLoop ⟨1, 1⟩ ⟨N - 2, N - 2⟩ mainPath N wc 50 0 m rng).1
        (wallLoop ⟨1, 1⟩ ⟨N - 2, N - 2⟩ mainPath N wc 50 0 m rng).2).1
      (keyLoop ⟨1, 1⟩ N kc 30 0
        (wallLoop ⟨1, 1⟩ ⟨N - 2, N - 2⟩ mainPath N wc 50 0 m rng).1
        (wallLoop ⟨1, 1⟩ ⟨N - 2, N - 2⟩ mainPath N wc 50 0 m rng).2).2).2 hd
  rw [ensureGoal_of_genInv ⟨1, 1⟩ mainPath N _ _ hN ht]
  exact ht

/-- Running the whole generator preserves the generation invariant and
yields the carved wall-free walk. -/
theorem generateAdaptiveLevel_props (ds : String) (metrics : Option LevelMetrics)
    (level : Nat) (rng : Rng) :
    ∃ path l,
      GenInv (baseParams ds).1 path (generateAdaptiveLevel ds metrics level rng).1 ∧
      path = (⟨(baseParams ds).1 - 2, (baseParams ds).1 - 2⟩ : Pos) :: l ∧
      ChainTo ⟨1, 1⟩ l ⟨(baseParams ds).1 - 2, (baseParams ds).1 - 2⟩ := by
  have hN : 3 ≤ (baseParams ds).1 := baseParams_ge3 ds
  have heq := generateAdaptiveLevel_eq ds metrics level rng (baseParams ds).1
    (baseParams ds).2.1 (baseParams ds).2.2
    ⌊difficultyScalar metrics level * (baseParams ds).2.1⌋₊
    (max 1 ⌊difficultyScalar metrics level / 2⌋₊)
    ⌊difficultyScalar metrics level * (baseParams ds).2.2 * (baseParams ds).1⌋₊
    rfl rfl rfl rfl
  rw [heq]
  dsimp only
  have h0 := genInv_base (baseParams ds).1 hN
  have hcp := createPath_spec (baseParams ds).1 hN _ h0
  obtain ⟨hinvc, l, hpatheq, hchain⟩ := hcp
  have hpipe := pipeline_genInv _ (baseParams ds).1
    ⌊difficultyScalar metrics level * (baseParams ds).2.1⌋₊
    (max 1 ⌊difficultyScalar metrics level / 2⌋₊)
    (max 1 ⌊difficultyScalar metrics level / 2⌋₊ - 1)
    ⌊difficultyScalar metrics level * (baseParams ds).2.2 * (baseParams ds).1⌋₊
    hN _ rng hinvc
  exact ⟨_, l, hpipe, hpatheq, hchain⟩

/-! ### C1: goal uniqueness and reachability of the generated grid -/

/-- The specification's reading of generation-time reachability: a
4-connected walk whose every cell, the start included, carries a
non-`WALL` tile. -/
def NonWallPath (m : Grid) (src : Pos) (l : List Pos) (dst : Pos) : Prop :=
  ChainTo src l dst ∧ tileAt m src.x src.y ≠ WALL ∧
  ∀ p ∈ l, tileAt m p.x p.y ≠ WALL

/-- C1 (amended): every generated grid carries exactly one `GOAL` tile,
at `(N-2, N-2)`, and a 4-connected walk from the start cell `(1, 1)` to
that goal all of whose cells after the start are non-`WALL`. The start
cell itself is not protected and can be overwritten by a wall. -/
theorem claim_C1_generation (ds : String) (metrics : Option LevelMetrics)
    (level : Nat) (rng : Rng) (hlevel : 1 ≤ level) :
    (∀ x y, tileAt (generateAdaptiveLevel ds metrics level rng).1 x y = GOAL ↔
      x = (baseParams ds).1 - 2 ∧ y = (baseParams ds).1 - 2) ∧
    ∃ l, ChainTo ⟨1, 1⟩ l ⟨(baseParams ds).1 - 2, (baseParams ds).1 - 2⟩ ∧
      ∀ p ∈ l, tileAt (generateAdaptiveLevel ds metrics level rng).1 p.x p.y ≠ WALL := by
  obtain ⟨path, l, hinv, hpath, hchain⟩ :=
    generateAdaptiveLevel_props ds metrics level rng
  refine ⟨hinv.2.2.2.1, l, hchain, ?_⟩
  intro p hp
  exact hinv.2.2.2.2 p (by rw [hpath]; exact List.mem_cons_of_mem _ hp)

set_option maxRecDepth 100000 in
/-- Counterexample for C1 as stated: with the all-zero stream on medium
difficulty the only successful wall draw lands on the start cell (1, 1)
(the recorded main path misses the start because its head aliases the
mutated cursor), so the start tile is a `WALL` and no walk of non-`WALL`
tiles from the start exists at all. -/
theorem claim_C1_counterexample :
    tileAt (generateAdaptiveLevel "medium" none 1 rngZero).1 1 1 = WALL ∧
    ¬∃ l, NonWallPath (generateAdaptiveLevel "medium" none 1 rngZero).1
      ⟨1, 1⟩ l ⟨10, 10⟩ := by
  have hm := generateAdaptiveLevel_eq "medium" none 1 rngZero 12 7 (7/10) 3 1 4 rfl
    mediumCounts.1 mediumCounts.2.1 mediumCounts.2.2
  constructor
  · rw [hm]
    decide
  · rintro ⟨l, hchain, hsrc, hl⟩
    rw [hm] at hsrc
    exact hsrc (by decide)

/-- Witness for C1 at a concrete instance: easy difficulty, level 1,
the all-zero stream. -/
theorem claim_C1_witness :
    (∀ x y, tileAt (generateAdaptiveLevel "easy" none 1 rngZero).1 x y = GOAL ↔
      x = (baseParams "easy").1 - 2 ∧ y = (baseParams "easy").1 - 2) ∧
    ∃ l, ChainTo ⟨1, 1⟩ l ⟨(baseParams "easy").1 - 2, (baseParams "easy").1 - 2⟩ ∧
      ∀ p ∈ l, tileAt (generateAdaptiveLevel "easy" none 1 rngZero).1 p.x p.y ≠ WALL :=
  claim_C1_generation "easy" none 1 rngZero (by decide)

/-! ### C6: the outer ring stays walled during play -/

/-- On a bordered square grid, a non-`WALL` cell is strictly interior. -/
theorem interior_of_nonWall (m : Grid) (x y : Nat) (hbw : BorderWall m)
    (hx : x < m.length) (hy : y < m.length) (hnw : tileAt m x y ≠ WALL) :
    0 < x ∧ x < m.length - 1 ∧ 0 < y ∧ y < m.length - 1 := by
  have hb : ¬(x = 0 ∨ x = m.length - 1 ∨ y = 0 ∨ y = m.length - 1) :=
    fun h => hnw (hbw x y hx hy h)
  push_neg at hb
  omega

/-- Writing over an in-bounds non-`WALL` cell keeps the grid square and
its border walled. -/
theorem good_setTile (m : Grid) (x y v : Nat) (hsq : SquareGrid m) (hbw : BorderWall m)
    (hx : x < m.length) (hy : y < m.length) (hnw : tileAt m x y ≠ WALL) :
    SquareGrid (setTile m x y v) ∧ BorderWall (setTile m x y v) := by
  obtain ⟨h1, h2, h3, h4⟩ := interior_of_nonWall m x y hbw hx hy hnw
  exact ⟨squareGrid_setTile m x y v hsq,
    borderWall_setTile_interior m x y v hbw h1 h2 h3 h4⟩

theorem squareGrid_cellMap (f : Nat → Nat) (m : Grid) (hsq : SquareGrid m) :
    SquareGrid (m.map fun row => row.map f) := by
  intro row hrow
  rw [List.length_map]
  rw [List.mem_map] at hrow
  obtain ⟨r, hr, hre⟩ := hrow
  rw [← hre, List.length_map]
  exact hsq r hr

theorem borderWall_cellMap (f : Nat → Nat) (hfW : f WALL = WALL) (hfU : f UNDEF = UNDEF)
    (m : Grid) (hbw : BorderWall m) :
    BorderWall (m.map fun row => row.map f) := by
  intro x y hx hy hon
  rw [List.length_map] at hx hy hon
  rw [tileAt_cellMap f hfU m x y, hbw x y hx hy hon, hfW]

theorem squareGrid_rotateMatrix (m : Grid) : SquareGrid (rotateMatrix m) := by
  intro row hrow
  rw [rotateMatrix_length]
  unfold rotateMatrix at hrow
  rw [List.mem_map] at hrow
  obtain ⟨i, _, hi⟩ := hrow
  rw [← hi]
  simp

/-- The rotation carries the outer ring onto the outer ring. -/
theorem borderWall_rotateMatrix (m : Grid) (hbw : BorderWall m) :
    BorderWall (rotateMatrix m) := by
  intro x y hx hy hon
  rw [rotateMatrix_length] at hx hy hon
  rw [tileAt_rotateMatrix m x y hx hy]
  exact hbw y (m.length - 1 - x) hy (by omega) (by omega)

/-- The key re-placement loop only writes on cells of the supplied
interior candidate list. -/
theorem placeKeysLoop_good (k : Nat) :
    ∀ (cand : List Pos) (m : Grid) (rng : Rng),
      SquareGrid m → BorderWall m →
      (∀ p ∈ cand, 0 < p.x ∧ p.x < m.length - 1 ∧ 0 < p.y ∧ p.y < m.length - 1) →
      SquareGrid (placeKeysLoop k cand m rng).1 ∧
      BorderWall (placeKeysLoop k cand m rng).1 := by
  induction k with
  | zero =>
    intro cand m rng hsq hbw _
    exact ⟨hsq, hbw⟩
  | succ n ih =>
    intro cand m rng hsq hbw hcand
    cases cand with
    | nil => exact ⟨hsq, hbw⟩
    | cons e0 erest =>
      simp only [placeKeysLoop]
      have hdlt : (rng.take (e0 :: erest).length).1 < (e0 :: erest).length :=
        rngTake_lt rng _ (by simp)
      have hpmem : (e0 :: erest).getD (rng.take (e0 :: erest).length).1 ⟨0, 0⟩ ∈
          e0 :: erest := by
        rw [List.getD_eq_getElem _ _ hdlt]
        exact List.getElem_mem hdlt
      obtain ⟨h1, h2, h3, h4⟩ := hcand _ hpmem
      apply ih
      · exact squareGrid_setTile _ _ _ _ hsq
      · exact borderWall_setTile_interior _ _ _ _ hbw h1 h2 h3 h4
      · intro p hp
        have hp2 := hcand p (List.Sublist.subset (List.eraseIdx_sublist _ _) hp)
        rw [length_setTile]
        exact hp2

/-- Goal re-placement writes on an `EMPTY` or non-`WALL` cell only. -/
theorem placeGoalRot_good (m : Grid) (rng : Rng) (hsq : SquareGrid m)
    (hbw : BorderWall m) :
    SquareGrid (placeGoalRot m rng).1 ∧ BorderWall (placeGoalRot m rng).1 := by
  unfold placeGoalRot
  by_cases h1 : 0 < (getEmptyPositions m).length
  · rw [if_pos h1]
    have hdlt := rngTake_lt rng _ h1
    have hmem : (getEmptyPositions m).getD
        (rng.take (getEmptyPositions m).length).1 ⟨0, 0⟩ ∈ getEmptyPositions m := by
      rw [List.getD_eq_getElem _ _ hdlt]
      exact List.getElem_mem hdlt
    obtain ⟨hE, hx, hy⟩ := mem_getEmptyPositions m _ hmem
    exact good_setTile m _ _ GOAL hsq hbw hx hy (by rw [hE]; decide)
  · rw [if_neg h1]
    by_cases h2 : 0 < (nonWallCells m).length
    · rw [if_pos h2]
      have hdlt := rngTake_lt rng _ h2
      have hmem : (nonWallCells m).getD
          (rng.take (nonWallCells m).length).1 ⟨0, 0⟩ ∈ nonWallCells m := by
        rw [List.getD_eq_getElem _ _ hdlt]
        exact List.getElem_mem hdlt
      obtain ⟨hW, hx, hy⟩ := mem_nonWallCells m _ hmem
      exact good_setTile m _ _ GOAL hsq hbw hx hy hW
    · rw [if_neg h2]
      exact ⟨hsq, hbw⟩

/-- The hard-mode Board Transform preserves squareness and the walled
border. -/
theorem boardTransform_preserves (m : Grid) (pos : Pos) (tk : Nat) (rng : Rng)
    (hsq : SquareGrid m) (hbw : BorderWall m) :
    SquareGrid (boardTransform m pos tk rng).1 ∧
    BorderWall (boardTransform m pos tk rng).1 := by
  have heq : (boardTransform m pos tk rng).1 =
      (placeGoalRot
        (placeKeysLoop tk (getEmptyPositions (clearKeysGoals (rotateMatrix m)))
          (clearKeysGoals (rotateMatrix m)) rng).1
        (placeKeysLoop tk (getEmptyPositions (clearKeysGoals (rotateMatrix m)))
          (clearKeysGoals (rotateMatrix m)) rng).2).1 := rfl
  rw [heq]
  have hsq1 : SquareGrid (clearKeysGoals (rotateMatrix m)) :=
    squareGrid_cellMap _ _ (squareGrid_rotateMatrix m)
  have hbw1 : BorderWall (clearKeysGoals (rotateMatrix m)) :=
    borderWall_cellMap _ (by decide) (by decide) _ (borderWall_rotateMatrix m hbw)
  have hcand : ∀ p ∈ getEmptyPositions (clearKeysGoals (rotateMatrix m)),
      0 < p.x ∧ p.x < (clearKeysGoals (rotateMatrix m)).length - 1 ∧
      0 < p.y ∧ p.y < (clearKeysGoals (rotateMatrix m)).length - 1 := by
    intro p hp
    obtain ⟨hE, hx, hy⟩ := mem_getEmptyPositions _ p hp
    exact interior_of_nonWall _ _ _ hbw1 hx hy (by rw [hE]; decide)
  have hk := placeKeysLoop_good tk _ _ rng hsq1 hbw1 hcand
  exact placeGoalRot_good _ _ hk.1 hk.2

theorem placeTrapTry_good (player : Pos) (fuel : Nat) :
    ∀ (m : Grid) (rng : Rng), SquareGrid m → BorderWall m →
      SquareGrid (placeTrapTry player fuel m rng).1 ∧
      BorderWall (placeTrapTry player fuel m rng).1 := by
  induction fuel with
  | zero =>
    intro m rng hsq hbw
    exact ⟨hsq, hbw⟩
  | succ n ih =>
    intro m rng hsq hbw
    simp only [placeTrapTry]
    by_cases hc : tileAt m (rng.take (m.headD []).length).1
        ((rng.take (m.headD []).length).2.take m.length).1 = EMPTY ∧
        ¬((rng.take (m.headD []).length).1 = player.x ∧
          ((rng.take (m.headD []).length).2.take m.length).1 = player.y)
    · rw [if_pos hc]
      obtain ⟨hy, hxr⟩ := bounds_of_tileAt m _ _ EMPTY (by decide) hc.1
      have hx : (rng.take (m.headD []).length).1 < m.length := by
        rw [rowLen_of_square m hsq _ hy] at hxr
        exact hxr
      exact good_setTile m _ _ TRAP hsq hbw hx hy (by rw [hc.1]; decide)
    · rw [if_neg hc]
      exact ih m _ hsq hbw

theorem placeTrapsLoop_good (player : Pos) (count : Nat) :
    ∀ (m : Grid) (rng : Rng), SquareGrid m → BorderWall m →
      SquareGrid (placeTrapsLoop player count m rng).1 ∧
      BorderWall (placeTrapsLoop player count m rng).1 := by
  induction count with
  | zero =>
    intro m rng hsq hbw
    exact ⟨hsq, hbw⟩
  | succ n ih =>
    intro m rng hsq hbw
    simp only [placeTrapsLoop]
    have h1 := placeTrapTry_good player 50 m rng hsq hbw
    exact ih _ _ h1.1 h1.2

/-- The trap-relocation step preserves squareness and the walled border. -/
theorem relocateTraps_preserves (rng : Rng) (s : GameState)
    (hsq : SquareGrid s.currentMap) (hbw : BorderWall s.currentMap) :
    SquareGrid (relocateTraps rng s).currentMap ∧
    BorderWall (relocateTraps rng s).currentMap := by
  have heq : (relocateTraps rng s).currentMap =
      (placeTrapsLoop s.playerPos (trapPositions s.currentMap).length
        (clearTraps s.currentMap) rng).1 := rfl
  rw [heq]
  have hsq1 : SquareGrid (clearTraps s.currentMap) := squareGrid_cellMap _ _ hsq
  have hbw1 : BorderWall (clearTraps s.currentMap) :=
    borderWall_cellMap _ (by decide) (by decide) _ hbw
  exact placeTrapsLoop_good s.playerPos _ _ rng hsq1 hbw1

theorem headD_eq_getD_zero (l : Grid) : l.headD [] = l.getD 0 [] := by
  cases l with
  | nil => rfl
  | cons a t => rfl

/-- One `movePlayer` step preserves squareness and the walled border. -/
theorem movePlayer_preserves (d : String) (now : Nat) (rng : Rng) (s : GameState)
    (dx dy : Int) (hsq : SquareGrid s.currentMap) (hbw : BorderWall s.currentMap) :
    SquareGrid (movePlayer d now rng s dx dy).1.currentMap ∧
    BorderWall (movePlayer d now rng s dx dy).1.currentMap := by
  simp only [movePlayer]
  by_cases h1 : s.gameStatus ≠ GStatus.playing
  · rw [if_pos h1]
    exact ⟨hsq, hbw⟩
  rw [if_neg h1]
  by_cases h2 : ((s.playerPos.x : Int) + dx < 0 ∨
      ((s.currentMap.headD []).length : Int) ≤ (s.playerPos.x : Int) + dx ∨
      (s.playerPos.y : Int) + dy < 0 ∨
      (s.currentMap.length : Int) ≤ (s.playerPos.y : Int) + dy)
  · rw [if_pos h2]
    exact ⟨hsq, hbw⟩
  rw [if_neg h2]
  push_neg at h2
  obtain ⟨hx0, hxlt, hy0, hylt⟩ := h2
  set nx := ((s.playerPos.x : Int) + dx).toNat with hnx
  set ny := ((s.playerPos.y : Int) + dy).toNat with hny
  have hlen0 : 0 < s.currentMap.length := by omega
  have hnyb : ny < s.currentMap.length := by omega
  have hhead : (s.currentMap.headD []).length = s.currentMap.length := by
    rw [headD_eq_getD_zero]
    exact rowLen_of_square _ hsq 0 hlen0
  rw [hhead] at hxlt
  have hnxb : nx < s.currentMap.length := by omega
  have hstep : ∀ v, tileAt s.currentMap nx ny ≠ WALL →
      SquareGrid (setTile s.currentMap nx ny v) ∧
      BorderWall (setTile s.currentMap nx ny v) :=
    fun v hnw => good_setTile s.currentMap nx ny v hsq hbw hnxb hnyb hnw
  by_cases h3 : tileAt s.currentMap nx ny = WALL
  · rw [if_pos h3]
    exact ⟨hsq, hbw⟩
  rw [if_neg h3]
  by_cases h4 : tileAt s.currentMap nx ny = DOOR ∧ s.keysCollected = 0
  · rw [if_pos h4]
    exact ⟨hsq, hbw⟩
  rw [if_neg h4]
  by_cases h5 : tileAt s.currentMap nx ny = KEY
  · rw [if_pos h5]
    have hg := hstep EMPTY (by rw [h5]; decide)
    by_cases hrot : d = "hard" ∧ 0 < s.moves + 1 ∧ (s.moves + 1) % 20 = 0
    · rw [if_pos hrot]
      dsimp only
      exact boardTransform_preserves _ _ _ _ hg.1 hg.2
    · rw [if_neg hrot]
      dsimp only
      exact hg
  rw [if_neg h5]
  by_cases h6 : tileAt s.currentMap nx ny = DOOR ∧ 0 < s.keysCollected
  · rw [if_pos h6]
    have hg := hstep EMPTY (by rw [h6.1]; decide)
    by_cases hrot : d = "hard" ∧ 0 < s.moves + 1 ∧ (s.moves + 1) % 20 = 0
    · rw [if_pos hrot]
      dsimp only
      exact boardTransform_preserves _ _ _ _ hg.1 hg.2
    · rw [if_neg hrot]
      dsimp only
      exact hg
  rw [if_neg h6]
  by_cases h7 : tileAt s.currentMap nx ny = TRAP
  · rw [if_pos h7]
    by_cases hrot : d = "hard" ∧ 0 < s.moves + 1 ∧ (s.moves + 1) % 20 = 0
    · rw [if_pos hrot]
      dsimp only
      exact boardTransform_preserves _ _ _ _ hsq hbw
    · rw [if_neg hrot]
      dsimp only
      exact ⟨hsq, hbw⟩
  rw [if_neg h7]
  by_cases h8 : tileAt s.currentMap nx ny = GOAL
  · rw [if_pos h8]
    by_cases hrot : d = "hard" ∧ 0 < s.moves + 1 ∧ (s.moves + 1) % 20 = 0
    · rw [if_pos hrot]
      dsimp only
      exact boardTransform_preserves _ _ _ _ hsq hbw
    · rw [if_neg hrot]
      dsimp only
      exact ⟨hsq, hbw⟩
  rw [if_neg h8]
  by_cases hrot : d = "hard" ∧ 0 < s.moves + 1 ∧ (s.moves + 1) % 20 = 0
  · rw [if_pos hrot]
    dsimp only
    exact boardTransform_preserves _ _ _ _ hsq hbw
  · rw [if_neg hrot]
    dsimp only
    exact ⟨hsq, hbw⟩

/-- Game states reachable during play from a start state: any sequence
of `movePlayer` steps (any difficulty read, clock value and random
stream) and trap-relocation firings. -/
inductive Reach : GameState → GameState → Prop
  | refl (s : GameState) : Reach s s
  | move (s t : GameState) (d : String) (now : Nat) (rng : Rng) (dx dy : Int) :
      Reach s t → Reach s (movePlayer d now rng t dx dy).1
  | relocate (s t : GameState) (rng : Rng) :
      Reach s t → Reach s (relocateTraps rng t)

theorem reach_good (s t : GameState) (h : Reach s t)
    (hsq : SquareGrid s.currentMap) (hbw : BorderWall s.currentMap) :
    SquareGrid t.currentMap ∧ BorderWall t.currentMap := by
  induction h with
  | refl => exact ⟨hsq, hbw⟩
  | move t d now rng dx dy hr ih =>
    exact movePlayer_preserves d now rng t dx dy ih.1 ih.2
  | relocate t rng hr ih =>
    exact relocateTraps_preserves rng t ih.1 ih.2

/-- C6: from any freshly initialized level, every state reachable by
moves (with tile consumption and the hard-mode rotation) and periodic
trap relocations keeps every cell of the outer ring a `WALL`. -/
theorem claim_C6_border_invariant (ds : String) (metrics : Option LevelMetrics)
    (now : Nat) (rng0 : Rng) (s0 t : GameState)
    (hreach : Reach (initializeLevel ds metrics now rng0 s0) t) :
    BorderWall t.currentMap := by
  obtain ⟨path, l, hinv, -, -⟩ := generateAdaptiveLevel_props ds metrics s0.level rng0
  have hmap : (initializeLevel ds metrics now rng0 s0).currentMap =
      (generateAdaptiveLevel ds metrics s0.level rng0).1 := rfl
  refine (reach_good _ t hreach ?_ ?_).2
  · rw [hmap]
    exact hinv.2.1
  · rw [hmap]
    exact hinv.2.2.1

/-- Witness for C6: a freshly initialized easy level. -/
theorem claim_C6_witness :
    BorderWall (initializeLevel "easy" none 0 rngZero stTrap).currentMap :=
  claim_C6_border_invariant "easy" none 0 rngZero stTrap _ (Reach.refl _)

/-! ### C10: totalKeys versus the keys actually placed -/

theorem count_set_of_ne (l : List Nat) (x t a : Nat)
    (hold : l.getD x UNDEF ≠ t) (ha : a ≠ t) :
    (l.set x a).count t = l.count t := by
  induction l generalizing x with
  | nil => rfl
  | cons b l ih =>
    match x with
    | 0 =>
      simp only [List.set_cons_zero, List.count_cons]
      have hb : b ≠ t := by simpa [List.getD] using hold
      simp [ha, hb]
    | x + 1 =>
      simp only [List.set_cons_succ, List.count_cons]
      rw [ih x (by simpa [List.getD] using hold)]

theorem count_set_pred (l : List Nat) (x t a : Nat) (hx : x < l.length)
    (hold : l.getD x UNDEF = t) (ha : a ≠ t) :
    (l.set x a).count t + 1 = l.count t := by
  induction l generalizing x with
  | nil => simp at hx
  | cons b l ih =>
    match x with
    | 0 =>
      simp only [List.set_cons_zero, List.count_cons]
      have hb : b = t := by simpa [List.getD] using hold
      simp [ha, hb]
    | x + 1 =>
      simp only [List.set_cons_succ, List.count_cons]
      have := ih x (by simpa using hx) (by simpa [List.getD] using hold)
      omega

theorem countTile_setTile_of_ne (m : Grid) (x t a : Nat) (ha : a ≠ t) :
    ∀ y, tileAt m x y ≠ t → countTile (setTile m x y a) t = countTile m t := by
  induction m with
  | nil =>
    intro y _
    rfl
  | cons r rest ih =>
    intro y hold
    match y with
    | 0 =>
      unfold countTile setTile
      simp only [List.getD_cons_zero, List.set_cons_zero, List.map_cons, List.sum_cons]
      rw [count_set_of_ne r x t a (by simpa [tileAt] using hold) ha]
    | y + 1 =>
      unfold countTile setTile at ih ⊢
      simp only [List.getD_cons_succ, List.set_cons_succ, List.map_cons, List.sum_cons]
      rw [ih y (by simpa [tileAt] using hold)]

theorem countTile_setTile_pred (m : Grid) (x t a : Nat) (ha : a ≠ t) :
    ∀ y, tileAt m x y = t → y < m.length → x < (m.getD y []).length →
      countTile (setTile m x y a) t + 1 = countTile m t := by
  induction m with
  | nil =>
    intro y _ hy _
    simp at hy
  | cons r rest ih =>
    intro y hold hy hx
    match y with
    | 0 =>
      unfold countTile setTile
      simp only [List.getD_cons_zero, List.set_cons_zero, List.map_cons, List.sum_cons]
      have := count_set_pred r x t a (by simpa using hx) (by simpa [tileAt] using hold) ha
      omega
    | y + 1 =>
      unfold countTile setTile at ih ⊢
      simp only [List.getD_cons_succ, List.set_cons_succ, List.map_cons, List.sum_cons]
      have := ih y (by simpa [tileAt] using hold) (by simpa using hy) (by simpa using hx)
      omega

theorem count_map_of_iff (f : Nat → Nat) (t : Nat) (hf : ∀ a, f a = t ↔ a = t) :
    ∀ row : List Nat, (row.map f).count t = row.count t := by
  intro row
  induction row with
  | nil => rfl
  | cons a l ihr =>
    simp only [List.map_cons, List.count_cons, ihr, beq_iff_eq, hf a]

/-- Counting through a pointwise cell transformation that neither
creates nor destroys the counted tile kind. -/
theorem countTile_cellMap (f : Nat → Nat) (t : Nat) (hf : ∀ a, f a = t ↔ a = t)
    (m : Grid) : countTile (m.map fun row => row.map f) t = countTile m t := by
  unfold countTile
  rw [List.map_map]
  congr 1
  apply List.map_congr_left
  intro row _
  simp only [Function.comp]
  exact count_map_of_iff f t hf row

theorem clearTraps_count_key (m : Grid) :
    countTile (clearTraps m) KEY = countTile m KEY := by
  unfold clearTraps
  apply countTile_cellMap
  intro a
  by_cases hA : a = TRAP
  · rw [hA, if_pos rfl]
    constructor
    · intro h
      exact absurd h (by decide)
    · intro h
      exact absurd h (by decide)
  · rw [if_neg hA]

theorem placeTrapTry_count_key (player : Pos) (fuel : Nat) (m : Grid) (rng : Rng) :
    countTile (placeTrapTry player fuel m rng).1 KEY = countTile m KEY := by
  rcases placeTrapTry_spec player fuel m rng with ⟨_, hm⟩ | ⟨_, x, y, he, _, hm⟩
  · rw [hm]
  · rw [hm]
    exact countTile_setTile_of_ne m x KEY TRAP (by decide) y (by rw [he]; decide)

theorem placeTrapsLoop_count_key (player : Pos) (k : Nat) :
    ∀ m rng, countTile (placeTrapsLoop player k m rng).1 KEY = countTile m KEY := by
  induction k with
  | zero =>
    intro m rng
    rfl
  | succ n ih =>
    intro m rng
    simp only [placeTrapsLoop]
    rw [ih _ _, placeTrapTry_count_key player 50 m rng]

/-- Trap relocation touches neither the key counters nor the `KEY`
tiles. -/
theorem relocateTraps_keys (rng : Rng) (s : GameState) :
    (relocateTraps rng s).keysCollected = s.keysCollected ∧
    (relocateTraps rng s).totalKeys = s.totalKeys ∧
    countTile (relocateTraps rng s).currentMap KEY = countTile s.currentMap KEY := by
  refine ⟨rfl, rfl, ?_⟩
  have hmap : (relocateTraps rng s).currentMap =
      (placeTrapsLoop s.playerPos (trapPositions s.currentMap).length
        (clearTraps s.currentMap) rng).1 := rfl
  rw [hmap, placeTrapsLoop_count_key, clearTraps_count_key]

/-- A non-hard move never increases `keysCollected + (KEY tiles left)`
and never changes `totalKeys`. -/
theorem movePlayer_keys (d : String) (now : Nat) (rng : Rng) (s : GameState)
    (dx dy : Int) (hd : d ≠ "hard") :
    (movePlayer d now rng s dx dy).1.keysCollected +
      countTile (movePlayer d now rng s dx dy).1.currentMap KEY ≤
      s.keysCollected + countTile s.currentMap KEY ∧
    (movePlayer d now rng s dx dy).1.totalKeys = s.totalKeys := by
  have hnrot : ¬(d = "hard" ∧ 0 < s.moves + 1 ∧ (s.moves + 1) % 20 = 0) :=
    fun hc => hd hc.1
  simp only [movePlayer]
  by_cases h1 : s.gameStatus ≠ GStatus.playing
  · rw [if_pos h1]
    exact ⟨Nat.le_refl _, rfl⟩
  rw [if_neg h1]
  by_cases h2 : ((s.playerPos.x : Int) + dx < 0 ∨
      ((s.currentMap.headD []).length : Int) ≤ (s.playerPos.x : Int) + dx ∨
      (s.playerPos.y : Int) + dy < 0 ∨
      (s.currentMap.length : Int) ≤ (s.playerPos.y : Int) + dy)
  · rw [if_pos h2]
    exact ⟨Nat.le_refl _, rfl⟩
  rw [if_neg h2]
  set nx := ((s.playerPos.x : Int) + dx).toNat with hnx
  set ny := ((s.playerPos.y : Int) + dy).toNat with hny
  by_cases h3 : tileAt s.currentMap nx ny = WALL
  · rw [if_pos h3]
    exact ⟨Nat.le_refl _, rfl⟩
  rw [if_neg h3]
  by_cases h4 : tileAt s.currentMap nx ny = DOOR ∧ s.keysCollected = 0
  · rw [if_pos h4]
    exact ⟨Nat.le_refl _, rfl⟩
  rw [if_neg h4]
  by_cases h5 : tileAt s.currentMap nx ny = KEY
  · rw [if_pos h5, if_neg hnrot]
    dsimp only
    obtain ⟨hyb, hxb⟩ := bounds_of_tileAt s.currentMap nx ny KEY (by decide) h5
    have hc := countTile_setTile_pred s.currentMap nx KEY EMPTY (by decide) ny h5 hyb hxb
    exact ⟨by omega, rfl⟩
  rw [if_neg h5]
  by_cases h6 : tileAt s.currentMap nx ny = DOOR ∧ 0 < s.keysCollected
  · rw [if_pos h6, if_neg hnrot]
    dsimp only
    have hc := countTile_setTile_of_ne s.currentMap nx KEY EMPTY (by decide) ny
      (by rw [h6.1]; decide)
    exact ⟨by omega, rfl⟩
  rw [if_neg h6]
  by_cases h7 : tileAt s.currentMap nx ny = TRAP
  · rw [if_pos h7, if_neg hnrot]
    exact ⟨Nat.le_refl _, rfl⟩
  rw [if_neg h7]
  by_cases h8 : tileAt s.currentMap nx ny = GOAL
  · rw [if_pos h8, if_neg hnrot]
    exact ⟨Nat.le_refl _, rfl⟩
  rw [if_neg h8, if_neg hnrot]
  exact ⟨Nat.le_refl _, rfl⟩

/-- Game states reachable from a start state when the difficulty read at
every move is not `"hard"` (so the Board Transform, which re-places
keys, never fires). -/
inductive ReachNH : GameState → GameState → Prop
  | refl (s : GameState) : ReachNH s s
  | move (s t : GameState) (d : String) (now : Nat) (rng : Rng) (dx dy : Int) :
      d ≠ "hard" → ReachNH s t → ReachNH s (movePlayer d now rng t dx dy).1
  | relocate (s t : GameState) (rng : Rng) :
      ReachNH s t → ReachNH s (relocateTraps rng t)

theorem reachNH_keys (s t : GameState) (h : ReachNH s t) :
    t.keysCollected + countTile t.currentMap KEY ≤
      s.keysCollected + countTile s.currentMap KEY ∧
    t.totalKeys = s.totalKeys := by
  induction h with
  | refl => exact ⟨Nat.le_refl _, rfl⟩
  | move t d now rng dx dy hd hr ih =>
    have h1 := movePlayer_keys d now rng t dx dy hd
    exact ⟨Nat.le_trans h1.1 ih.1, by rw [h1.2, ih.2]⟩
  | relocate t rng hr ih =>
    have h1 := relocateTraps_keys rng t
    refine ⟨?_, by rw [h1.2.1, ih.2]⟩
    rw [h1.1, h1.2.2]
    exact ih.1

set_option maxRecDepth 100000 in
/-- C10: the generator always returns `totalKeys = max 1 ⌊difficulty/2⌋`
regardless of how many `KEY` tiles the 30-attempt placement loop managed
to place; with the all-zero stream on medium difficulty the returned
grid has 0 keys but `totalKeys = 1`, and from that freshly initialized
level no non-hard play can ever bring `keysCollected` up to
`totalKeys`. -/
theorem claim_C10_total_keys :
    (∀ (ds : String) (metrics : Option LevelMetrics) (level : Nat) (rng : Rng),
      (generateAdaptiveLevel ds metrics level rng).2.1 =
        max 1 ⌊difficultyScalar metrics level / 2⌋₊) ∧
    countTile (generateAdaptiveLevel "medium" none 1 rngZero).1 KEY = 0 ∧
    (generateAdaptiveLevel "medium" none 1 rngZero).2.1 = 1 ∧
    (∀ t, ReachNH (initializeLevel "medium" none 0 rngZero stTrap) t →
      t.keysCollected < t.totalKeys) := by
  have hm := generateAdaptiveLevel_eq "medium" none 1 rngZero 12 7 (7/10) 3 1 4 rfl
    mediumCounts.1 mediumCounts.2.1 mediumCounts.2.2
  have hcnt : countTile (generateAdaptiveLevel "medium" none 1 rngZero).1 KEY = 0 := by
    rw [hm]
    decide
  have htk : (generateAdaptiveLevel "medium" none 1 rngZero).2.1 = 1 := by
    rw [hm]
  refine ⟨fun ds metrics level rng => rfl, hcnt, htk, ?_⟩
  intro t ht
  obtain ⟨hka, hkb⟩ := reachNH_keys _ t ht
  have h1 : (initializeLevel "medium" none 0 rngZero stTrap).keysCollected +
      countTile (initializeLevel "medium" none 0 rngZero stTrap).currentMap KEY = 0 := by
    show 0 + countTile (generateAdaptiveLevel "medium" none 1 rngZero).1 KEY = 0
    rw [hcnt]
  have h2 : (initializeLevel "medium" none 0 rngZero stTrap).totalKeys = 1 := htk
  rw [h1] at hka
  rw [h2] at hkb
  omega

/-- Witness for C10: the freshly initialized state itself already has
`keysCollected < totalKeys`. -/
theorem claim_C10_witness :
    (initializeLevel "medium" none 0 rngZero stTrap).keysCollected <
      (initializeLevel "medium" none 0 rngZero stTrap).totalKeys :=
  claim_C10_total_keys.2.2.2 _ (ReachNH.refl _)

/-! ### C4: the hint BFS -/

/-- The traversability test of the hint BFS: `EMPTY`, `KEY`, `GOAL`, or
`DOOR` while holding a key; `WALL` and `TRAP` always block. -/
def traversableB (keys t : Nat) : Bool :=
  t == EMPTY || t == KEY || t == GOAL || (t == DOOR && decide (0 < keys))

/-- The row-major goal scan of `useHint` (both loops break on the first
hit). -/
def findGoal (m : Grid) (size : Nat) : Option Pos :=
  (List.range size).findSome? fun y =>
    (List.range size).findSome? fun x =>
      if tileAt m x y = GOAL then some (⟨x, y⟩ : Pos) else none

/-- The `parent` matrix, `size × size`, all `null`. -/
def noneMat (size : Nat) : List (List (Option Pos)) :=
  List.replicate size (List.replicate size none)

/-- Read `parent[y][x]`. -/
def parAt (p : List (List (Option Pos))) (x y : Nat) : Option Pos :=
  (p.getD y []).getD x none

/-- Write `parent[y][x] = v`. -/
def setPar (p : List (List (Option Pos))) (x y : Nat) (v : Option Pos) :
    List (List (Option Pos)) :=
  p.set y ((p.getD y []).set x v)

/-- The mutable state of the hint BFS. -/
structure HS where
  vis : List (List Bool)
  par : List (List (Option Pos))
  queue : List Pos
  found : Bool

/-- One direction of the BFS inner `for` loop; the `break` on `found` is
modelled by the leading guard, which also skips the remaining directions
once the goal is discovered. -/
def tryDir (m : Grid) (size keys : Nat) (goal cur : Pos) (st : HS)
    (d : Int × Int) : HS :=
  if st.found then st
  else if 0 ≤ (cur.x : Int) + d.1 ∧ (cur.x : Int) + d.1 < (size : Int) ∧
      0 ≤ (cur.y : Int) + d.2 ∧ (cur.y : Int) + d.2 < (size : Int) ∧
      visAt st.vis ((cur.x : Int) + d.1).toNat ((cur.y : Int) + d.2).toNat = false then
    if traversableB keys
        (tileAt m ((cur.x : Int) + d.1).toNat ((cur.y : Int) + d.2).toNat) then
      { vis := setVis st.vis ((cur.x : Int) + d.1).toNat ((cur.y : Int) + d.2).toNat
        par := setPar st.par ((cur.x : Int) + d.1).toNat ((cur.y : Int) + d.2).toNat
          (some cur)
        queue := st.queue ++
          [⟨((cur.x : Int) + d.1).toNat, ((cur.y : Int) + d.2).toNat⟩]
        found := decide (((cur.x : Int) + d.1).toNat = goal.x ∧
          ((cur.y : Int) + d.2).toNat = goal.y) }
    else st
  else st

/-- One iteration body of the BFS `while` loop, after the `shift`. -/
def bfsStep (m : Grid) (size keys : Nat) (goal cur : Pos) (st : HS) : HS :=
  directions.foldl (tryDir m size keys goal cur) st

/-- The BFS `while (queue.length > 0 && !found)` loop. -/
def bfsLoop (m : Grid) (size keys : Nat) (goal : Pos) : Nat → HS → HS
  | 0, st => st
  | fuel + 1, st =>
    match st.queue with
    | [] => st
    | cur :: rest =>
      if st.found then st
      else bfsLoop m size keys goal fuel
        (bfsStep m size keys goal cur { st with queue := rest })

/-- Path reconstruction: follow parent pointers from the goal back to
the player. The source pushes the visited cells and reverses at the end;
accumulating with `cons` yields the reversed list directly. -/
def reconstruct (par : List (List (Option Pos))) (player : Pos) :
    Nat → Pos → List Pos → List Pos
  | 0, _, path => path
  | fuel + 1, cur, path =>
    if cur.x = player.x ∧ cur.y = player.y then path
    else
      match parAt par cur.x cur.y with
      | none => cur :: path
      | some next => reconstruct par player fuel next (cur :: path)

/-- The observable outcome of `useHint` (which toast fires, and which
cell or cells get highlighted). -/
inductive HintResult
  | noGoal
  | pathHint (c : Pos)
  | alreadyAtGoal
  | reachable (cs : List Pos)
  | stuck
deriving DecidableEq, Repr

/-- `useHint`, as a function of the current map, player position and key
count. The BFS `while` loop pops one cell per iteration and every pushed
cell is freshly marked in the `size × size` visited matrix, so fuel
`size * size + 1` reproduces the unbounded JS loop; the parent chain
followed by the reconstruction strictly descends in BFS distance, so the
same fuel bounds it. -/
def useHintCore (m : Grid) (player : Pos) (keys : Nat) : HintResult :=
  let size := m.length
  match findGoal m size with
  | none => HintResult.noGoal
  | some goal =>
    let st0 : HS :=
      { vis := setVis (falseMat size) player.x player.y
        par := noneMat size
        queue := [player]
        found := false }
    let stF := bfsLoop m size keys goal (size * size + 1) st0
    if stF.found then
      match reconstruct stF.par player (size * size + 1) goal [] with
      | [] => HintResult.alreadyAtGoal
      | c :: _ => HintResult.pathHint c
    else
      let moves := directions.filterMap fun d =>
        let nX : Int := (player.x : Int) + d.1
        let nY : Int := (player.y : Int) + d.2
        if 0 ≤ nX ∧ nX < (size : Int) ∧ 0 ≤ nY ∧ nY < (size : Int) ∧
            traversableB keys (tileAt m nX.toNat nY.toNat) = true then
          some (⟨nX.toNat, nY.toNat⟩ : Pos)
        else none
      if 0 < moves.length then HintResult.reachable moves else HintResult.stuck

/-- Number of `true` cells of a visited matrix. -/
def countVis (v : List (List Bool)) : Nat := (v.map fun row => row.count true).sum

theorem length_setVis (v : List (List Bool)) (x y : Nat) :
    (setVis v x y).length = v.length := by
  simp [setVis]

theorem rows_setVis (v : List (List Bool)) (x y s : Nat)
    (h : ∀ row ∈ v, row.length = s) : ∀ row ∈ setVis v x y, row.length = s := by
  intro row hrow
  unfold setVis at hrow
  rcases List.mem_or_eq_of_mem_set hrow with hmem | heq
  · exact h row hmem
  · by_cases hy : y < v.length
    · rw [heq, List.length_set]
      exact h _ (List.getD_eq_getElem v [] hy ▸ List.getElem_mem hy)
    · rw [List.set_eq_of_length_le (Nat.le_of_not_lt hy)] at hrow
      exact h row hrow

theorem visAt_setVis_self (v : List (List Bool)) (x y : Nat)
    (hy : y < v.length) (hx : x < (v.getD y []).length) :
    visAt (setVis v x y) x y = true := by
  unfold visAt setVis
  rw [getD_set_self _ _ _ _ hy, getD_set_self _ _ _ _ hx]

theorem visAt_setVis_ne (v : List (List Bool)) (x y x' y' : Nat)
    (h : ¬(x' = x ∧ y' = y)) :
    visAt (setVis v x y) x' y' = visAt v x' y' := by
  unfold visAt setVis
  by_cases hy : y' = y
  · subst hy
    have hx : x ≠ x' := fun he => h ⟨he.symm, rfl⟩
    by_cases hyl : y' < v.length
    · rw [getD_set_self _ _ _ _ hyl, getD_set_ne _ _ _ _ _ hx]
    · rw [List.set_eq_of_length_le (by omega)]
  · rw [getD_set_ne _ _ _ _ _ fun he => hy he.symm]

theorem visAt_falseMat (size x y : Nat) : visAt (falseMat size) x y = false := by
  unfold visAt falseMat
  by_cases hy : y < size
  · have h1 : (List.replicate size (List.replicate size false)).getD y [] =
        List.replicate size false := by
      rw [List.getD_eq_getElem _ _ (by simpa using hy), List.getElem_replicate]
    rw [h1]
    by_cases hx : x < size
    · rw [List.getD_eq_getElem _ _ (by simpa using hx), List.getElem_replicate]
    · exact List.getD_eq_default _ _ (by simpa using Nat.le_of_not_lt hx)
  · have h1 : (List.replicate size (List.replicate size false)).getD y [] = [] :=
      List.getD_eq_default _ _ (by simpa using Nat.le_of_not_lt hy)
    rw [h1]
    rfl

theorem bounds_of_visAt (v : List (List Bool)) (x y : Nat)
    (h : visAt v x y = true) : y < v.length ∧ x < (v.getD y []).length := by
  unfold visAt at h
  by_cases hx : x < (v.getD y []).length
  · refine ⟨?_, hx⟩
    by_cases hy : y < v.length
    · exact hy
    · exfalso
      rw [List.getD_eq_default v _ (Nat.le_of_not_lt hy)] at hx
      simp at hx
  · exfalso
    rw [List.getD_eq_default _ _ (Nat.le_of_not_lt hx)] at h
    cases h

theorem parAt_setPar_self (p : List (List (Option Pos))) (x y : Nat)
    (v : Option Pos) (hy : y < p.length) (hx : x < (p.getD y []).length) :
    parAt (setPar p x y v) x y = v := by
  unfold parAt setPar
  rw [getD_set_self _ _ _ _ hy, getD_set_self _ _ _ _ hx]

theorem parAt_setPar_ne (p : List (List (Option Pos))) (x y : Nat)
    (v : Option Pos) (x' y' : Nat) (h : ¬(x' = x ∧ y' = y)) :
    parAt (setPar p x y v) x' y' = parAt p x' y' := by
  unfold parAt setPar
  by_cases hy : y' = y
  · subst hy
    have hx : x ≠ x' := fun he => h ⟨he.symm, rfl⟩
    by_cases hyl : y' < p.length
    · rw [getD_set_self _ _ _ _ hyl, getD_set_ne _ _ _ _ _ hx]
    · rw [List.set_eq_of_length_le (by omega)]
  · rw [getD_set_ne _ _ _ _ _ fun he => hy he.symm]

theorem length_setPar (p : List (List (Option Pos))) (x y : Nat) (v : Option Pos) :
    (setPar p x y v).length = p.length := by
  simp [setPar]

theorem rows_setPar (p : List (List (Option Pos))) (x y : Nat) (v : Option Pos)
    (s : Nat) (h : ∀ row ∈ p, row.length = s) :
    ∀ row ∈ setPar p x y v, row.length = s := by
  intro row hrow
  unfold setPar at hrow
  rcases List.mem_or_eq_of_mem_set hrow with hmem | heq
  · exact h row hmem
  · by_cases hy : y < p.length
    · rw [heq, List.length_set]
      exact h _ (List.getD_eq_getElem p [] hy ▸ List.getElem_mem hy)
    · rw [List.set_eq_of_length_le (Nat.le_of_not_lt hy)] at hrow
      exact h row hrow

theorem bcount_set_succ (l : List Bool) (x : Nat) (hx : x < l.length)
    (hold : l.getD x false = false) :
    (l.set x true).count true = l.count true + 1 := by
  induction l generalizing x with
  | nil => simp at hx
  | cons b l ih =>
    match x with
    | 0 =>
      simp only [List.set_cons_zero, List.count_cons]
      have hb : b = false := by simpa [List.getD] using hold
      simp [hb]
    | x + 1 =>
      simp only [List.set_cons_succ, List.count_cons]
      have := ih x (by simpa using hx) (by simpa [List.getD] using hold)
      omega

theorem countVis_setVis_succ (v : List (List Bool)) (x : Nat) :
    ∀ y, visAt v x y = false → y < v.length → x < (v.getD y []).length →
      countVis (setVis v x y) = countVis v + 1 := by
  induction v with
  | nil =>
    intro y _ hy _
    simp at hy
  | cons r rest ih =>
    intro y hold hy hx
    match y with
    | 0 =>
      unfold countVis setVis
      simp only [List.getD_cons_zero, List.set_cons_zero, List.map_cons, List.sum_cons]
      have := bcount_set_succ r x (by simpa using hx) (by simpa [visAt, List.getD] using hold)
      omega
    | y + 1 =>
      unfold countVis setVis at ih ⊢
      simp only [List.getD_cons_succ, List.set_cons_succ, List.map_cons, List.sum_cons]
      have := ih y (by simpa [visAt] using hold) (by simpa using hy) (by simpa using hx)
      omega

theorem countVis_le (v : List (List Bool)) (s : Nat)
    (hrow : ∀ row ∈ v, row.length = s) : countVis v ≤ v.length * s := by
  induction v with
  | nil => simp [countVis]
  | cons r rest ih =>
    unfold countVis at ih ⊢
    simp only [List.map_cons, List.sum_cons, List.length_cons]
    have h0 : r.length = s := hrow r (List.mem_cons_self r rest)
    have h1 : r.count true ≤ r.length := List.count_le_length true r
    have h2 := ih fun row hr => hrow row (List.mem_cons_of_mem r hr)
    have h3 : (rest.length + 1) * s = rest.length * s + s := by ring
    omega

/-- `Adj` is symmetric. -/
theorem adj_symm (p q : Pos) (h : Adj p q) : Adj q p := by
  unfold Adj at h ⊢
  omega

instance instDecChainTo : (p : Pos) → (l : List Pos) → (q : Pos) →
    Decidable (ChainTo p l q)
  | p, [], q => inferInstanceAs (Decidable (p = q))
  | p, c :: l', q =>
    haveI := instDecChainTo c l' q
    inferInstanceAs (Decidable (Adj p c ∧ ChainTo c l' q))

/-- A 4-connected walk whose cells (the start cell excluded, exactly as
in the BFS) all pass the traversability test. -/
def TChain (m : Grid) (keys : Nat) (src : Pos) (l : List Pos) (dst : Pos) : Prop :=
  ChainTo src l dst ∧ ∀ p ∈ l, traversableB keys (tileAt m p.x p.y) = true

/-- `n` is the length of a shortest traversable walk from `src` to `dst`. -/
def MinT (m : Grid) (keys : Nat) (src dst : Pos) (n : Nat) : Prop :=
  (∃ l, TChain m keys src l dst ∧ l.length = n) ∧
  ∀ l, TChain m keys src l dst → n ≤ l.length

theorem minT_exists (m : Grid) (keys : Nat) (src dst : Pos) (l0 : List Pos)
    (h : TChain m keys src l0 dst) :
    ∃ n, MinT m keys src dst n ∧ n ≤ l0.length := by
  classical
  have hP : ∃ n, ∃ l, TChain m keys src l dst ∧ l.length = n := ⟨l0.length, l0, h, rfl⟩
  refine ⟨Nat.find hP, ⟨Nat.find_spec hP, ?_⟩, Nat.find_min' hP ⟨l0, h, rfl⟩⟩
  intro l hl
  exact Nat.find_min' hP ⟨l, hl, rfl⟩

theorem minT_unique (m : Grid) (keys : Nat) (src dst : Pos) (n k : Nat)
    (h1 : MinT m keys src dst n) (h2 : MinT m keys src dst k) : n = k := by
  obtain ⟨⟨l1, hl1, he1⟩, hb1⟩ := h1
  obtain ⟨⟨l2, hl2, he2⟩, hb2⟩ := h2
  have c1 := hb1 l2 hl2
  have c2 := hb2 l1 hl1
  omega

theorem minT_src (m : Grid) (keys : Nat) (src : Pos) : MinT m keys src src 0 := by
  refine ⟨⟨[], ⟨?_, by simp⟩, rfl⟩, fun l _ => Nat.zero_le _⟩
  exact rfl

theorem minT_zero (m : Grid) (keys : Nat) (src dst : Pos)
    (h : MinT m keys src dst 0) : dst = src := by
  obtain ⟨⟨l, hl, he⟩, -⟩ := h
  rw [List.length_eq_zero] at he
  subst he
  have h2 : src = dst := hl.1
  exact h2.symm

theorem tchain_snoc (m : Grid) (keys : Nat) (src r c : Pos) (l : List Pos)
    (h : TChain m keys src l r) (hadj : Adj r c)
    (htrav : traversableB keys (tileAt m c.x c.y) = true) :
    TChain m keys src (l ++ [c]) c := by
  refine ⟨chainTo_append src r c l [c] h.1 ⟨hadj, rfl⟩, ?_⟩
  intro p hp
  rcases List.mem_append.mp hp with hp | hp
  · exact h.2 p hp
  · rw [List.mem_singleton] at hp
    rw [hp]
    exact htrav

theorem chainTo_last (c q : Pos) : ∀ (l : List Pos) (p : Pos),
    ChainTo p (l ++ [c]) q → c = q ∧ ∃ r, ChainTo p l r ∧ Adj r c := by
  intro l
  induction l with
  | nil =>
    intro p h
    have h1 : Adj p c ∧ ChainTo c [] q := h
    have h2 : c = q := h1.2
    exact ⟨h2, p, rfl, h1.1⟩
  | cons a l ih =>
    intro p h
    have h1 : Adj p a ∧ ChainTo a (l ++ [c]) q := h
    obtain ⟨hcq, r, hcr, hadj⟩ := ih a h1.2
    exact ⟨hcq, r, ⟨h1.1, hcr⟩, hadj⟩

/-- A cell at shortest distance `k + 1` is traversable and has a
predecessor at shortest distance at most `k`. -/
theorem minT_succ_decomp (m : Grid) (keys : Nat) (src c : Pos) (k : Nat)
    (h : MinT m keys src c (k + 1)) :
    traversableB keys (tileAt m c.x c.y) = true ∧
    ∃ r j, j ≤ k ∧ MinT m keys src r j ∧ Adj r c := by
  obtain ⟨⟨l, hl, he⟩, -⟩ := h
  rcases List.eq_nil_or_concat l with rfl | ⟨L, b, hlb⟩
  · simp at he
  · rw [List.concat_eq_append] at hlb
    subst hlb
    obtain ⟨hbc, r, hLr, hadj⟩ := chainTo_last b c L src hl.1
    subst hbc
    have htrav : traversableB keys (tileAt m b.x b.y) = true :=
      hl.2 b (List.mem_append.mpr (Or.inr (List.mem_singleton.mpr rfl)))
    have hLchain : TChain m keys src L r :=
      ⟨hLr, fun p hp => hl.2 p (List.mem_append.mpr (Or.inl hp))⟩
    have hlen : L.length = k := by
      rw [List.length_append] at he
      simpa using he
    obtain ⟨j, hj, hjle⟩ := minT_exists m keys src r L hLchain
    exact ⟨htrav, r, j, by omega, hj, hadj⟩

/-- Every `Adj`-neighbour is reached by one of the four scan
directions, with a non-negative offset arithmetic. -/
theorem adj_cases (p c : Pos) (h : Adj p c) :
    ∃ d ∈ directions, ((p.x : Int) + d.1).toNat = c.x ∧
      ((p.y : Int) + d.2).toNat = c.y ∧
      0 ≤ (p.x : Int) + d.1 ∧ 0 ≤ (p.y : Int) + d.2 := by
  rcases h with ⟨h1, h2⟩ | ⟨h1, h2⟩ | ⟨h1, h2⟩ | ⟨h1, h2⟩
  · exact ⟨(1, 0), by simp [directions], by omega, by omega, by omega, by omega⟩
  · exact ⟨(-1, 0), by simp [directions], by omega, by omega, by omega, by omega⟩
  · exact ⟨(0, 1), by simp [directions], by omega, by omega, by omega, by omega⟩
  · exact ⟨(0, -1), by simp [directions], by omega, by omega, by omega, by omega⟩

/-- In a square grid, a traversable tile is strictly in bounds. -/
theorem trav_bounds (m : Grid) (keys : Nat) (c : Pos) (hsq : SquareGrid m)
    (h : traversableB keys (tileAt m c.x c.y) = true) :
    c.x < m.length ∧ c.y < m.length := by
  have hne : tileAt m c.x c.y ≠ UNDEF := by
    intro hu
    rw [hu] at h
    simp [traversableB, EMPTY, KEY, GOAL, DOOR, UNDEF] at h
  obtain ⟨hy, hx⟩ := bounds_of_tileAt m c.x c.y (tileAt m c.x c.y) hne rfl
  rw [rowLen_of_square m hsq _ hy] at hx
  exact ⟨hx, hy⟩

/-- Weak BFS invariant: matrix shapes, the start and all queued cells
visited, every visited non-start cell records a parent one BFS level
closer to the start, and the found flag mirrors the goal's visit. -/
structure WInv (m : Grid) (keys : Nat) (src goal : Pos) (st : HS) : Prop where
  vlen : st.vis.length = m.length
  vrow : ∀ row ∈ st.vis, row.length = m.length
  plen : st.par.length = m.length
  prow : ∀ row ∈ st.par, row.length = m.length
  svis : visAt st.vis src.x src.y = true
  qvis : ∀ c ∈ st.queue, visAt st.vis c.x c.y = true
  vpar : ∀ x y, visAt st.vis x y = true → (x = src.x ∧ y = src.y) ∨
    ∃ q n, parAt st.par x y = some q ∧ Adj q ⟨x, y⟩ ∧
      traversableB keys (tileAt m x y) = true ∧
      visAt st.vis q.x q.y = true ∧
      MinT m keys src q n ∧ MinT m keys src ⟨x, y⟩ (n + 1)
  ffwd : st.found = true → visAt st.vis goal.x goal.y = true
  fbwd : visAt st.vis goal.x goal.y = true →
    st.found = true ∨ (goal.x = src.x ∧ goal.y = src.y)

/-- Strong BFS invariant, meaningful while the goal is not yet found:
the queue splits into the current level and the next one, every cell at
distance at most the current level is visited, and every visited cell
off the queue has all its traversable neighbours visited. -/
def SInv (m : Grid) (keys : Nat) (src : Pos) (st : HS) : Prop :=
  ∃ d A B, st.queue = A ++ B ∧
    (∀ c ∈ A, MinT m keys src c d) ∧
    (∀ c ∈ B, MinT m keys src c (d + 1)) ∧
    (∀ (c : Pos) (k : Nat), MinT m keys src c k → k ≤ d →
      visAt st.vis c.x c.y = true) ∧
    (∀ p : Pos, visAt st.vis p.x p.y = true → p ∉ st.queue →
      ∀ c : Pos, Adj p c → traversableB keys (tileAt m c.x c.y) = true →
        visAt st.vis c.x c.y = true)

/-- The invariant carried by the BFS `while` loop. -/
def LoopInv (m : Grid) (keys : Nat) (src goal : Pos) (st : HS) : Prop :=
  WInv m keys src goal st ∧ (st.found = false → SInv m keys src st)

/-- Invariant during the four-direction scan of one popped cell `cur`:
the weak invariant, and — while the goal is unfound — the queue split at
level `lvl`, completeness up to `lvl`, and the frontier property for
every processed cell except possibly `cur` itself. -/
def MidInv (m : Grid) (keys : Nat) (src goal cur : Pos) (lvl : Nat) (st : HS) : Prop :=
  WInv m keys src goal st ∧
  (st.found = false →
    (∃ A B, st.queue = A ++ B ∧ (∀ c ∈ A, MinT m keys src c lvl) ∧
      (∀ c ∈ B, MinT m keys src c (lvl + 1))) ∧
    (∀ (c : Pos) (k : Nat), MinT m keys src c k → k ≤ lvl →
      visAt st.vis c.x c.y = true) ∧
    (∀ p : Pos, visAt st.vis p.x p.y = true → p ∉ st.queue → p ≠ cur →
      ∀ c : Pos, Adj p c → traversableB keys (tileAt m c.x c.y) = true →
        visAt st.vis c.x c.y = true))

theorem tryDir_found (m : Grid) (size keys : Nat) (goal cur : Pos) (st : HS)
    (d : Int × Int) (hf : st.found = true) :
    tryDir m size keys goal cur st d = st := by
  unfold tryDir
  rw [if_pos hf]

theorem tryDir_skip1 (m : Grid) (size keys : Nat) (goal cur : Pos) (st : HS)
    (d : Int × Int) (hf : st.found = false)
    (hc : ¬(0 ≤ (cur.x : Int) + d.1 ∧ (cur.x : Int) + d.1 < (size : Int) ∧
      0 ≤ (cur.y : Int) + d.2 ∧ (cur.y : Int) + d.2 < (size : Int) ∧
      visAt st.vis ((cur.x : Int) + d.1).toNat ((cur.y : Int) + d.2).toNat = false)) :
    tryDir m size keys goal cur st d = st := by
  unfold tryDir
  rw [if_neg (by simp [hf]), if_neg hc]

theorem tryDir_skip2 (m : Grid) (size keys : Nat) (goal cur : Pos) (st : HS)
    (d : Int × Int) (hf : st.found = false)
    (hc : 0 ≤ (cur.x : Int) + d.1 ∧ (cur.x : Int) + d.1 < (size : Int) ∧
      0 ≤ (cur.y : Int) + d.2 ∧ (cur.y : Int) + d.2 < (size : Int) ∧
      visAt st.vis ((cur.x : Int) + d.1).toNat ((cur.y : Int) + d.2).toNat = false)
    (ht : ¬traversableB keys (tileAt m ((cur.x : Int) + d.1).toNat
      ((cur.y : Int) + d.2).toNat) = true) :
    tryDir m size keys goal cur st d = st := by
  unfold tryDir
  rw [if_neg (by simp [hf]), if_pos hc, if_neg ht]

theorem tryDir_push (m : Grid) (size keys : Nat) (goal cur : Pos) (st : HS)
    (d : Int × Int) (hf : st.found = false)
    (hc : 0 ≤ (cur.x : Int) + d.1 ∧ (cur.x : Int) + d.1 < (size : Int) ∧
      0 ≤ (cur.y : Int) + d.2 ∧ (cur.y : Int) + d.2 < (size : Int) ∧
      visAt st.vis ((cur.x : Int) + d.1).toNat ((cur.y : Int) + d.2).toNat = false)
    (ht : traversableB keys (tileAt m ((cur.x : Int) + d.1).toNat
      ((cur.y : Int) + d.2).toNat) = true) :
    tryDir m size keys goal cur st d =
      { vis := setVis st.vis ((cur.x : Int) + d.1).toNat ((cur.y : Int) + d.2).toNat
        par := setPar st.par ((cur.x : Int) + d.1).toNat ((cur.y : Int) + d.2).toNat
          (some cur)
        queue := st.queue ++
          [⟨((cur.x : Int) + d.1).toNat, ((cur.y : Int) + d.2).toNat⟩]
        found := decide (((cur.x : Int) + d.1).toNat = goal.x ∧
          ((cur.y : Int) + d.2).toNat = goal.y) } := by
  unfold tryDir
  rw [if_neg (by simp [hf]), if_pos hc, if_pos ht]

theorem getD_row_len {α : Type} (v : List (List α)) (s y : Nat)
    (hrow : ∀ row ∈ v, row.length = s) (hy : y < v.length) :
    (v.getD y []).length = s :=
  hrow _ (List.getD_eq_getElem v [] hy ▸ List.getElem_mem hy)

theorem visAt_mono_set (v : List (List Bool)) (nx ny : Nat)
    (hyb : ny < v.length) (hxb : nx < (v.getD ny []).length) :
    ∀ x y, visAt v x y = true → visAt (setVis v nx ny) x y = true := by
  intro x y h
  by_cases hs : x = nx ∧ y = ny
  · rw [hs.1, hs.2]
    exact visAt_setVis_self v nx ny hyb hxb
  · rw [visAt_setVis_ne v nx ny x y hs]
    exact h

theorem tryDir_spec (m : Grid) (keys : Nat) (src goal cur : Pos) (lvl : Nat)
    (hsq : SquareGrid m) (hcur : MinT m keys src cur lvl)
    (d : Int × Int) (hd : d ∈ directions) (st : HS)
    (hcurvis : visAt st.vis cur.x cur.y = true)
    (hmid : MidInv m keys src goal cur lvl st) :
    MidInv m keys src goal cur lvl (tryDir m m.length keys goal cur st d) ∧
    (∀ x y, visAt st.vis x y = true →
      visAt (tryDir m m.length keys goal cur st d).vis x y = true) ∧
    ((tryDir m m.length keys goal cur st d).queue.length +
        (m.length * m.length - countVis (tryDir m m.length keys goal cur st d).vis) =
      st.queue.length + (m.length * m.length - countVis st.vis)) ∧
    ((tryDir m m.length keys goal cur st d).found = false →
      ∀ c : Pos, c.x = ((cur.x : Int) + d.1).toNat →
        c.y = ((cur.y : Int) + d.2).toNat →
        0 ≤ (cur.x : Int) + d.1 → 0 ≤ (cur.y : Int) + d.2 →
        traversableB keys (tileAt m c.x c.y) = true →
        visAt (tryDir m m.length keys goal cur st d).vis c.x c.y = true) ∧
    ((tryDir m m.length keys goal cur st d).found = false → st.found = false) := by
  by_cases hf : st.found = true
  · rw [tryDir_found m m.length keys goal cur st d hf]
    refine ⟨hmid, fun x y h => h, rfl, ?_, fun hff => hff⟩
    intro hff
    rw [hff] at hf
    exact Bool.noConfusion hf
  · have hf' : st.found = false := by
      cases hfound : st.found
      · rfl
      · exact absurd hfound hf
    by_cases hc : (0 ≤ (cur.x : Int) + d.1 ∧ (cur.x : Int) + d.1 < (m.length : Int) ∧
        0 ≤ (cur.y : Int) + d.2 ∧ (cur.y : Int) + d.2 < (m.length : Int) ∧
        visAt st.vis ((cur.x : Int) + d.1).toNat ((cur.y : Int) + d.2).toNat = false)
    · by_cases ht : traversableB keys (tileAt m ((cur.x : Int) + d.1).toNat
          ((cur.y : Int) + d.2).toNat) = true
      · -- the push case
        rw [tryDir_push m m.length keys goal cur st d hf' hc ht]
        obtain ⟨hx0, hx1, hy0, hy1, hvF⟩ := hc
        set nx : Nat := ((cur.x : Int) + d.1).toNat with hnxd
        set ny : Nat := ((cur.y : Int) + d.2).toNat with hnyd
        dsimp only
        obtain ⟨hW, hSf⟩ := hmid
        obtain ⟨⟨A, B, hAB, hA, hB⟩, hcomp, hfront⟩ := hSf hf'
        have hnxb : nx < m.length := by omega
        have hnyb : ny < m.length := by omega
        have hyb : ny < st.vis.length := by rw [hW.vlen]; exact hnyb
        have hxb : nx < (st.vis.getD ny []).length := by
          rw [getD_row_len st.vis m.length ny hW.vrow hyb]
          exact hnxb
        have hpyb : ny < st.par.length := by rw [hW.plen]; exact hnyb
        have hpxb : nx < (st.par.getD ny []).length := by
          rw [getD_row_len st.par m.length ny hW.prow hpyb]
          exact hnxb
        have hmono := visAt_mono_set st.vis nx ny hyb hxb
        have hadj : Adj cur ⟨nx, ny⟩ := by
          rw [hnxd, hnyd]
          simp only [directions, List.mem_cons, List.mem_singleton,
            List.not_mem_nil, or_false] at hd
          unfold Adj
          rcases hd with rfl | rfl | rfl | rfl
          · dsimp only at hx0 hx1 hy0 hy1 ⊢
            omega
          · dsimp only at hx0 hx1 hy0 hy1 ⊢
            omega
          · dsimp only at hx0 hx1 hy0 hy1 ⊢
            omega
          · dsimp only at hx0 hx1 hy0 hy1 ⊢
            omega
        have hnew : MinT m keys src ⟨nx, ny⟩ (lvl + 1) := by
          obtain ⟨⟨l0, hl0, hlen0⟩, -⟩ := hcur
          refine ⟨⟨l0 ++ [⟨nx, ny⟩],
            tchain_snoc m keys src cur ⟨nx, ny⟩ l0 hl0 hadj ht, by simp [hlen0]⟩, ?_⟩
          intro l2 hl2
          by_contra hcon
          push_neg at hcon
          obtain ⟨j, hj, hjle⟩ := minT_exists m keys src ⟨nx, ny⟩ l2 hl2
          have hvis := hcomp ⟨nx, ny⟩ j hj (by omega)
          dsimp only at hvis
          rw [hvF] at hvis
          exact Bool.noConfusion hvis
        refine ⟨⟨⟨?_, ?_, ?_, ?_, ?_, ?_, ?_, ?_, ?_⟩, ?_⟩, hmono, ?_, ?_, fun _ => hf'⟩
        · rw [length_setVis]
          exact hW.vlen
        · exact rows_setVis st.vis nx ny m.length hW.vrow
        · rw [length_setPar]
          exact hW.plen
        · exact rows_setPar st.par nx ny (some cur) m.length hW.prow
        · exact hmono src.x src.y hW.svis
        · intro c hcq
          rcases List.mem_append.mp hcq with h | h
          · exact hmono c.x c.y (hW.qvis c h)
          · rw [List.mem_singleton] at h
            subst h
            dsimp only
            exact visAt_setVis_self st.vis nx ny hyb hxb
        · intro x y hv
          by_cases hs : x = nx ∧ y = ny
          · right
            refine ⟨cur, lvl, ?_, ?_, ?_, hmono cur.x cur.y hcurvis, hcur, ?_⟩
            · rw [hs.1, hs.2]
              exact parAt_setPar_self st.par nx ny (some cur) hpyb hpxb
            · rw [hs.1, hs.2]
              exact hadj
            · rw [hs.1, hs.2]
              exact ht
            · rw [hs.1, hs.2]
              exact hnew
          · rw [visAt_setVis_ne st.vis nx ny x y hs] at hv
            rcases hW.vpar x y hv with hleft | ⟨q, n, hp1, hp2, hp3, hp4, hp5, hp6⟩
            · exact Or.inl hleft
            · right
              refine ⟨q, n, ?_, hp2, hp3, hmono q.x q.y hp4, hp5, hp6⟩
              rw [parAt_setPar_ne st.par nx ny (some cur) x y hs]
              exact hp1
        · intro hfd
          obtain ⟨he1, he2⟩ := of_decide_eq_true hfd
          rw [← he1, ← he2]
          exact visAt_setVis_self st.vis nx ny hyb hxb
        · intro hvg
          by_cases hs : goal.x = nx ∧ goal.y = ny
          · exact Or.inl (decide_eq_true ⟨hs.1.symm, hs.2.symm⟩)
          · rw [visAt_setVis_ne st.vis nx ny goal.x goal.y hs] at hvg
            rcases hW.fbwd hvg with hfo | hsrc
            · rw [hf'] at hfo
              exact Bool.noConfusion hfo
            · exact Or.inr hsrc
        · intro hff
          refine ⟨⟨A, B ++ [⟨nx, ny⟩], ?_, hA, ?_⟩, ?_, ?_⟩
          · rw [hAB, List.append_assoc]
          · intro c hcB
            rcases List.mem_append.mp hcB with h | h
            · exact hB c h
            · rw [List.mem_singleton] at h
              subst h
              exact hnew
          · intro c k hk hkle
            exact hmono c.x c.y (hcomp c k hk hkle)
          · intro p hvp hpq hpcur cc hadj2 htr2
            have hpne : ¬(p.x = nx ∧ p.y = ny) := by
              intro hpe
              apply hpq
              have hpp : p = ⟨nx, ny⟩ := by
                cases p with
                | mk a b =>
                  dsimp only at hpe
                  rw [hpe.1, hpe.2]
              rw [hpp]
              exact List.mem_append.mpr (Or.inr (List.mem_singleton.mpr rfl))
            rw [visAt_setVis_ne st.vis nx ny p.x p.y hpne] at hvp
            have hpq2 : p ∉ st.queue := fun hmem =>
              hpq (List.mem_append.mpr (Or.inl hmem))
            exact hmono cc.x cc.y (hfront p hvp hpq2 hpcur cc hadj2 htr2)
        · have hcv := countVis_setVis_succ st.vis nx ny hvF hyb hxb
          have hle : countVis (setVis st.vis nx ny) ≤ m.length * m.length := by
            have h2 := countVis_le (setVis st.vis nx ny) m.length
              (rows_setVis st.vis nx ny m.length hW.vrow)
            rw [length_setVis, hW.vlen] at h2
            exact h2
          have hql : (st.queue ++ [(⟨nx, ny⟩ : Pos)]).length = st.queue.length + 1 := by
            simp
          omega
        · intro hff c hcx hcy hh1 hh2 hh3
          rw [hcx, hcy]
          exact visAt_setVis_self st.vis nx ny hyb hxb
      · -- unvisited in-bounds neighbour that is not traversable
        rw [tryDir_skip2 m m.length keys goal cur st d hf' hc ht]
        refine ⟨hmid, fun x y h => h, rfl, ?_, fun _ => hf'⟩
        intro hff c hcx hcy hh1 hh2 htr
        rw [hcx, hcy] at htr
        exact absurd htr ht
    · -- bound or visited check fails
      rw [tryDir_skip1 m m.length keys goal cur st d hf' hc]
      refine ⟨hmid, fun x y h => h, rfl, ?_, fun _ => hf'⟩
      intro hff c hcx hcy hh1 hh2 htr
      obtain ⟨hbx, hby⟩ := trav_bounds m keys c hsq htr
      have h1 : (cur.x : Int) + d.1 < (m.length : Int) := by omega
      have h2 : (cur.y : Int) + d.2 < (m.length : Int) := by omega
      by_cases hv : visAt st.vis ((cur.x : Int) + d.1).toNat
          ((cur.y : Int) + d.2).toNat = false
      · exact absurd ⟨hh1, h1, hh2, h2, hv⟩ hc
      · have hv2 : visAt st.vis ((cur.x : Int) + d.1).toNat
            ((cur.y : Int) + d.2).toNat = true := by
          cases hvv : visAt st.vis ((cur.x : Int) + d.1).toNat
              ((cur.y : Int) + d.2).toNat
          · exact absurd hvv hv
          · rfl
        rw [hcx, hcy]
        exact hv2

theorem bfsStep_spec (m : Grid) (keys : Nat) (src goal cur : Pos) (lvl : Nat)
    (hsq : SquareGrid m) (hcur : MinT m keys src cur lvl) (st : HS)
    (hcurvis : visAt st.vis cur.x cur.y = true)
    (hmid : MidInv m keys src goal cur lvl st) :
    MidInv m keys src goal cur lvl (bfsStep m m.length keys goal cur st) ∧
    (∀ x y, visAt st.vis x y = true →
      visAt (bfsStep m m.length keys goal cur st).vis x y = true) ∧
    ((bfsStep m m.length keys goal cur st).queue.length +
        (m.length * m.length - countVis (bfsStep m m.length keys goal cur st).vis) =
      st.queue.length + (m.length * m.length - countVis st.vis)) ∧
    ((bfsStep m m.length keys goal cur st).found = false →
      ∀ c : Pos, Adj cur c → traversableB keys (tileAt m c.x c.y) = true →
        visAt (bfsStep m m.length keys goal cur st).vis c.x c.y = true) ∧
    ((bfsStep m m.length keys goal cur st).found = false → st.found = false) := by
  have hd1 : ((0 : Int), (1 : Int)) ∈ directions := by simp [directions]
  have hd2 : ((1 : Int), (0 : Int)) ∈ directions := by simp [directions]
  have hd3 : ((0 : Int), (-1 : Int)) ∈ directions := by simp [directions]
  have hd4 : ((-1 : Int), (0 : Int)) ∈ directions := by simp [directions]
  have H1 := tryDir_spec m keys src goal cur lvl hsq hcur (0, 1) hd1 st hcurvis hmid
  have hv1 := H1.2.1 cur.x cur.y hcurvis
  have H2 := tryDir_spec m keys src goal cur lvl hsq hcur (1, 0) hd2 _ hv1 H1.1
  have hv2 := H2.2.1 cur.x cur.y hv1
  have H3 := tryDir_spec m keys src goal cur lvl hsq hcur (0, -1) hd3 _ hv2 H2.1
  have hv3 := H3.2.1 cur.x cur.y hv2
  have H4 := tryDir_spec m keys src goal cur lvl hsq hcur (-1, 0) hd4 _ hv3 H3.1
  have hstep : bfsStep m m.length keys goal cur st =
      tryDir m m.length keys goal cur
        (tryDir m m.length keys goal cur
          (tryDir m m.length keys goal cur
            (tryDir m m.length keys goal cur st (0, 1)) (1, 0)) (0, -1)) (-1, 0) := by
    simp only [bfsStep, directions, List.foldl]
  rw [hstep]
  refine ⟨H4.1, ?_, ?_, ?_, ?_⟩
  · intro x y h
    exact H4.2.1 x y (H3.2.1 x y (H2.2.1 x y (H1.2.1 x y h)))
  · rw [H4.2.2.1, H3.2.2.1, H2.2.2.1, H1.2.2.1]
  · intro hff c hadj htr
    have hf3 : (tryDir m m.length keys goal cur
        (tryDir m m.length keys goal cur
          (tryDir m m.length keys goal cur st (0, 1)) (1, 0)) (0, -1)).found = false :=
      H4.2.2.2.2 hff
    have hf2 : (tryDir m m.length keys goal cur
        (tryDir m m.length keys goal cur st (0, 1)) (1, 0)).found = false :=
      H3.2.2.2.2 hf3
    have hf1 : (tryDir m m.length keys goal cur st (0, 1)).found = false :=
      H2.2.2.2.2 hf2
    obtain ⟨dd, hdd, hce1, hce2, hc0x, hc0y⟩ := adj_cases cur c hadj
    simp only [directions, List.mem_cons, List.mem_singleton,
      List.not_mem_nil, or_false] at hdd
    rcases hdd with rfl | rfl | rfl | rfl
    · have hcv := H1.2.2.2.1 hf1 c hce1.symm hce2.symm hc0x hc0y htr
      exact H4.2.1 c.x c.y (H3.2.1 c.x c.y (H2.2.1 c.x c.y hcv))
    · have hcv := H2.2.2.2.1 hf2 c hce1.symm hce2.symm hc0x hc0y htr
      exact H4.2.1 c.x c.y (H3.2.1 c.x c.y hcv)
    · have hcv := H3.2.2.2.1 hf3 c hce1.symm hce2.symm hc0x hc0y htr
      exact H4.2.1 c.x c.y hcv
    · exact H4.2.2.2.1 hff c hce1.symm hce2.symm hc0x hc0y htr
  · intro hff
    exact H1.2.2.2.2 (H2.2.2.2.2 (H3.2.2.2.2 (H4.2.2.2.2 hff)))

/-- When the whole queue sits at level `d0 + 1`, completeness extends
from level `d0` to level `d0 + 1`. -/
theorem level_shift (m : Grid) (keys : Nat) (src : Pos) (st : HS) (d0 : Nat)
    (hq : ∀ c ∈ st.queue, MinT m keys src c (d0 + 1))
    (hcomp : ∀ (c : Pos) (k : Nat), MinT m keys src c k → k ≤ d0 →
      visAt st.vis c.x c.y = true)
    (hfront : ∀ p : Pos, visAt st.vis p.x p.y = true → p ∉ st.queue →
      ∀ c : Pos, Adj p c → traversableB keys (tileAt m c.x c.y) = true →
        visAt st.vis c.x c.y = true) :
    ∀ (c : Pos) (k : Nat), MinT m keys src c k → k ≤ d0 + 1 →
      visAt st.vis c.x c.y = true := by
  intro c k hk hkle
  by_cases hkd : k ≤ d0
  · exact hcomp c k hk hkd
  · have hke : k = d0 + 1 := by omega
    subst hke
    obtain ⟨htrav, r, j, hj, hr, hadj⟩ := minT_succ_decomp m keys src c d0 hk
    have hvr := hcomp r j hr hj
    have hrq : r ∉ st.queue := by
      intro hmem
      have := minT_unique m keys src r j (d0 + 1) hr (hq r hmem)
      omega
    exact hfront r hvr hrq c hadj htrav

theorem bfsLoop_nil (m : Grid) (size keys : Nat) (goal : Pos) (fuel : Nat) (st : HS)
    (hq : st.queue = []) : bfsLoop m size keys goal (fuel + 1) st = st := by
  simp only [bfsLoop]
  rw [hq]

theorem bfsLoop_found (m : Grid) (size keys : Nat) (goal : Pos) (fuel : Nat)
    (st : HS) (cur : Pos) (rest : List Pos) (hq : st.queue = cur :: rest)
    (hf : st.found = true) : bfsLoop m size keys goal (fuel + 1) st = st := by
  simp only [bfsLoop]
  rw [hq]
  dsimp only
  rw [if_pos hf]

theorem bfsLoop_cons (m : Grid) (size keys : Nat) (goal : Pos) (fuel : Nat)
    (st : HS) (cur : Pos) (rest : List Pos) (hq : st.queue = cur :: rest)
    (hf : st.found = false) :
    bfsLoop m size keys goal (fuel + 1) st =
      bfsLoop m size keys goal fuel
        (bfsStep m size keys goal cur { st with queue := rest }) := by
  simp only [bfsLoop]
  rw [hq]
  dsimp only
  rw [if_neg (by simp [hf])]

/-- Processing one popped cell restores the loop invariant and decreases
nothing but the pop in the termination measure. -/
theorem iter_assemble (m : Grid) (keys : Nat) (src goal cur : Pos) (lvl : Nat)
    (hsq : SquareGrid m) (hcur : MinT m keys src cur lvl) (st1 : HS)
    (hcurvis : visAt st1.vis cur.x cur.y = true)
    (hmid : MidInv m keys src goal cur lvl st1) :
    LoopInv m keys src goal (bfsStep m m.length keys goal cur st1) ∧
    ((bfsStep m m.length keys goal cur st1).queue.length +
        (m.length * m.length - countVis (bfsStep m m.length keys goal cur st1).vis) =
      st1.queue.length + (m.length * m.length - countVis st1.vis)) ∧
    (∀ x y, visAt st1.vis x y = true →
      visAt (bfsStep m m.length keys goal cur st1).vis x y = true) := by
  have H := bfsStep_spec m keys src goal cur lvl hsq hcur st1 hcurvis hmid
  refine ⟨⟨H.1.1, ?_⟩, H.2.2.1, H.2.1⟩
  intro hf2
  obtain ⟨⟨A2, B2, hAB2, hA2, hB2⟩, hcomp2, hfront2⟩ := H.1.2 hf2
  refine ⟨lvl, A2, B2, hAB2, hA2, hB2, hcomp2, ?_⟩
  intro p hvp hpq c hadj htr
  by_cases hpc : p = cur
  · subst hpc
    exact H.2.2.2.1 hf2 c hadj htr
  · exact hfront2 p hvp hpq hpc c hadj htr

theorem bfsLoop_spec (m : Grid) (keys : Nat) (src goal : Pos) (hsq : SquareGrid m) :
    ∀ (fuel : Nat) (st : HS), LoopInv m keys src goal st →
      st.queue.length + (m.length * m.length - countVis st.vis) < fuel →
      LoopInv m keys src goal (bfsLoop m m.length keys goal fuel st) ∧
      ((bfsLoop m m.length keys goal fuel st).found = true ∨
        (bfsLoop m m.length keys goal fuel st).queue = []) ∧
      (∀ x y, visAt st.vis x y = true →
        visAt (bfsLoop m m.length keys goal fuel st).vis x y = true) := by
  intro fuel
  induction fuel with
  | zero =>
    intro st hinv hm
    omega
  | succ n ih =>
    intro st hinv hm
    cases hq : st.queue with
    | nil =>
      rw [bfsLoop_nil m m.length keys goal n st hq]
      exact ⟨hinv, Or.inr hq, fun x y h => h⟩
    | cons cur rest =>
      by_cases hf : st.found = true
      · rw [bfsLoop_found m m.length keys goal n st cur rest hq hf]
        exact ⟨hinv, Or.inl hf, fun x y h => h⟩
      · have hf' : st.found = false := by
          cases hfound : st.found
          · rfl
          · exact absurd hfound hf
        rw [bfsLoop_cons m m.length keys goal n st cur rest hq hf']
        obtain ⟨hW, hS⟩ := hinv
        obtain ⟨d0, A, B, hAB, hA, hB, hcomp, hfront⟩ := hS hf'
        have hcurq : cur ∈ st.queue := by
          rw [hq]
          exact List.mem_cons_self cur rest
        have hcurvis : visAt st.vis cur.x cur.y = true := hW.qvis cur hcurq
        have hW1 : WInv m keys src goal { st with queue := rest } :=
          ⟨hW.vlen, hW.vrow, hW.plen, hW.prow, hW.svis,
            fun c hc => hW.qvis c (by rw [hq]; exact List.mem_cons_of_mem _ hc),
            hW.vpar, hW.ffwd, hW.fbwd⟩
        have hmain : ∃ lvl, MinT m keys src cur lvl ∧
            MidInv m keys src goal cur lvl { st with queue := rest } := by
          cases A with
          | nil =>
            -- the queue is entirely the next level; shift levels
            have hBq : B = cur :: rest := by
              rw [← hq, hAB, List.nil_append]
            have hqall : ∀ c ∈ st.queue, MinT m keys src c (d0 + 1) := by
              intro c hc
              rw [hAB, List.nil_append] at hc
              exact hB c hc
            have hcomp2 := level_shift m keys src st d0 hqall hcomp hfront
            refine ⟨d0 + 1, hB cur (by rw [hBq]; exact List.mem_cons_self cur rest),
              hW1, ?_⟩
            intro hf1
            refine ⟨⟨rest, [], by rw [List.append_nil], ?_, by intro c hc; cases hc⟩,
              hcomp2, ?_⟩
            · intro c hc
              exact hB c (by rw [hBq]; exact List.mem_cons_of_mem _ hc)
            · intro p hvp hpq hpcur c hadj htr
              refine hfront p hvp ?_ c hadj htr
              rw [hq]
              intro hmem
              rcases List.mem_cons.mp hmem with he | he
              · exact hpcur he
              · exact hpq he
          | cons a0 A2 =>
            have hinj : cur = a0 ∧ rest = A2 ++ B := by
              have h2 : cur :: rest = a0 :: (A2 ++ B) := by
                rw [← hq, hAB]
                rfl
              exact ⟨by injection h2, by injection h2⟩
            obtain ⟨rfl, hrest⟩ := hinj
            refine ⟨d0, hA cur (List.mem_cons_self cur A2), hW1, ?_⟩
            intro hf1
            refine ⟨⟨A2, B, hrest, fun c hc => hA c (List.mem_cons_of_mem _ hc), hB⟩,
              hcomp, ?_⟩
            intro p hvp hpq hpcur c hadj htr
            refine hfront p hvp ?_ c hadj htr
            rw [hq]
            intro hmem
            rcases List.mem_cons.mp hmem with he | he
            · exact hpcur he
            · exact hpq he
        obtain ⟨lvl, hcur, hmid⟩ := hmain
        have HI := iter_assemble m keys src goal cur lvl hsq hcur
          { st with queue := rest } hcurvis hmid
        have hmeas : (bfsStep m m.length keys goal cur
            { st with queue := rest }).queue.length +
            (m.length * m.length -
              countVis (bfsStep m m.length keys goal cur
                { st with queue := rest }).vis) < n := by
          rw [HI.2.1]
          have hb : ({ st with queue := rest } : HS).queue.length = rest.length := rfl
          have he2 : countVis ({ st with queue := rest } : HS).vis =
            countVis st.vis := rfl
          rw [hb, he2]
          have hlen : st.queue.length = rest.length + 1 := by
            rw [hq]
            rfl
          omega
        have HR := ih (bfsStep m m.length keys goal cur { st with queue := rest })
          HI.1 hmeas
        exact ⟨HR.1, HR.2.1, fun x y h => HR.2.2 x y (HI.2.2 x y h)⟩

theorem countVis_falseMat (s : Nat) : countVis (falseMat s) = 0 := by
  unfold countVis falseMat
  have h : List.count true (List.replicate s false) = 0 := by
    rw [List.count_eq_zero]
    intro hmem
    exact Bool.noConfusion (List.eq_of_mem_replicate hmem)
  simp [h]

theorem rows_falseMat (s : Nat) : ∀ row ∈ falseMat s, row.length = s := by
  intro row hrow
  unfold falseMat at hrow
  rw [List.eq_of_mem_replicate hrow]
  simp

theorem rows_noneMat (s : Nat) : ∀ row ∈ noneMat s, row.length = s := by
  intro row hrow
  unfold noneMat at hrow
  rw [List.eq_of_mem_replicate hrow]
  simp

/-- The freshly initialised BFS state satisfies the loop invariant and
has exactly one visited cell. -/
theorem init_loopInv (m : Grid) (keys : Nat) (src goal : Pos)
    (hsx : src.x < m.length) (hsy : src.y < m.length) :
    LoopInv m keys src goal
      { vis := setVis (falseMat m.length) src.x src.y
        par := noneMat m.length
        queue := [src]
        found := false } ∧
    countVis (setVis (falseMat m.length) src.x src.y) = 1 := by
  have hflen : (falseMat m.length).length = m.length := by simp [falseMat]
  have hyb : src.y < (falseMat m.length).length := by rw [hflen]; exact hsy
  have hxb : src.x < ((falseMat m.length).getD src.y []).length := by
    rw [getD_row_len (falseMat m.length) m.length src.y (rows_falseMat m.length) hyb]
    exact hsx
  have hself : visAt (setVis (falseMat m.length) src.x src.y) src.x src.y = true :=
    visAt_setVis_self _ _ _ hyb hxb
  have honly : ∀ x y, visAt (setVis (falseMat m.length) src.x src.y) x y = true →
      x = src.x ∧ y = src.y := by
    intro x y hv
    by_cases hs : x = src.x ∧ y = src.y
    · exact hs
    · rw [visAt_setVis_ne _ _ _ _ _ hs, visAt_falseMat] at hv
      exact Bool.noConfusion hv
  have hcv : countVis (setVis (falseMat m.length) src.x src.y) = 1 := by
    rw [countVis_setVis_succ (falseMat m.length) src.x src.y
      (visAt_falseMat m.length src.x src.y) hyb hxb, countVis_falseMat]
  refine ⟨⟨⟨?_, ?_, ?_, ?_, hself, ?_, ?_, ?_, ?_⟩, ?_⟩, hcv⟩
  · rw [length_setVis]
    exact hflen
  · exact rows_setVis _ _ _ _ (rows_falseMat m.length)
  · simp [noneMat]
  · exact rows_noneMat m.length
  · intro c hc
    rw [List.mem_singleton] at hc
    rw [hc]
    exact hself
  · intro x y hv
    exact Or.inl (honly x y hv)
  · intro hfd
    exact Bool.noConfusion hfd
  · intro hvg
    exact Or.inr (honly goal.x goal.y hvg)
  · intro hff
    refine ⟨0, [src], [], ?_, ?_, ?_, ?_, ?_⟩
    · rw [List.append_nil]
    · intro c hc
      rw [List.mem_singleton] at hc
      rw [hc]
      exact minT_src m keys src
    · intro c hc
      cases hc
    · intro c k hk hkle
      have hk0 : k = 0 := by omega
      subst hk0
      have hcs : c = src := minT_zero m keys src c hk
      rw [hcs]
      exact hself
    · intro p hvp hpq c hadj htr
      exfalso
      apply hpq
      have hps : p = src := by
        have h1 := honly p.x p.y hvp
        cases p with
        | mk a b =>
          dsimp only at h1
          rw [h1.1, h1.2]
      rw [hps]
      exact List.mem_singleton.mpr rfl

/-- With an empty queue, every cell at finite BFS distance is visited. -/
theorem closure_of_empty (m : Grid) (keys : Nat) (src : Pos) (st : HS)
    (hq : st.queue = []) (hS : SInv m keys src st) :
    ∀ (k : Nat) (c : Pos), MinT m keys src c k →
      visAt st.vis c.x c.y = true := by
  obtain ⟨d0, A, B, hAB, hA, hB, hcomp, hfront⟩ := hS
  intro k
  induction k using Nat.strong_induction_on with
  | _ k ih =>
    intro c hc
    by_cases hkd : k ≤ d0
    · exact hcomp c k hc hkd
    · cases k with
      | zero => omega
      | succ k0 =>
        obtain ⟨htrav, r, j, hj, hr, hadj⟩ := minT_succ_decomp m keys src c k0 hc
        have hvr := ih j (by omega) r hr
        have hrq : r ∉ st.queue := by
          rw [hq]
          exact List.not_mem_nil r
        exact hfront r hvr hrq c hadj htrav

/-- Along the parent chain, a cell at distance `n` yields `n + 1`
pairwise distinct visited in-bounds cells. -/
theorem vis_dist_bound (m : Grid) (keys : Nat) (src goal : Pos) (st : HS)
    (hsq : SquareGrid m) (hW : WInv m keys src goal st)
    (hsx : src.x < m.length) (hsy : src.y < m.length) :
    ∀ (n : Nat) (c : Pos), visAt st.vis c.x c.y = true → MinT m keys src c n →
      ∃ cells : List Pos, cells.length = n + 1 ∧ cells.Nodup ∧
        (∀ p ∈ cells, p.x < m.length ∧ p.y < m.length) ∧
        (∀ p ∈ cells, ∃ k, k ≤ n ∧ MinT m keys src p k) := by
  intro n
  induction n with
  | zero =>
    intro c hv hc
    have hcs : c = src := minT_zero m keys src c hc
    refine ⟨[c], rfl, List.nodup_singleton c, ?_, ?_⟩
    · intro p hp
      rw [List.mem_singleton] at hp
      subst hp
      rw [hcs]
      exact ⟨hsx, hsy⟩
    · intro p hp
      rw [List.mem_singleton] at hp
      subst hp
      exact ⟨0, Nat.le_refl 0, hc⟩
  | succ n0 ihn =>
    intro c hv hc
    rcases hW.vpar c.x c.y hv with hleft | ⟨q, k, hp1, hp2, hp3, hp4, hp5, hp6⟩
    · exfalso
      have hcs : c = src := by
        cases c with
        | mk a b =>
          dsimp only at hleft
          rw [hleft.1, hleft.2]
      rw [hcs] at hc
      have := minT_unique m keys src src (n0 + 1) 0 hc (minT_src m keys src)
      omega
    · have hk : k = n0 := by
        have := minT_unique m keys src c (k + 1) (n0 + 1) hp6 hc
        omega
      subst hk
      obtain ⟨cells, hlen, hnd, hbnds, hdists⟩ := ihn q hp4 hp5
      refine ⟨c :: cells, by simp [hlen], ?_, ?_, ?_⟩
      · rw [List.nodup_cons]
        refine ⟨?_, hnd⟩
        intro hmem
        obtain ⟨k2, hk2, hmk2⟩ := hdists c hmem
        have := minT_unique m keys src c (k + 1) k2 hc hmk2
        omega
      · intro p hp
        rcases List.mem_cons.mp hp with rfl | hp
        · exact trav_bounds m keys p hsq hp3
        · exact hbnds p hp
      · intro p hp
        rcases List.mem_cons.mp hp with rfl | hp
        · exact ⟨k + 1, Nat.le_refl _, hc⟩
        · obtain ⟨k2, hk2, hmk2⟩ := hdists p hp
          exact ⟨k2, by omega, hmk2⟩

theorem sum_map_const (s b : Nat) : ((List.range s).map fun _ => b).sum = s * b := by
  induction s with
  | zero => simp
  | succ n ih =>
    rw [List.range_succ, List.map_append, List.sum_append]
    simp [ih, Nat.succ_mul]

/-- Pigeonhole: pairwise distinct in-bounds cells number at most
`size * size`. -/
theorem nodup_cells_le (size : Nat) (cells : List Pos) (hnd : cells.Nodup)
    (hb : ∀ p ∈ cells, p.x < size ∧ p.y < size) :
    cells.length ≤ size * size := by
  have hsub : cells ⊆ (List.range size).flatMap fun y =>
      (List.range size).map fun x => (⟨x, y⟩ : Pos) := by
    intro p hp
    rw [List.mem_flatMap]
    refine ⟨p.y, List.mem_range.mpr (hb p hp).2, ?_⟩
    rw [List.mem_map]
    exact ⟨p.x, List.mem_range.mpr (hb p hp).1, rfl⟩
  have hlen := (List.Nodup.subperm hnd hsub).length_le
  have hflat : ((List.range size).flatMap fun y =>
      (List.range size).map fun x => (⟨x, y⟩ : Pos)).length = size * size := by
    rw [List.length_flatMap]
    have h1 : (List.map (List.length ∘ fun y =>
        List.map (fun x => (⟨x, y⟩ : Pos)) (List.range size)) (List.range size)) =
        List.map (fun _ => size) (List.range size) := by
      apply List.map_congr_left
      intro y _
      simp [Function.comp]
    rw [h1, sum_map_const]
  rw [hflat] at hlen
  exact hlen

/-- Following parent pointers from a visited cell at distance `n`
reconstructs, in `n` steps, a shortest traversable walk back to the
start. -/
theorem reconstruct_spec (m : Grid) (keys : Nat) (src goal : Pos) (st : HS)
    (hW : WInv m keys src goal st) :
    ∀ (n : Nat) (c : Pos) (fuel : Nat) (acc : List Pos),
      visAt st.vis c.x c.y = true → MinT m keys src c n → n < fuel →
      ∃ l, reconstruct st.par src fuel c acc = l ++ acc ∧ l.length = n ∧
        ChainTo src l c ∧ ∀ p ∈ l, traversableB keys (tileAt m p.x p.y) = true := by
  intro n
  induction n with
  | zero =>
    intro c fuel acc hv hc hfuel
    have hcs : c = src := minT_zero m keys src c hc
    cases fuel with
    | zero => omega
    | succ f =>
      refine ⟨[], ?_, rfl, by rw [hcs]; exact rfl, by intro p hp; cases hp⟩
      simp only [reconstruct]
      rw [if_pos (by rw [hcs]; exact ⟨rfl, rfl⟩)]
      rfl
  | succ n0 ihn =>
    intro c fuel acc hv hc hfuel
    have hcsrc : ¬(c.x = src.x ∧ c.y = src.y) := by
      intro hcs
      have hceq : c = src := by
        cases c with
        | mk a b =>
          dsimp only at hcs
          rw [hcs.1, hcs.2]
      rw [hceq] at hc
      have := minT_unique m keys src src (n0 + 1) 0 hc (minT_src m keys src)
      omega
    rcases hW.vpar c.x c.y hv with hleft | ⟨q, k, hp1, hp2, hp3, hp4, hp5, hp6⟩
    · exact absurd hleft hcsrc
    · have hk : k = n0 := by
        have := minT_unique m keys src c (k + 1) (n0 + 1) hp6 hc
        omega
      subst hk
      cases fuel with
      | zero => omega
      | succ f =>
        obtain ⟨l2, he2, hlen2, hch2, htr2⟩ := ihn q f (c :: acc) hp4 hp5 (by omega)
        refine ⟨l2 ++ [c], ?_, by simp [hlen2], ?_, ?_⟩
        · simp only [reconstruct]
          rw [if_neg hcsrc, hp1]
          dsimp only
          rw [he2, List.append_assoc, List.singleton_append]
        · exact chainTo_append src q c l2 [c] hch2 ⟨hp2, rfl⟩
        · intro p hp
          rcases List.mem_append.mp hp with hp | hp
          · exact htr2 p hp
          · rw [List.mem_singleton] at hp
            subst hp
            exact hp3

theorem findSome?_unique {α β : Type} (f : α → Option β) (v : β) (x0 : α) :
    ∀ L : List α, x0 ∈ L → f x0 = some v → (∀ x ∈ L, f x = none ∨ x = x0) →
      L.findSome? f = some v := by
  intro L
  induction L with
  | nil =>
    intro h
    cases h
  | cons a L ih =>
    intro hx hfx huniq
    rcases List.mem_cons.mp hx with rfl | hxL
    · rw [List.findSome?_cons, hfx]
    · rcases huniq a (List.mem_cons_self a L) with ha | rfl
      · rw [List.findSome?_cons, ha]
        exact ih hxL hfx fun x hx2 => huniq x (List.mem_cons_of_mem a hx2)
      · rw [List.findSome?_cons, hfx]

/-- The row-major scan returns the unique goal cell. -/
theorem findGoal_eq (m : Grid) (g : Pos) (hsq : SquareGrid m)
    (hgoal : ∀ x y, tileAt m x y = GOAL ↔ (x = g.x ∧ y = g.y)) :
    findGoal m m.length = some g ∧ g.x < m.length ∧ g.y < m.length := by
  have hgt : tileAt m g.x g.y = GOAL := (hgoal g.x g.y).mpr ⟨rfl, rfl⟩
  have hb := bounds_of_tileAt m g.x g.y GOAL (by decide) hgt
  have hgx : g.x < m.length := by
    have h2 := hb.2
    rw [rowLen_of_square m hsq g.y hb.1] at h2
    exact h2
  refine ⟨?_, hgx, hb.1⟩
  unfold findGoal
  apply findSome?_unique _ g g.y _ (List.mem_range.mpr hb.1)
  · apply findSome?_unique _ g g.x _ (List.mem_range.mpr hgx)
    · rw [if_pos hgt]
    · intro x hx
      by_cases hG : tileAt m x g.y = GOAL
      · exact Or.inr ((hgoal x g.y).mp hG).1
      · exact Or.inl (by rw [if_neg hG])
  · intro y hy
    by_cases hyg : y = g.y
    · exact Or.inr hyg
    · left
      rw [List.findSome?_eq_none_iff]
      intro x hx
      rw [if_neg]
      intro hG
      exact hyg ((hgoal x y).mp hG).2

/-- C4: on a square grid holding exactly one goal, with the player in
bounds and off the goal, if a traversable 4-connected walk from the
player to the goal exists (cells `EMPTY`, `KEY`, `GOAL`, or `DOOR` with
a key held; `WALL` and `TRAP` block), then the hint returns the first
cell of a shortest such walk. -/
theorem claim_C4_bfs_hint (m : Grid) (player g : Pos) (keys : Nat)
    (hsq : SquareGrid m)
    (hgoal : ∀ x < m.length, ∀ y < m.length,
      (tileAt m x y = GOAL ↔ (x = g.x ∧ y = g.y)))
    (hpx : player.x < m.length) (hpy : player.y < m.length)
    (hne : ¬(g.x = player.x ∧ g.y = player.y))
    (hpath : ∃ l, TChain m keys player l g) :
    ∃ c l, useHintCore m player keys = HintResult.pathHint c ∧
      TChain m keys player (c :: l) g ∧
      ∀ l2, TChain m keys player l2 g → (c :: l).length ≤ l2.length := by
  obtain ⟨l0, hl0⟩ := hpath
  obtain ⟨N, hN, -⟩ := minT_exists m keys player g l0 hl0
  have hNpos : N ≠ 0 := by
    intro h0
    subst h0
    have hgp := minT_zero m keys player g hN
    apply hne
    rw [hgp]
    exact ⟨rfl, rfl⟩
  obtain ⟨N0, rfl⟩ : ∃ N0, N = N0 + 1 := ⟨N - 1, by omega⟩
  have htrg : traversableB keys (tileAt m g.x g.y) = true :=
    (minT_succ_decomp m keys player g N0 hN).1
  obtain ⟨hgx, hgy⟩ := trav_bounds m keys g hsq htrg
  have hgoal2 : ∀ x y, tileAt m x y = GOAL ↔ (x = g.x ∧ y = g.y) := by
    intro x y
    by_cases hx : x < m.length
    · by_cases hy : y < m.length
      · exact hgoal x hx y hy
      · constructor
        · intro hG
          obtain ⟨hyb, -⟩ := bounds_of_tileAt m x y GOAL (by decide) hG
          exact absurd hyb hy
        · rintro ⟨h1, h2⟩
          omega
    · constructor
      · intro hG
        obtain ⟨hyb, hxb⟩ := bounds_of_tileAt m x y GOAL (by decide) hG
        rw [rowLen_of_square m hsq y hyb] at hxb
        exact absurd hxb hx
      · rintro ⟨h1, h2⟩
        omega
  obtain ⟨hfg, -, -⟩ := findGoal_eq m g hsq hgoal2
  have hinit := init_loopInv m keys player g hpx hpy
  have hm1 : 1 ≤ m.length := by omega
  have hS1 : 1 ≤ m.length * m.length := Nat.mul_le_mul hm1 hm1
  have HL := bfsLoop_spec m keys player g hsq (m.length * m.length + 1)
    { vis := setVis (falseMat m.length) player.x player.y
      par := noneMat m.length
      queue := [player]
      found := false } hinit.1 (by
        show ([player] : List Pos).length + (m.length * m.length -
          countVis (setVis (falseMat m.length) player.x player.y)) <
          m.length * m.length + 1
        rw [hinit.2]
        simp only [List.length_cons, List.length_nil]
        omega)
  set stF := bfsLoop m m.length keys g (m.length * m.length + 1)
    { vis := setVis (falseMat m.length) player.x player.y
      par := noneMat m.length
      queue := [player]
      found := false } with hstF
  obtain ⟨⟨hWF, hSF⟩, hterm, hmonoF⟩ := HL
  have hfound : stF.found = true := by
    by_cases hfc : stF.found = true
    · exact hfc
    · have hf0 : stF.found = false := by
        cases hb : stF.found
        · rfl
        · exact absurd hb hfc
      exfalso
      rcases hterm with ht | hqe
      · exact hfc ht
      · have hvisg := closure_of_empty m keys player stF hqe (hSF hf0) (N0 + 1) g hN
        rcases hWF.fbwd hvisg with hf2 | hgs
        · exact hfc hf2
        · exact hne hgs
  have hvisg : visAt stF.vis g.x g.y = true := hWF.ffwd hfound
  obtain ⟨cells, hclen, hcnd, hcbnd, -⟩ :=
    vis_dist_bound m keys player g stF hsq hWF hpx hpy (N0 + 1) g hvisg hN
  have hNb : N0 + 1 < m.length * m.length + 1 := by
    have := nodup_cells_le m.length cells hcnd hcbnd
    omega
  obtain ⟨lr, hre, hrlen, hrch, hrtr⟩ := reconstruct_spec m keys player g stF hWF
    (N0 + 1) g (m.length * m.length + 1) [] hvisg hN hNb
  rw [List.append_nil] at hre
  cases lr with
  | nil => simp at hrlen
  | cons c0 lt =>
    refine ⟨c0, lt, ?_, ⟨hrch, hrtr⟩, ?_⟩
    · simp only [useHintCore]
      rw [hfg]
      dsimp only
      rw [← hstF, if_pos hfound, hre]
    · intro l2 hl2
      rw [hrlen]
      exact hN.2 l2 hl2

/-- Witness for C4: a player adjacent to the goal with no obstacles gets
the goal cell as the single-step hint. -/
theorem claim_C4_witness :
    ∃ c l, useHintCore [[1, 1, 1, 1], [1, 0, 5, 1], [1, 0, 0, 1], [1, 1, 1, 1]]
        ⟨1, 1⟩ 0 = HintResult.pathHint c ∧
      TChain [[1, 1, 1, 1], [1, 0, 5, 1], [1, 0, 0, 1], [1, 1, 1, 1]] 0
        ⟨1, 1⟩ (c :: l) ⟨2, 1⟩ ∧
      ∀ l2, TChain [[1, 1, 1, 1], [1, 0, 5, 1], [1, 0, 0, 1], [1, 1, 1, 1]] 0
        ⟨1, 1⟩ l2 ⟨2, 1⟩ → (c :: l).length ≤ l2.length :=
  claim_C4_bfs_hint [[1, 1, 1, 1], [1, 0, 5, 1], [1, 0, 0, 1], [1, 1, 1, 1]]
    ⟨1, 1⟩ ⟨2, 1⟩ 0 (by unfold SquareGrid; decide) (by decide) (by decide)
    (by decide) (by decide)
    ⟨[⟨2, 1⟩], by unfold TChain; exact ⟨by decide, by decide⟩⟩

end Maze
